import Mathlib

/-!
# cytmwia::MessqgeQueue — a shallow embedding and its verified properties

Source: `src/message_queue/include/message_queue.hpp`.

Modelling conventions.

* `size_type` is the 64-bit `size_t`; `std::atomic_intmax_t` is a signed 64-bit
  integer whose arithmetic wraps.  Integer values are mathematical integers and
  every conversion or wrapping operation of the source is written out with
  `size_type_of` (reduction into `[0, 2^64)`) and `intmax_of` (reduction into
  `[-2^63, 2^63)`).
* `std::list<T>` is a Lean list together with the number of nodes that were
  already removed by `pop_front`.  A node is identified by its sequence number in
  creation order, so the `k`-th node of the current list has identity
  `erased_ + k`.  An iterator is either the past-the-end iterator or a node
  identity; it is dereferenceable only while its node is in the list.
* Undefined behaviour of the C++ abstract machine (dereferencing or incrementing
  an iterator that is not dereferenceable), a thrown exception and a `pop` that
  would spin forever in a sequential execution are the values of `Fault`.  The
  only allocation failure that is modelled is the one no machine can avoid: a
  `push_back` into a list of `2^63 - 1` nodes.
-/

namespace cytmwia

/-! ## Machine integers -/

/-- Conversion of an integer to `size_type` (unsigned 64 bit). -/
def size_type_of (z : Int) : Nat := (z % 18446744073709551616).toNat

/-- Conversion of an integer to `intmax_t` (signed 64 bit, two's complement). -/
def intmax_of (z : Int) : Int :=
  if size_type_of z < 9223372036854775808 then (size_type_of z : Int)
  else (size_type_of z : Int) - 18446744073709551616

/-- Upper bound of `data_.max_size()`: on a 64-bit platform a list cannot have more
than `PTRDIFF_MAX = 2^63 - 1` nodes. -/
def list_max_size : Nat := 9223372036854775807

/-! ## Faults -/

/-- Ways in which a call does not return normally. -/
inductive Fault where
  | invalid_argument
  | out_of_range
  | bad_alloc
  | undefined_behaviour
  | blocked
  deriving DecidableEq, Repr

/-! ## `std::list` iterators -/

/-- Iterator into `data_`: past-the-end, or the node with the given identity. -/
inductive ListIter where
  | past_the_end
  | node (id : Nat)
  deriving DecidableEq, Repr

/-! ## Data model -/

/-- Fields of `MessqgeQueue<T>::OutputChannel` (the mutexes and `mq_` apart). -/
structure OutputChannel where
  max_size_ : Int
  iterator_ : ListIter
  iterator_stagnated_ : Bool
  iterator_index_ : Int
  deriving DecidableEq, Repr

/-- Fields of `MessqgeQueue<T>`; `erased_` counts the nodes removed from the front
of `data_` and gives the nodes their identities. -/
structure MessqgeQueue (T : Type) where
  data_ : List T
  erased_ : Nat
  output_channels_ : List OutputChannel
  deriving DecidableEq, Repr

/-- Reference to the element `output_channels_[slot]` of the deque. -/
structure ChannelRef where
  slot : Nat
  deriving DecidableEq, Repr

variable {T : Type}

/-! ## List primitives -/

/-- The iterator `data_.end()`. -/
def MessqgeQueue.list_end (_mq : MessqgeQueue T) : ListIter := ListIter.past_the_end

/-- The iterator `data_.begin()`. -/
def MessqgeQueue.list_begin (mq : MessqgeQueue T) : ListIter :=
  match mq.data_ with
  | [] => ListIter.past_the_end
  | _ :: _ => ListIter.node mq.erased_

/-- One `++` on an iterator (also `std::next`): defined only on a node that is
in the list. -/
def MessqgeQueue.iter_next (mq : MessqgeQueue T) : ListIter → Except Fault ListIter
  | ListIter.past_the_end => Except.error Fault.undefined_behaviour
  | ListIter.node a =>
    if mq.erased_ ≤ a ∧ a < mq.erased_ + mq.data_.length then
      if a + 1 < mq.erased_ + mq.data_.length then Except.ok (ListIter.node (a + 1))
      else Except.ok ListIter.past_the_end
    else Except.error Fault.undefined_behaviour

/-- The loop `for (i = 0; i < n; i++) iterator_++`. -/
def MessqgeQueue.iter_advance (mq : MessqgeQueue T) : Nat → ListIter → Except Fault ListIter
  | 0, it => Except.ok it
  | n + 1, it =>
    match mq.iter_next it with
    | Except.error e => Except.error e
    | Except.ok it1 => mq.iter_advance n it1

/-- Dereference `*it`: defined only on a node that is in the list. -/
def MessqgeQueue.iter_deref (mq : MessqgeQueue T) : ListIter → Except Fault T
  | ListIter.past_the_end => Except.error Fault.undefined_behaviour
  | ListIter.node a =>
    if mq.erased_ ≤ a then
      match mq.data_[a - mq.erased_]? with
      | some v => Except.ok v
      | none => Except.error Fault.undefined_behaviour
    else Except.error Fault.undefined_behaviour

/-! ## OutputChannel -/

/-- The constructor `OutputChannel(mq, _max_size)`. -/
def OutputChannel.construct (mq : MessqgeQueue T) (_max_size : Nat) : OutputChannel :=
  { max_size_ := intmax_of _max_size
    iterator_ := mq.list_begin
    iterator_stagnated_ := true
    iterator_index_ := 0 }

/-- The getter `max_size()`. -/
def OutputChannel.max_size (c : OutputChannel) : Nat := size_type_of c.max_size_

/-- The setter `max_size(new_size)`. -/
def OutputChannel.set_max_size (c : OutputChannel) (new_size : Nat) : OutputChannel :=
  { c with max_size_ := intmax_of new_size }

/-- The expression `mq_.data_.size() - iterator_index_.load()` in `size_type`. -/
def OutputChannel.raw_size (mq : MessqgeQueue T) (c : OutputChannel) : Nat :=
  size_type_of ((mq.data_.length : Int) - c.iterator_index_)

/-- The value `diff` of `fit_max_size`: `_size - _max_size` converted to the signed type. -/
def OutputChannel.diff (mq : MessqgeQueue T) (c : OutputChannel) : Int :=
  intmax_of ((c.raw_size mq : Int) - (c.max_size : Int))

/-- Lines 112-122 of `fit_max_size`: the window clamp proper. -/
def OutputChannel.fit_window (mq : MessqgeQueue T) (c : OutputChannel) :
    Except Fault OutputChannel :=
  if c.max_size ≤ 0 then Except.ok c
  else if 0 < c.diff mq then
    match mq.iter_advance (c.diff mq).toNat c.iterator_ with
    | Except.error e => Except.error e
    | Except.ok it =>
      Except.ok { c with iterator_index_ := intmax_of (c.iterator_index_ + c.diff mq)
                         iterator_ := it }
  else Except.ok c

/-- The method `fit_max_size()`: first fit (lines 103-110), then the window clamp. -/
def OutputChannel.fit_max_size (mq : MessqgeQueue T) (c : OutputChannel) :
    Except Fault OutputChannel :=
  if c.iterator_ = mq.list_end then
    if mq.list_begin = mq.list_end then
      Except.ok { c with iterator_ := mq.list_begin }
    else
      OutputChannel.fit_window mq
        { c with iterator_ := mq.list_begin, iterator_stagnated_ := false }
  else OutputChannel.fit_window mq c

/-- The method `size()`: returns the value and the channel after `fit_max_size`. -/
def OutputChannel.size (mq : MessqgeQueue T) (c : OutputChannel) :
    Except Fault (Nat × OutputChannel) :=
  match c.fit_max_size mq with
  | Except.error e => Except.error e
  | Except.ok c1 => Except.ok (c1.raw_size mq, c1)

/-- Lines 131-141 of `pop`, entered once `size()` returned a non-zero value. -/
def OutputChannel.pop_body (mq : MessqgeQueue T) (c : OutputChannel) :
    Except Fault (T × OutputChannel) :=
  let c1 : OutputChannel := { c with iterator_index_ := intmax_of (c.iterator_index_ + 1) }
  let stepped : Except Fault OutputChannel :=
    if c1.iterator_stagnated_ = true then
      match mq.iter_next c1.iterator_ with
      | Except.error e => Except.error e
      | Except.ok it => Except.ok { c1 with iterator_ := it, iterator_stagnated_ := false }
    else Except.ok c1
  match stepped with
  | Except.error e => Except.error e
  | Except.ok c2 =>
    match mq.iter_next c2.iterator_ with
    | Except.error e => Except.error e
    | Except.ok nx =>
      match mq.iter_deref c2.iterator_ with
      | Except.error e => Except.error e
      | Except.ok v =>
        if nx = mq.list_end then Except.ok (v, { c2 with iterator_stagnated_ := true })
        else Except.ok (v, { c2 with iterator_ := nx })

/-- The method `pop()` in a sequential execution: the spin loop returns after one
`size()` call when that is non-zero and never returns otherwise. -/
def OutputChannel.pop (mq : MessqgeQueue T) (c : OutputChannel) :
    Except Fault (T × OutputChannel) :=
  match c.size mq with
  | Except.error e => Except.error e
  | Except.ok (s, c1) =>
    if s = 0 then Except.error Fault.blocked
    else OutputChannel.pop_body mq c1

/-! ## MessqgeQueue -/

/-- The loop `for (i = 0; i < count; i++) output_channels_.emplace_back(*this)`. -/
def MessqgeQueue.emplace_channels (mq : MessqgeQueue T) : Nat → MessqgeQueue T
  | 0 => mq
  | n + 1 =>
    MessqgeQueue.emplace_channels
      { mq with output_channels_ := mq.output_channels_ ++ [OutputChannel.construct mq 0] } n

/-- The constructor `MessqgeQueue(count)`. -/
def MessqgeQueue.construct (count : Nat) : Except Fault (MessqgeQueue T) :=
  if count ≤ 0 then Except.error Fault.invalid_argument
  else
    Except.ok
      (MessqgeQueue.emplace_channels { data_ := [], erased_ := 0, output_channels_ := [] } count)

/-- The method `output_channel(idx)`: the returned reference or the exception,
paired with the queue state after the call. -/
def MessqgeQueue.output_channel (mq : MessqgeQueue T) (idx : Nat) :
    Except Fault ChannelRef × MessqgeQueue T :=
  if idx < mq.output_channels_.length then (Except.ok { slot := idx }, mq)
  else (Except.error Fault.out_of_range, mq)

/-- The scan of `clean_front_data` (lines 201-205). -/
def MessqgeQueue.scan_minidx (mq : MessqgeQueue T) : Nat :=
  mq.output_channels_.foldl
    (fun minidx c =>
      if minidx < size_type_of c.iterator_index_ then minidx
      else size_type_of c.iterator_index_)
    mq.data_.length

/-- The method `clean_front_data()`. -/
def MessqgeQueue.clean_front_data (mq : MessqgeQueue T) : MessqgeQueue T :=
  if mq.scan_minidx ≤ 1 then mq
  else
    { data_ := mq.data_.drop (mq.scan_minidx - 1)
      erased_ := mq.erased_ + (mq.scan_minidx - 1)
      output_channels_ :=
        mq.output_channels_.map
          (fun c =>
            { c with iterator_index_ :=
                intmax_of (c.iterator_index_ - intmax_of ((mq.scan_minidx - 1 : Nat) : Int)) }) }

/-- The method `InputChannel::push(o)`, the node for `o` having been allocated. -/
def MessqgeQueue.push (mq : MessqgeQueue T) (o : T) : MessqgeQueue T :=
  MessqgeQueue.clean_front_data { mq with data_ := mq.data_ ++ [o] }

/-- A method call through a channel reference: `r.size()`. -/
def MessqgeQueue.channel_size (mq : MessqgeQueue T) (r : ChannelRef) :
    Except Fault (Nat × MessqgeQueue T) :=
  match mq.output_channels_[r.slot]? with
  | none => Except.error Fault.undefined_behaviour
  | some c =>
    match c.size mq with
    | Except.error e => Except.error e
    | Except.ok (s, c1) =>
      Except.ok (s, { mq with output_channels_ := mq.output_channels_.set r.slot c1 })

/-- A method call through a channel reference: `r.pop()`. -/
def MessqgeQueue.channel_pop (mq : MessqgeQueue T) (r : ChannelRef) :
    Except Fault (T × MessqgeQueue T) :=
  match mq.output_channels_[r.slot]? with
  | none => Except.error Fault.undefined_behaviour
  | some c =>
    match c.pop mq with
    | Except.error e => Except.error e
    | Except.ok (v, c1) =>
      Except.ok (v, { mq with output_channels_ := mq.output_channels_.set r.slot c1 })

/-- A method call through a channel reference: `r.max_size()`. -/
def MessqgeQueue.channel_max_size (mq : MessqgeQueue T) (r : ChannelRef) :
    Except Fault (Nat × MessqgeQueue T) :=
  match mq.output_channels_[r.slot]? with
  | none => Except.error Fault.undefined_behaviour
  | some c => Except.ok (c.max_size, mq)

/-- A method call through a channel reference: `r.max_size(new_size)`. -/
def MessqgeQueue.channel_set_max_size (mq : MessqgeQueue T) (r : ChannelRef) (new_size : Nat) :
    Except Fault (MessqgeQueue T) :=
  match mq.output_channels_[r.slot]? with
  | none => Except.error Fault.undefined_behaviour
  | some c =>
    Except.ok { mq with output_channels_ := mq.output_channels_.set r.slot (c.set_max_size new_size) }

/-- The loop of `output_channels_size()`: `n` iterations left, the next index is `i`. -/
def MessqgeQueue.output_channels_size_loop (mq : MessqgeQueue T) :
    Nat → Nat → List Nat → Except Fault (List Nat × MessqgeQueue T)
  | 0, _, res => Except.ok (res, mq)
  | n + 1, i, res =>
    match (mq.output_channel i).1 with
    | Except.error e => Except.error e
    | Except.ok r =>
      match mq.channel_size r with
      | Except.error e => Except.error e
      | Except.ok (s, mq1) =>
        MessqgeQueue.output_channels_size_loop mq1 n (i + 1) (res.set i s)

/-- The method `output_channels_size()`. -/
def MessqgeQueue.output_channels_size (mq : MessqgeQueue T) :
    Except Fault (List Nat × MessqgeQueue T) :=
  mq.output_channels_size_loop mq.output_channels_.length 0
    (List.replicate mq.output_channels_.length 0)

/-! ## Sequential executions -/

/-- A call made by the client of the queue. -/
inductive Call (T : Type) where
  | push (o : T)
  | size (idx : Nat)
  | pop (idx : Nat)
  | max_size (idx : Nat)
  | set_max_size (idx : Nat) (new_size : Nat)
  | output_channels_size
  deriving DecidableEq, Repr

/-- What a call returns. -/
inductive Ret (T : Type) where
  | done
  | num (n : Nat)
  | val (v : T)
  | nums (l : List Nat)
  deriving DecidableEq, Repr

/-- One call: `mq.input_channel().push(o)`, `mq.output_channel(idx).size()`, ...
A push into a list that already has `list_max_size` nodes ends with `bad_alloc`. -/
def MessqgeQueue.call (mq : MessqgeQueue T) : Call T → Except Fault (Ret T × MessqgeQueue T)
  | Call.push o =>
    if mq.data_.length < list_max_size then Except.ok (Ret.done, mq.push o)
    else Except.error Fault.bad_alloc
  | Call.size idx =>
    match (mq.output_channel idx).1 with
    | Except.error e => Except.error e
    | Except.ok r =>
      match mq.channel_size r with
      | Except.error e => Except.error e
      | Except.ok (s, mq1) => Except.ok (Ret.num s, mq1)
  | Call.pop idx =>
    match (mq.output_channel idx).1 with
    | Except.error e => Except.error e
    | Except.ok r =>
      match mq.channel_pop r with
      | Except.error e => Except.error e
      | Except.ok (v, mq1) => Except.ok (Ret.val v, mq1)
  | Call.max_size idx =>
    match (mq.output_channel idx).1 with
    | Except.error e => Except.error e
    | Except.ok r =>
      match mq.channel_max_size r with
      | Except.error e => Except.error e
      | Except.ok (n, mq1) => Except.ok (Ret.num n, mq1)
  | Call.set_max_size idx new_size =>
    match (mq.output_channel idx).1 with
    | Except.error e => Except.error e
    | Except.ok r =>
      match mq.channel_set_max_size r new_size with
      | Except.error e => Except.error e
      | Except.ok mq1 => Except.ok (Ret.done, mq1)
  | Call.output_channels_size =>
    match mq.output_channels_size with
    | Except.error e => Except.error e
    | Except.ok (l, mq1) => Except.ok (Ret.nums l, mq1)

/-- A sequence of calls, each on the state left by the one before; the results
are returned in call order. -/
def MessqgeQueue.run (mq : MessqgeQueue T) : List (Call T) → Except Fault (List (Ret T) × MessqgeQueue T)
  | [] => Except.ok ([], mq)
  | c :: cs =>
    match mq.call c with
    | Except.error e => Except.error e
    | Except.ok (r, mq1) =>
      match MessqgeQueue.run mq1 cs with
      | Except.error e => Except.error e
      | Except.ok (rs, mq2) => Except.ok (r :: rs, mq2)

/-- A whole execution: construction with `count` channels, then the calls. -/
def execute (count : Nat) (cs : List (Call T)) : Except Fault (List (Ret T) × MessqgeQueue T) :=
  match (MessqgeQueue.construct count : Except Fault (MessqgeQueue T)) with
  | Except.error e => Except.error e
  | Except.ok mq => mq.run cs

/-! ## Specification-level definitions -/

/-- A channel as its constructor leaves it when the log is empty: no limit, not
positioned, cursor 0. -/
def unpositioned : OutputChannel :=
  { max_size_ := 0, iterator_ := ListIter.past_the_end, iterator_stagnated_ := true,
    iterator_index_ := 0 }

/-- The queue right after construction with `count` channels. -/
def fresh (T : Type) (count : Nat) : MessqgeQueue T :=
  { data_ := [], erased_ := 0, output_channels_ := List.replicate count unpositioned }

/-- The position reference of a channel agrees with its cursor. -/
def IterOK (mq : MessqgeQueue T) (c : OutputChannel) : Prop :=
  match c.iterator_ with
  | ListIter.past_the_end => c.iterator_index_ = 0
  | ListIter.node a =>
    (c.iterator_stagnated_ = true ∧ 1 ≤ c.iterator_index_ ∧
        (a : Int) + 1 = (mq.erased_ : Int) + c.iterator_index_) ∨
    (c.iterator_stagnated_ = false ∧ c.iterator_index_ < (mq.data_.length : Int) ∧
        (a : Int) = (mq.erased_ : Int) + c.iterator_index_)

/-- Consistency of one channel with the log. -/
structure ChanOK (mq : MessqgeQueue T) (c : OutputChannel) : Prop where
  limit_nonneg : 0 ≤ c.max_size_
  limit_lt : c.max_size_ < 9223372036854775808
  index_nonneg : 0 ≤ c.iterator_index_
  index_le : c.iterator_index_ ≤ (mq.data_.length : Int)
  iter_ok : IterOK mq c

/-- The cursor after the window clamp, for a log of `len` entries and limit `w`. -/
def fit_index (len w idx : Int) : Int :=
  if 0 < w ∧ w < len - idx then len - w else idx

/-- The log is the suffix of the history `hist` of pushed values that was not
reclaimed yet. -/
def LogOK (hist : List T) (mq : MessqgeQueue T) : Prop :=
  mq.erased_ ≤ hist.length ∧ mq.data_ = hist.drop mq.erased_

/-- The number of entries removed from the head by one `push`. -/
def MessqgeQueue.reclaimed (mq : MessqgeQueue T) (o : T) : Nat :=
  if MessqgeQueue.scan_minidx { mq with data_ := mq.data_ ++ [o] } ≤ 1 then 0
  else MessqgeQueue.scan_minidx { mq with data_ := mq.data_ ++ [o] } - 1

/-- The values a call appends to the stream. -/
def Call.pushed : Call T → List T
  | Call.push o => [o]
  | _ => []

/-- The values appended by a sequence of calls, in order. -/
def pushed : List (Call T) → List T
  | [] => []
  | cl :: cs => cl.pushed ++ pushed cs

/-- The value a call delivers to channel `idx`, if it is a pop on that channel. -/
def Call.popped (idx : Nat) : Call T → Ret T → List T
  | Call.pop j, Ret.val v => if j = idx then [v] else []
  | _, _ => []

/-- The values delivered to channel `idx` by a sequence of calls with the given
results, in order. -/
def popped (idx : Nat) : List (Call T) → List (Ret T) → List T
  | cl :: cs, r :: rs => cl.popped idx r ++ popped idx cs rs
  | _, _ => []

/-- A call that does not give channel `idx` a limit of `2^63` or more. -/
def Call.limit_in_range (idx : Nat) : Call T → Bool
  | Call.set_max_size j m => decide (j ≠ idx ∨ m < 9223372036854775808)
  | _ => true

/-- One consumer as the specification sees it: its limit and the number of
entries of the append stream it has passed (popped or skipped). -/
structure View where
  limit : Nat
  cursor : Nat
  deriving DecidableEq, Repr

/-- The view of channel `c` of queue `mq`. -/
def view (mq : MessqgeQueue T) (c : OutputChannel) : View :=
  { limit := c.max_size, cursor := mq.erased_ + c.iterator_index_.toNat }

/-- The window clamp on a view, `n` values having been appended. -/
def View.fit (n : Nat) (v : View) : View :=
  if 0 < v.limit ∧ v.limit + v.cursor < n then { v with cursor := n - v.limit } else v

/-- The view of channel `idx` after a call made when `n` values had been appended. -/
def View.after (idx n : Nat) (v : View) : Call T → View
  | Call.push _ => v
  | Call.size j => if j = idx then v.fit n else v
  | Call.pop j => if j = idx then { v.fit n with cursor := (v.fit n).cursor + 1 } else v
  | Call.max_size _ => v
  | Call.set_max_size j m => if j = idx then { v with limit := m } else v
  | Call.output_channels_size => v.fit n

/-- What a call on channel `idx` returns, in terms of the view and of the
history `hist` of appended values. -/
def Observed (idx : Nat) (hist : List T) (v : View) : Call T → Ret T → Prop
  | Call.size j, r => j = idx → r = Ret.num (hist.length - (v.fit hist.length).cursor)
  | Call.pop j, r =>
    j = idx → (v.fit hist.length).cursor < hist.length ∧
      ∃ x, r = Ret.val x ∧ hist[(v.fit hist.length).cursor]? = some x
  | Call.max_size j, r => j = idx → r = Ret.num v.limit
  | _, _ => True

/-- A call that leaves the limit of channel `idx` at 0. -/
def Call.keeps_unbounded (idx : Nat) : Call T → Bool
  | Call.set_max_size j m => decide (j ≠ idx ∨ m = 0)
  | _ => true

/-- Queue `mq` has history `hist`, and its channel `idx` is consistent with the
log and has view `v`. -/
structure Tracks (idx : Nat) (hist : List T) (mq : MessqgeQueue T) (v : View) : Prop where
  log_ok : LogOK hist mq
  bound : mq.data_.length < 9223372036854775808
  chan : ∃ c, mq.output_channels_[idx]? = some c ∧ ChanOK mq c ∧ view mq c = v

/-- The view of channel `idx` after a sequence of calls, `n` values having been
appended before it. -/
def View.after_all (idx : Nat) : Nat → View → List (Call T) → View
  | _, v, [] => v
  | n, v, cl :: cs => View.after_all idx (n + cl.pushed.length) (v.after idx n cl) cs

/-- A call that appends to the stream or acts on channel `idx`; `output_channels_size()`
calls `size()` on every channel. -/
def Call.concerns (idx : Nat) : Call T → Bool
  | Call.push _ => true
  | Call.size j => decide (j = idx)
  | Call.pop j => decide (j = idx)
  | Call.max_size j => decide (j = idx)
  | Call.set_max_size j _ => decide (j = idx)
  | Call.output_channels_size => true

/-- What the client of channel `idx` sees of the result of a call: the result of a
`size()`, `pop()` or `max_size()` on that channel, and its own entry of the result of
`output_channels_size()`. -/
def Call.seen (idx : Nat) : Call T → Ret T → List (Ret T)
  | Call.size j, r => if j = idx then [r] else []
  | Call.pop j, r => if j = idx then [r] else []
  | Call.max_size j, r => if j = idx then [r] else []
  | Call.output_channels_size, Ret.nums l => (l[idx]?).toList.map Ret.num
  | _, _ => []

/-- What the client of channel `idx` sees of an execution, in call order. -/
def seen (idx : Nat) : List (Call T) → List (Ret T) → List (Ret T)
  | cl :: cs, r :: rs => cl.seen idx r ++ seen idx cs rs
  | _, _ => []

/-- What the client of channel `idx` is to see of a call, from the view of the channel
and the history `hist` of appended values. -/
def Call.expect (idx : Nat) (hist : List T) (v : View) : Call T → List (Ret T)
  | Call.size j =>
    if j = idx then [Ret.num (hist.length - (v.fit hist.length).cursor)] else []
  | Call.pop j =>
    if j = idx then (hist[(v.fit hist.length).cursor]?).toList.map Ret.val else []
  | Call.max_size j => if j = idx then [Ret.num v.limit] else []
  | Call.output_channels_size => [Ret.num (hist.length - (v.fit hist.length).cursor)]
  | _ => []

/-- What the client of channel `idx` is to see of a sequence of calls. -/
def expected (idx : Nat) : List T → View → List (Call T) → List (Ret T)
  | _, _, [] => []
  | hist, v, cl :: cs =>
    cl.expect idx hist v ++ expected idx (hist ++ cl.pushed) (v.after idx hist.length cl) cs

/-- The minimum cursor over all consumers, if there is a consumer. -/
def MessqgeQueue.min_cursor (mq : MessqgeQueue T) : Option Int :=
  (mq.output_channels_.map OutputChannel.iterator_index_).min?

/-- Reclamation in the words of the specification: with `m` the minimum cursor over all
consumers, nothing changes if `m ≤ 1`; otherwise the first `m - 1` entries are removed from
the log and `m - 1` is subtracted from every cursor. -/
def MessqgeQueue.reclaim_spec (mq : MessqgeQueue T) : MessqgeQueue T :=
  match mq.min_cursor with
  | none => mq
  | some m =>
    if m ≤ 1 then mq
    else
      { data_ := mq.data_.drop (m - 1).toNat
        erased_ := mq.erased_ + (m - 1).toNat
        output_channels_ :=
          mq.output_channels_.map
            (fun c => { c with iterator_index_ := c.iterator_index_ - (m - 1) }) }

/-! ## Lemmas -/

theorem size_type_of_eq {z : Int} (h0 : 0 ≤ z) (h1 : z < 18446744073709551616) :
    (size_type_of z : Int) = z := by
  unfold size_type_of; omega

theorem size_type_of_lt (z : Int) : size_type_of z < 18446744073709551616 := by
  unfold size_type_of; omega

theorem size_type_of_spec (z : Int) :
    (size_type_of z : Int) = z % 18446744073709551616 := by
  unfold size_type_of; omega

theorem intmax_of_spec (z : Int) :
    intmax_of z = (z + 9223372036854775808) % 18446744073709551616 - 9223372036854775808 := by
  unfold intmax_of
  have := size_type_of_spec z
  split <;> omega

theorem intmax_of_eq {z : Int} (h0 : -9223372036854775808 ≤ z) (h1 : z < 9223372036854775808) :
    intmax_of z = z := by
  rw [intmax_of_spec]; omega

theorem intmax_of_zero : intmax_of 0 = 0 := by
  rw [intmax_of_spec]; omega

theorem size_type_of_intmax_of (n : Nat) (hn : n < 18446744073709551616) :
    size_type_of (intmax_of n) = n := by
  have := intmax_of_spec (n : Int)
  unfold size_type_of; omega

theorem emplace_channels_spec (mq : MessqgeQueue T) (n : Nat) :
    (mq.emplace_channels n).data_ = mq.data_ ∧ (mq.emplace_channels n).erased_ = mq.erased_ ∧
    (mq.emplace_channels n).output_channels_ =
      mq.output_channels_ ++ List.replicate n (OutputChannel.construct mq 0) := by
  induction n generalizing mq with
  | zero => simp [MessqgeQueue.emplace_channels]
  | succ n ih =>
    rw [MessqgeQueue.emplace_channels]
    obtain ⟨h1, h2, h3⟩ := ih { mq with output_channels_ := mq.output_channels_ ++ [OutputChannel.construct mq 0] }
    refine ⟨h1, h2, ?_⟩
    rw [h3]
    simp [List.replicate_succ, OutputChannel.construct, MessqgeQueue.list_begin]

theorem construct_eq_fresh (count : Nat) (h : 1 ≤ count) :
    (MessqgeQueue.construct count : Except Fault (MessqgeQueue T)) = Except.ok (fresh T count) := by
  unfold MessqgeQueue.construct
  rw [if_neg (by omega)]
  obtain ⟨h1, h2, h3⟩ := emplace_channels_spec ({ data_ := [], erased_ := 0, output_channels_ := [] } : MessqgeQueue T) count
  congr 1
  cases hm : MessqgeQueue.emplace_channels ({ data_ := [], erased_ := 0, output_channels_ := [] } : MessqgeQueue T) count with
  | mk d e o =>
    rw [hm] at h1 h2 h3
    simp at h1 h2 h3
    subst h1 h2 h3
    simp [fresh, unpositioned, OutputChannel.construct, MessqgeQueue.list_begin, intmax_of_zero]

theorem iter_advance_node (mq : MessqgeQueue T) (n a : Nat)
    (h0 : mq.erased_ ≤ a) (h1 : a + n < mq.erased_ + mq.data_.length) :
    mq.iter_advance n (ListIter.node a) = Except.ok (ListIter.node (a + n)) := by
  induction n generalizing a with
  | zero => rfl
  | succ n ih =>
    have hn : mq.iter_next (ListIter.node a) = Except.ok (ListIter.node (a + 1)) := by
      simp only [MessqgeQueue.iter_next]
      rw [if_pos ⟨h0, by omega⟩, if_pos (by omega)]
    rw [MessqgeQueue.iter_advance, hn]
    simp only
    rw [ih (a + 1) (by omega) (by omega)]
    congr 2
    omega

theorem raw_size_eq (mq : MessqgeQueue T) (c : OutputChannel)
    (h0 : 0 ≤ c.iterator_index_) (h1 : c.iterator_index_ ≤ (mq.data_.length : Int))
    (hl : mq.data_.length < 9223372036854775808) :
    (c.raw_size mq : Int) = (mq.data_.length : Int) - c.iterator_index_ := by
  unfold OutputChannel.raw_size size_type_of; omega

theorem fit_window_ok (mq : MessqgeQueue T) (c : OutputChannel) (hc : ChanOK mq c)
    (hl : mq.data_.length < 9223372036854775808) (hit : c.iterator_ ≠ ListIter.past_the_end) :
    ∃ c1, c.fit_window mq = Except.ok c1 ∧ ChanOK mq c1 ∧ c1.max_size_ = c.max_size_ ∧
      c1.iterator_stagnated_ = c.iterator_stagnated_ ∧
      c1.iterator_ ≠ ListIter.past_the_end ∧
      c1.iterator_index_ = fit_index mq.data_.length c.max_size_ c.iterator_index_ := by
  obtain ⟨hw0, hw1, hi0, hi1, hit1⟩ := hc
  have hraw := raw_size_eq mq c hi0 hi1 hl
  have hmax : (c.max_size : Int) = c.max_size_ := by
    unfold OutputChannel.max_size size_type_of; omega
  have hdiff : c.diff mq = (mq.data_.length : Int) - c.iterator_index_ - c.max_size_ := by
    unfold OutputChannel.diff
    rw [intmax_of_spec, hraw, hmax]; omega
  unfold OutputChannel.fit_window
  by_cases hz : c.max_size ≤ 0
  · rw [if_pos hz]
    refine ⟨c, rfl, ⟨hw0, hw1, hi0, hi1, hit1⟩, rfl, rfl, hit, ?_⟩
    unfold fit_index; rw [if_neg (by omega)]
  · rw [if_neg hz]
    by_cases hd : 0 < c.diff mq
    · rw [if_pos hd]
      cases hci : c.iterator_ with
      | past_the_end => exact absurd hci hit
      | node a =>
        unfold IterOK at hit1
        rw [hci] at hit1
        simp only at hit1
        have hadv : mq.iter_advance (c.diff mq).toNat (ListIter.node a) =
            Except.ok (ListIter.node (a + (c.diff mq).toNat)) := by
          apply iter_advance_node <;> omega
        rw [hadv]
        have hidx : intmax_of (c.iterator_index_ + c.diff mq) = (mq.data_.length : Int) - c.max_size_ := by
          rw [intmax_of_spec]; omega
        refine ⟨_, rfl, ⟨hw0, hw1, ?_, ?_, ?_⟩, rfl, rfl, by simp, ?_⟩
        · simp only; omega
        · simp only; omega
        · unfold IterOK; simp only
          rcases hit1 with ⟨hs, h1, h2⟩ | ⟨hs, h1, h2⟩
          · left; refine ⟨hs, ?_, ?_⟩ <;> omega
          · right; refine ⟨hs, ?_, ?_⟩ <;> omega
        · simp only; unfold fit_index; rw [if_pos (by omega)]; omega
    · rw [if_neg hd]
      refine ⟨c, rfl, ⟨hw0, hw1, hi0, hi1, hit1⟩, rfl, rfl, hit, ?_⟩
      unfold fit_index; rw [if_neg (by omega)]

theorem list_begin_nil (mq : MessqgeQueue T) (h : mq.data_ = []) :
    mq.list_begin = ListIter.past_the_end := by
  unfold MessqgeQueue.list_begin
  rw [h]

theorem list_begin_cons (mq : MessqgeQueue T) (h : mq.data_ ≠ []) :
    mq.list_begin = ListIter.node mq.erased_ := by
  unfold MessqgeQueue.list_begin
  cases hd : mq.data_ with
  | nil => exact absurd hd h
  | cons x xs => rfl

theorem fit_max_size_ok (mq : MessqgeQueue T) (c : OutputChannel) (hc : ChanOK mq c)
    (hl : mq.data_.length < 9223372036854775808) :
    ∃ c1, c.fit_max_size mq = Except.ok c1 ∧ ChanOK mq c1 ∧ c1.max_size_ = c.max_size_ ∧
      (mq.data_ ≠ [] → c1.iterator_ ≠ ListIter.past_the_end) ∧
      c1.iterator_index_ = fit_index mq.data_.length c.max_size_ c.iterator_index_ := by
  unfold OutputChannel.fit_max_size
  by_cases he : c.iterator_ = mq.list_end
  · rw [if_pos he]
    have hidx : c.iterator_index_ = 0 := by
      have := hc.iter_ok
      unfold IterOK at this
      rw [he] at this
      exact this
    by_cases hd : mq.data_ = []
    · have hb : mq.list_begin = mq.list_end := by
        rw [list_begin_nil mq hd]; rfl
      rw [if_pos hb]
      refine ⟨_, rfl, ⟨hc.limit_nonneg, hc.limit_lt, hc.index_nonneg, hc.index_le, ?_⟩, rfl,
        fun h => absurd hd h, ?_⟩
      · unfold IterOK; simp only; rw [hb]; exact hidx
      · simp only; unfold fit_index
        rw [hd, hidx]; simp
        omega
    · have hb : mq.list_begin = ListIter.node mq.erased_ := by
        exact list_begin_cons mq hd
      have hne : ¬ mq.list_begin = mq.list_end := by
        rw [hb]; simp [MessqgeQueue.list_end]
      rw [if_neg hne]
      have hlen : 0 < mq.data_.length := List.length_pos.mpr hd
      have hc1 : ChanOK mq { c with iterator_ := mq.list_begin, iterator_stagnated_ := false } := by
        refine ⟨hc.limit_nonneg, hc.limit_lt, hc.index_nonneg, hc.index_le, ?_⟩
        unfold IterOK; simp only; rw [hb]; simp only
        right; refine ⟨?_, ?_, ?_⟩ <;> first | trivial | rfl | omega
      obtain ⟨c1, h1, h2, h3, _, h5, h6⟩ := fit_window_ok mq _ hc1 hl (by simp only; rw [hb]; simp)
      exact ⟨c1, h1, h2, h3, fun _ => h5, h6⟩
  · rw [if_neg he]
    obtain ⟨c1, h1, h2, h3, _, h5, h6⟩ := fit_window_ok mq c hc hl he
    exact ⟨c1, h1, h2, h3, fun _ => h5, h6⟩

theorem size_ok (mq : MessqgeQueue T) (c : OutputChannel) (hc : ChanOK mq c)
    (hl : mq.data_.length < 9223372036854775808) :
    ∃ c1, c.size mq = Except.ok (c1.raw_size mq, c1) ∧ ChanOK mq c1 ∧ c1.max_size_ = c.max_size_ ∧
      (mq.data_ ≠ [] → c1.iterator_ ≠ ListIter.past_the_end) ∧
      c1.iterator_index_ = fit_index mq.data_.length c.max_size_ c.iterator_index_ ∧
      (c1.raw_size mq : Int) = (mq.data_.length : Int) - c1.iterator_index_ := by
  obtain ⟨c1, h1, h2, h3, h4, h5⟩ := fit_max_size_ok mq c hc hl
  refine ⟨c1, ?_, h2, h3, h4, h5, raw_size_eq mq c1 h2.index_nonneg h2.index_le hl⟩
  unfold OutputChannel.size
  rw [h1]

theorem pop_body_ok (mq : MessqgeQueue T) (c : OutputChannel) (hc : ChanOK mq c)
    (hl : mq.data_.length < 9223372036854775808) (hit : c.iterator_ ≠ ListIter.past_the_end)
    (hlt : c.iterator_index_ < (mq.data_.length : Int)) :
    ∃ v c1, c.pop_body mq = Except.ok (v, c1) ∧ mq.data_[c.iterator_index_.toNat]? = some v ∧
      ChanOK mq c1 ∧ c1.max_size_ = c.max_size_ ∧ c1.iterator_index_ = c.iterator_index_ + 1 ∧
      c1.iterator_stagnated_ = decide (c.iterator_index_ + 1 = (mq.data_.length : Int)) ∧
      c1.iterator_ = ListIter.node
        (if c.iterator_index_ + 1 = (mq.data_.length : Int) then mq.erased_ + c.iterator_index_.toNat
         else mq.erased_ + c.iterator_index_.toNat + 1) := by
  obtain ⟨hw0, hw1, hi0, hi1, hit1⟩ := hc
  have hidx : intmax_of (c.iterator_index_ + 1) = c.iterator_index_ + 1 := by
    rw [intmax_of_spec]; omega
  have hv : ∃ v, mq.data_[c.iterator_index_.toNat]? = some v := by
    have : c.iterator_index_.toNat < mq.data_.length := by omega
    exact ⟨mq.data_[c.iterator_index_.toNat], List.getElem?_eq_getElem this⟩
  obtain ⟨v, hv⟩ := hv
  cases hci : c.iterator_ with
  | past_the_end => exact absurd hci hit
  | node a =>
    unfold IterOK at hit1
    rw [hci] at hit1
    simp only at hit1
    -- the iterator after the stagnation step is the node at the cursor
    have key : ∀ c2 : OutputChannel,
        c2.iterator_ = ListIter.node (mq.erased_ + c.iterator_index_.toNat) →
        c2.iterator_index_ = c.iterator_index_ + 1 → c2.max_size_ = c.max_size_ →
        c2.iterator_stagnated_ = false →
        ∃ c1, (match mq.iter_next c2.iterator_ with
            | Except.error e => Except.error e
            | Except.ok nx =>
              match mq.iter_deref c2.iterator_ with
              | Except.error e => Except.error e
              | Except.ok v =>
                if nx = mq.list_end then Except.ok (v, { c2 with iterator_stagnated_ := true })
                else Except.ok (v, { c2 with iterator_ := nx })) = Except.ok (v, c1) ∧
          ChanOK mq c1 ∧ c1.max_size_ = c.max_size_ ∧ c1.iterator_index_ = c.iterator_index_ + 1 ∧
          c1.iterator_stagnated_ = decide (c.iterator_index_ + 1 = (mq.data_.length : Int)) ∧
          c1.iterator_ = ListIter.node
            (if c.iterator_index_ + 1 = (mq.data_.length : Int) then mq.erased_ + c.iterator_index_.toNat
             else mq.erased_ + c.iterator_index_.toNat + 1) := by
      intro c2 h2 h3 h4 h5
      have hder : mq.iter_deref c2.iterator_ = Except.ok v := by
        rw [h2]; simp only [MessqgeQueue.iter_deref]
        rw [if_pos (by omega)]
        have : mq.erased_ + c.iterator_index_.toNat - mq.erased_ = c.iterator_index_.toNat := by omega
        rw [this, hv]
      rw [hder]
      by_cases hlast : c.iterator_index_ + 1 = (mq.data_.length : Int)
      · have hnx : mq.iter_next c2.iterator_ = Except.ok ListIter.past_the_end := by
          rw [h2]; simp only [MessqgeQueue.iter_next]
          rw [if_pos (by omega), if_neg (by omega)]
        rw [hnx]; simp only [MessqgeQueue.list_end, if_true]
        refine ⟨_, rfl, ⟨by simp only; omega, by simp only; omega, by simp only; omega,
          by simp only; omega, ?_⟩, h4, h3, by simp [hlast], ?_⟩
        · unfold IterOK; simp only; rw [h2]; simp only
          left; refine ⟨?_, ?_, ?_⟩ <;> first | trivial | rfl | omega
        · simp only; rw [h2, if_pos hlast]
      · have hnx : mq.iter_next c2.iterator_ =
            Except.ok (ListIter.node (mq.erased_ + c.iterator_index_.toNat + 1)) := by
          rw [h2]; simp only [MessqgeQueue.iter_next]
          rw [if_pos (by omega), if_pos (by omega)]
        rw [hnx]; simp only [MessqgeQueue.list_end]
        rw [if_neg (by simp)]
        refine ⟨_, rfl, ⟨by simp only; omega, by simp only; omega, by simp only; omega,
          by simp only; omega, ?_⟩, h4, h3, ?_, ?_⟩
        · unfold IterOK; simp only
          right; refine ⟨h5, ?_, ?_⟩ <;> omega
        · simp only; rw [h5]; simp [hlast]
        · simp only; rw [if_neg hlast]
    unfold OutputChannel.pop_body
    simp only
    rcases hit1 with ⟨hs, h1, h2⟩ | ⟨hs, h1, h2⟩
    · rw [if_pos hs, hci]
      have hnx : mq.iter_next (ListIter.node a) =
          Except.ok (ListIter.node (mq.erased_ + c.iterator_index_.toNat)) := by
        simp only [MessqgeQueue.iter_next]
        rw [if_pos (by omega), if_pos (by omega)]
        congr 2; omega
      rw [hnx]
      simp only
      obtain ⟨c1, e1, e2⟩ := key
        { c with iterator_index_ := intmax_of (c.iterator_index_ + 1)
                 iterator_ := ListIter.node (mq.erased_ + c.iterator_index_.toNat)
                 iterator_stagnated_ := false } rfl hidx rfl rfl
      exact ⟨v, c1, e1, hv, e2⟩
    · rw [if_neg (by rw [hs]; simp)]
      simp only
      obtain ⟨c1, e1, e2⟩ := key { c with iterator_index_ := intmax_of (c.iterator_index_ + 1) }
        (by simp only; rw [hci]; congr 1; omega) hidx rfl hs
      exact ⟨v, c1, e1, hv, e2⟩

theorem pop_ok (mq : MessqgeQueue T) (c : OutputChannel) (hc : ChanOK mq c)
    (hl : mq.data_.length < 9223372036854775808) :
    (fit_index mq.data_.length c.max_size_ c.iterator_index_ = (mq.data_.length : Int) →
      c.pop mq = Except.error Fault.blocked) ∧
    (fit_index mq.data_.length c.max_size_ c.iterator_index_ ≠ (mq.data_.length : Int) →
      ∃ v c1, c.pop mq = Except.ok (v, c1) ∧
        mq.data_[(fit_index mq.data_.length c.max_size_ c.iterator_index_).toNat]? = some v ∧
        ChanOK mq c1 ∧ c1.max_size_ = c.max_size_ ∧
        c1.iterator_index_ = fit_index mq.data_.length c.max_size_ c.iterator_index_ + 1) := by
  obtain ⟨c1, h1, h2, h3, h4, h5, h6⟩ := size_ok mq c hc hl
  unfold OutputChannel.pop
  rw [h1]
  simp only
  constructor
  · intro hf
    rw [if_pos (by omega)]
  · intro hf
    have hlt : c1.iterator_index_ < (mq.data_.length : Int) := by
      have := h2.index_le
      omega
    rw [if_neg (by omega)]
    have hne : mq.data_ ≠ [] := by
      intro h
      rw [h] at hlt
      have := h2.index_nonneg
      simp at hlt
      omega
    obtain ⟨v, c2, e1, e2, e3, e4, e5, _⟩ := pop_body_ok mq c1 h2 hl (h4 hne) hlt
    refine ⟨v, c2, e1, ?_, e3, ?_, ?_⟩
    · rw [← h5]; exact e2
    · rw [e4, h3]
    · rw [e5, h5]

theorem ChanOK.transfer {mq mq1 : MessqgeQueue T} {c : OutputChannel} (hc : ChanOK mq c)
    (hd : mq1.data_ = mq.data_) (he : mq1.erased_ = mq.erased_) : ChanOK mq1 c := by
  obtain ⟨h1, h2, h3, h4, h5⟩ := hc
  refine ⟨h1, h2, h3, by rw [hd]; exact h4, ?_⟩
  unfold IterOK at *
  rw [hd, he]
  exact h5

theorem foldl_minidx_le_init (l : List OutputChannel) (init : Nat) :
    l.foldl (fun minidx c =>
      if minidx < size_type_of c.iterator_index_ then minidx
      else size_type_of c.iterator_index_) init ≤ init := by
  induction l generalizing init with
  | nil => simp
  | cons c l ih =>
    simp only [List.foldl_cons]
    refine le_trans (ih _) ?_
    split <;> omega

theorem foldl_minidx_le_mem (l : List OutputChannel) (init : Nat) (c : OutputChannel)
    (hc : c ∈ l) :
    l.foldl (fun minidx c =>
      if minidx < size_type_of c.iterator_index_ then minidx
      else size_type_of c.iterator_index_) init ≤ size_type_of c.iterator_index_ := by
  induction l generalizing init with
  | nil => simp at hc
  | cons x l ih =>
    simp only [List.foldl_cons]
    rcases List.mem_cons.mp hc with h | h
    · subst h
      refine le_trans (foldl_minidx_le_init l _) ?_
      split <;> omega
    · exact ih _ h

theorem scan_minidx_le_length (mq : MessqgeQueue T) : mq.scan_minidx ≤ mq.data_.length :=
  foldl_minidx_le_init _ _

theorem scan_minidx_le_mem (mq : MessqgeQueue T) (c : OutputChannel)
    (hc : c ∈ mq.output_channels_) : mq.scan_minidx ≤ size_type_of c.iterator_index_ :=
  foldl_minidx_le_mem _ _ c hc

theorem LogOK.length_eq {hist : List T} {mq : MessqgeQueue T} (h : LogOK hist mq) :
    mq.erased_ + mq.data_.length = hist.length := by
  obtain ⟨h1, h2⟩ := h
  rw [h2, List.length_drop]; omega

theorem push_data (mq : MessqgeQueue T) (o : T) :
    (mq.push o).data_ = (mq.data_ ++ [o]).drop (mq.reclaimed o) ∧
    (mq.push o).erased_ = mq.erased_ + mq.reclaimed o ∧
    mq.reclaimed o ≤ mq.data_.length ∧
    (mq.push o).output_channels_.length = mq.output_channels_.length := by
  unfold MessqgeQueue.push MessqgeQueue.clean_front_data MessqgeQueue.reclaimed
  have hle := scan_minidx_le_length { mq with data_ := mq.data_ ++ [o] }
  simp only [List.length_append, List.length_singleton] at hle
  split
  · simp
  · refine ⟨?_, ?_, ?_, ?_⟩ <;> first | rfl | omega | simp

theorem push_log_ok {hist : List T} {mq : MessqgeQueue T} (h : LogOK hist mq) (o : T) :
    LogOK (hist ++ [o]) (mq.push o) := by
  obtain ⟨h1, h2, h3, _⟩ := push_data mq o
  have hlen := h.length_eq
  obtain ⟨g1, g2⟩ := h
  constructor
  · rw [h2, List.length_append, List.length_singleton]; omega
  · rw [h1, h2, g2, ← List.drop_drop, List.drop_append_of_le_length g1]

theorem push_chan_ok (mq : MessqgeQueue T) (o : T) (idx : Nat) (c : OutputChannel)
    (hget : mq.output_channels_[idx]? = some c) (hc : ChanOK mq c)
    (hl : mq.data_.length + 1 < 9223372036854775808) :
    ∃ c1, (mq.push o).output_channels_[idx]? = some c1 ∧ ChanOK (mq.push o) c1 ∧
      c1.max_size_ = c.max_size_ ∧ c1.iterator_ = c.iterator_ ∧
      c1.iterator_stagnated_ = c.iterator_stagnated_ ∧
      c1.iterator_index_ = c.iterator_index_ - (mq.reclaimed o : Int) := by
  obtain ⟨hw0, hw1, hi0, hi1, hit⟩ := hc
  have hmem : c ∈ mq.output_channels_ := List.mem_iff_getElem?.mpr ⟨idx, hget⟩
  have hle := scan_minidx_le_length { mq with data_ := mq.data_ ++ [o] }
  have hlec := scan_minidx_le_mem { mq with data_ := mq.data_ ++ [o] } c hmem
  simp only [List.length_append, List.length_singleton] at hle
  have hsz : (size_type_of c.iterator_index_ : Int) = c.iterator_index_ :=
    size_type_of_eq hi0 (by omega)
  unfold MessqgeQueue.push MessqgeQueue.clean_front_data MessqgeQueue.reclaimed
  split
  · refine ⟨c, hget, ⟨hw0, hw1, hi0, ?_, ?_⟩, rfl, rfl, rfl, by simp⟩
    · simp only [List.length_append, List.length_singleton]; push_cast; omega
    · unfold IterOK at *
      simp only [List.length_append, List.length_singleton]
      split at hit
      · exact hit
      · rcases hit with h | ⟨h1, h2, h3⟩
        · exact Or.inl h
        · right; refine ⟨h1, ?_, h3⟩; push_cast; omega
  · rename_i hgt
    have hd : intmax_of ((MessqgeQueue.scan_minidx { mq with data_ := mq.data_ ++ [o] } - 1 : Nat) : Int)
        = ((MessqgeQueue.scan_minidx { mq with data_ := mq.data_ ++ [o] } - 1 : Nat) : Int) := by
      apply intmax_of_eq <;> omega
    have hi : intmax_of (c.iterator_index_ -
        ((MessqgeQueue.scan_minidx { mq with data_ := mq.data_ ++ [o] } - 1 : Nat) : Int))
        = c.iterator_index_ -
          ((MessqgeQueue.scan_minidx { mq with data_ := mq.data_ ++ [o] } - 1 : Nat) : Int) := by
      apply intmax_of_eq <;> omega
    refine ⟨{ c with iterator_index_ := intmax_of (c.iterator_index_ - intmax_of
        ((MessqgeQueue.scan_minidx { mq with data_ := mq.data_ ++ [o] } - 1 : Nat) : Int)) },
      ?_, ⟨hw0, hw1, ?_, ?_, ?_⟩, rfl, rfl, rfl, ?_⟩
    · simp only [List.getElem?_map, hget, Option.map_some']
    · simp only; rw [hd, hi]; omega
    · simp only [List.length_drop, List.length_append, List.length_singleton]
      rw [hd, hi]; omega
    · unfold IterOK at *
      simp only [List.length_drop, List.length_append, List.length_singleton]
      rw [hd, hi]
      split at hit
      · omega
      · rcases hit with ⟨h1, h2, h3⟩ | ⟨h1, h2, h3⟩
        · left; refine ⟨h1, ?_, ?_⟩ <;> omega
        · right; refine ⟨h1, ?_, ?_⟩ <;> omega
    · simp only; rw [hd, hi]

theorem output_channel_ok (mq : MessqgeQueue T) (idx : Nat) (r : ChannelRef)
    (h : (mq.output_channel idx).1 = Except.ok r) :
    r.slot = idx ∧ idx < mq.output_channels_.length := by
  unfold MessqgeQueue.output_channel at h
  split at h
  · simp only [Except.ok.injEq] at h
    subst h
    exact ⟨rfl, by assumption⟩
  · simp at h

theorem output_channel_of_lt (mq : MessqgeQueue T) (idx : Nat)
    (h : idx < mq.output_channels_.length) :
    (mq.output_channel idx).1 = Except.ok { slot := idx } := by
  unfold MessqgeQueue.output_channel
  rw [if_pos h]

theorem channel_size_frame (mq mq1 : MessqgeQueue T) (r : ChannelRef) (s : Nat)
    (h : mq.channel_size r = Except.ok (s, mq1)) :
    mq1.data_ = mq.data_ ∧ mq1.erased_ = mq.erased_ ∧
    ∃ c c1, mq.output_channels_[r.slot]? = some c ∧ c.size mq = Except.ok (s, c1) ∧
      mq1.output_channels_ = mq.output_channels_.set r.slot c1 := by
  unfold MessqgeQueue.channel_size at h
  cases hg : mq.output_channels_[r.slot]? with
  | none => rw [hg] at h; simp at h
  | some c =>
    rw [hg] at h
    simp only at h
    cases hs : c.size mq with
    | error e => rw [hs] at h; simp at h
    | ok p =>
      obtain ⟨s', c1⟩ := p
      rw [hs] at h
      simp only [Except.ok.injEq, Prod.mk.injEq] at h
      obtain ⟨h1, h2⟩ := h
      subst h1 h2
      exact ⟨rfl, rfl, c, c1, rfl, hs, rfl⟩

theorem channel_pop_frame (mq mq1 : MessqgeQueue T) (r : ChannelRef) (v : T)
    (h : mq.channel_pop r = Except.ok (v, mq1)) :
    mq1.data_ = mq.data_ ∧ mq1.erased_ = mq.erased_ ∧
    ∃ c c1, mq.output_channels_[r.slot]? = some c ∧ c.pop mq = Except.ok (v, c1) ∧
      mq1.output_channels_ = mq.output_channels_.set r.slot c1 := by
  unfold MessqgeQueue.channel_pop at h
  cases hg : mq.output_channels_[r.slot]? with
  | none => rw [hg] at h; simp at h
  | some c =>
    rw [hg] at h
    simp only at h
    cases hs : c.pop mq with
    | error e => rw [hs] at h; simp at h
    | ok p =>
      obtain ⟨s', c1⟩ := p
      rw [hs] at h
      simp only [Except.ok.injEq, Prod.mk.injEq] at h
      obtain ⟨h1, h2⟩ := h
      subst h1 h2
      exact ⟨rfl, rfl, c, c1, rfl, hs, rfl⟩

theorem channel_set_max_size_frame (mq mq1 : MessqgeQueue T) (r : ChannelRef) (n : Nat)
    (h : mq.channel_set_max_size r n = Except.ok mq1) :
    mq1.data_ = mq.data_ ∧ mq1.erased_ = mq.erased_ ∧
    ∃ c, mq.output_channels_[r.slot]? = some c ∧
      mq1.output_channels_ = mq.output_channels_.set r.slot (c.set_max_size n) := by
  unfold MessqgeQueue.channel_set_max_size at h
  cases hg : mq.output_channels_[r.slot]? with
  | none => rw [hg] at h; simp at h
  | some c =>
    rw [hg] at h
    simp only [Except.ok.injEq] at h
    subst h
    exact ⟨rfl, rfl, c, rfl, rfl⟩

theorem channel_max_size_frame (mq mq1 : MessqgeQueue T) (r : ChannelRef) (n : Nat)
    (h : mq.channel_max_size r = Except.ok (n, mq1)) :
    mq1 = mq ∧ ∃ c, mq.output_channels_[r.slot]? = some c ∧ n = c.max_size := by
  unfold MessqgeQueue.channel_max_size at h
  cases hg : mq.output_channels_[r.slot]? with
  | none => rw [hg] at h; simp at h
  | some c =>
    rw [hg] at h
    simp only [Except.ok.injEq, Prod.mk.injEq] at h
    exact ⟨h.2.symm, c, rfl, h.1.symm⟩

theorem iter_next_congr (mq mq1 : MessqgeQueue T) (hd : mq.data_ = mq1.data_)
    (he : mq.erased_ = mq1.erased_) (it : ListIter) : mq.iter_next it = mq1.iter_next it := by
  unfold MessqgeQueue.iter_next
  rw [hd, he]

theorem iter_advance_congr (mq mq1 : MessqgeQueue T) (hd : mq.data_ = mq1.data_)
    (he : mq.erased_ = mq1.erased_) (n : Nat) (it : ListIter) :
    mq.iter_advance n it = mq1.iter_advance n it := by
  induction n generalizing it with
  | zero => rfl
  | succ n ih =>
    rw [MessqgeQueue.iter_advance, MessqgeQueue.iter_advance, iter_next_congr mq mq1 hd he]
    cases mq1.iter_next it with
    | error e => rfl
    | ok it1 => exact ih it1

theorem iter_deref_congr (mq mq1 : MessqgeQueue T) (hd : mq.data_ = mq1.data_)
    (he : mq.erased_ = mq1.erased_) (it : ListIter) : mq.iter_deref it = mq1.iter_deref it := by
  unfold MessqgeQueue.iter_deref
  rw [hd, he]

theorem list_begin_congr (mq mq1 : MessqgeQueue T) (hd : mq.data_ = mq1.data_)
    (he : mq.erased_ = mq1.erased_) : mq.list_begin = mq1.list_begin := by
  unfold MessqgeQueue.list_begin
  rw [hd, he]

theorem fit_window_congr (mq mq1 : MessqgeQueue T) (hd : mq.data_ = mq1.data_)
    (he : mq.erased_ = mq1.erased_) (c : OutputChannel) :
    c.fit_window mq = c.fit_window mq1 := by
  unfold OutputChannel.fit_window OutputChannel.diff OutputChannel.raw_size
  rw [hd]
  simp only [iter_advance_congr mq mq1 hd he]

theorem fit_max_size_congr (mq mq1 : MessqgeQueue T) (hd : mq.data_ = mq1.data_)
    (he : mq.erased_ = mq1.erased_) (c : OutputChannel) :
    c.fit_max_size mq = c.fit_max_size mq1 := by
  unfold OutputChannel.fit_max_size
  simp only [list_begin_congr mq mq1 hd he, MessqgeQueue.list_end,
    fit_window_congr mq mq1 hd he]

theorem size_congr (mq mq1 : MessqgeQueue T) (hd : mq.data_ = mq1.data_)
    (he : mq.erased_ = mq1.erased_) (c : OutputChannel) : c.size mq = c.size mq1 := by
  unfold OutputChannel.size OutputChannel.raw_size
  rw [fit_max_size_congr mq mq1 hd he, hd]

theorem pop_congr (mq mq1 : MessqgeQueue T) (hd : mq.data_ = mq1.data_)
    (he : mq.erased_ = mq1.erased_) (c : OutputChannel) : c.pop mq = c.pop mq1 := by
  unfold OutputChannel.pop OutputChannel.pop_body
  simp only [size_congr mq mq1 hd he, iter_next_congr mq mq1 hd he,
    iter_deref_congr mq mq1 hd he, MessqgeQueue.list_end]

/-- What the loop of `output_channels_size` does when it returns: the log is
untouched, a channel outside `[i, i + n)` is untouched, a channel inside was
replaced by the result of its own `size()`. -/
theorem output_channels_size_loop_frame (n : Nat) :
    ∀ (mq mq1 : MessqgeQueue T) (i : Nat) (res res1 : List Nat),
      mq.output_channels_size_loop n i res = Except.ok (res1, mq1) →
      mq1.data_ = mq.data_ ∧ mq1.erased_ = mq.erased_ ∧
      mq1.output_channels_.length = mq.output_channels_.length ∧
      ∀ k c, mq.output_channels_[k]? = some c →
        ((k < i ∨ i + n ≤ k) → mq1.output_channels_[k]? = some c) ∧
        ((i ≤ k ∧ k < i + n) → ∃ s c1, c.size mq = Except.ok (s, c1) ∧
          mq1.output_channels_[k]? = some c1) := by
  induction n with
  | zero =>
    intro mq mq1 i res res1 h
    simp only [MessqgeQueue.output_channels_size_loop, Except.ok.injEq, Prod.mk.injEq] at h
    obtain ⟨_, h2⟩ := h
    subst h2
    refine ⟨rfl, rfl, rfl, fun k c hk => ⟨fun _ => hk, fun hh => ?_⟩⟩
    omega
  | succ n ih =>
    intro mq mq1 i res res1 h
    rw [MessqgeQueue.output_channels_size_loop] at h
    cases ho : (mq.output_channel i).1 with
    | error e => rw [ho] at h; simp at h
    | ok r =>
      rw [ho] at h
      simp only at h
      obtain ⟨hr, hlt⟩ := output_channel_ok mq i r ho
      cases hs : mq.channel_size r with
      | error e => rw [hs] at h; simp at h
      | ok p =>
        obtain ⟨s, mq2⟩ := p
        rw [hs] at h
        simp only at h
        obtain ⟨d2, e2, c0, c2, g0, g1, g2⟩ := channel_size_frame mq mq2 r s hs
        obtain ⟨d1, e1, l1, hk1⟩ := ih mq2 mq1 (i + 1) _ res1 h
        rw [hr] at g0 g2
        have hsize : ∀ c : OutputChannel, c.size mq2 = c.size mq :=
          fun c => size_congr mq2 mq d2 e2 c
        refine ⟨d1.trans d2, e1.trans e2, by rw [l1, g2, List.length_set], ?_⟩
        intro k c hk
        constructor
        · intro hh
          have : mq2.output_channels_[k]? = some c := by
            rw [g2, List.getElem?_set_ne (by omega)]; exact hk
          exact (hk1 k c this).1 (by omega)
        · intro hh
          by_cases hki : k = i
          · subst hki
            have hc0 : c = c0 := by rw [g0] at hk; exact (Option.some.inj hk).symm
            subst hc0
            have : mq2.output_channels_[k]? = some c2 := by
              rw [g2, List.getElem?_set_self hlt]
            exact ⟨s, c2, g1, (hk1 k c2 this).1 (by omega)⟩
          · have : mq2.output_channels_[k]? = some c := by
              rw [g2, List.getElem?_set_ne (by omega)]; exact hk
            obtain ⟨s', c1', q1, q2⟩ := (hk1 k c this).2 (by omega)
            rw [hsize] at q1
            exact ⟨s', c1', q1, q2⟩

theorem view_fit {hist : List T} {mq : MessqgeQueue T} {c c1 : OutputChannel}
    (hlog : LogOK hist mq) (hc : ChanOK mq c)
    (hm : c1.max_size_ = c.max_size_)
    (hi : c1.iterator_index_ = fit_index mq.data_.length c.max_size_ c.iterator_index_) :
    view mq c1 = (view mq c).fit hist.length := by
  have hlen := hlog.length_eq
  have h1 : (c.max_size : Int) = c.max_size_ := by
    unfold OutputChannel.max_size
    exact size_type_of_eq hc.limit_nonneg (by have := hc.limit_lt; omega)
  have h2 : c1.max_size = c.max_size := by
    unfold OutputChannel.max_size; rw [hm]
  have hi0 := hc.index_nonneg
  have hi1 := hc.index_le
  unfold view View.fit
  simp only
  rw [h2]
  unfold fit_index at hi
  split at hi
  · rw [if_pos (by omega), hi]
    simp only [View.mk.injEq, true_and]
    omega
  · rw [if_neg (by omega), hi]

theorem size_refines {hist : List T} {mq : MessqgeQueue T} {c c1 : OutputChannel} {s : Nat}
    (hlog : LogOK hist mq) (hc : ChanOK mq c) (hb : mq.data_.length < 9223372036854775808)
    (h : c.size mq = Except.ok (s, c1)) :
    ChanOK mq c1 ∧ view mq c1 = (view mq c).fit hist.length ∧
      s = hist.length - ((view mq c).fit hist.length).cursor := by
  have hlen := hlog.length_eq
  obtain ⟨c2, h1, h2, h3, _, h5, h6⟩ := size_ok mq c hc hb
  rw [h1] at h
  simp only [Except.ok.injEq, Prod.mk.injEq] at h
  obtain ⟨hs, hcc⟩ := h
  subst hcc
  have hv := view_fit hlog hc h3 h5
  refine ⟨h2, hv, ?_⟩
  rw [← hv, ← hs]
  unfold view
  simp only
  have := h2.index_nonneg
  have := h2.index_le
  omega

theorem pop_refines {hist : List T} {mq : MessqgeQueue T} {c c1 : OutputChannel} {x : T}
    (hlog : LogOK hist mq) (hc : ChanOK mq c) (hb : mq.data_.length < 9223372036854775808)
    (h : c.pop mq = Except.ok (x, c1)) :
    ChanOK mq c1 ∧
      view mq c1 = { (view mq c).fit hist.length with
        cursor := ((view mq c).fit hist.length).cursor + 1 } ∧
      ((view mq c).fit hist.length).cursor < hist.length ∧
      hist[((view mq c).fit hist.length).cursor]? = some x := by
  have hlen := hlog.length_eq
  obtain ⟨c2, _, h2, h3, _, h5, _⟩ := size_ok mq c hc hb
  have hv := view_fit hlog hc h3 h5
  obtain ⟨hblk, hok⟩ := pop_ok mq c hc hb
  by_cases hf : fit_index mq.data_.length c.max_size_ c.iterator_index_ = (mq.data_.length : Int)
  · rw [hblk hf] at h; simp at h
  · obtain ⟨v, c3, e1, e2, e3, e4, e5⟩ := hok hf
    rw [e1] at h
    simp only [Except.ok.injEq, Prod.mk.injEq] at h
    obtain ⟨hx, hcc⟩ := h
    subst hx hcc
    have hc2le := h2.index_le
    have hc2nn := h2.index_nonneg
    rw [← h5] at e2 e5 hf
    have hcur : ((view mq c).fit hist.length).cursor = mq.erased_ + c2.iterator_index_.toNat := by
      rw [← hv]; rfl
    refine ⟨e3, ?_, ?_, ?_⟩
    · rw [← hv]
      unfold view
      simp only [View.mk.injEq]
      constructor
      · unfold OutputChannel.max_size; rw [e4, h3]
      · rw [e5]; omega
    · rw [hcur]; omega
    · rw [hcur, hlog.2, List.getElem?_drop] at *
      exact e2

theorem push_refines {hist : List T} {mq : MessqgeQueue T} {c : OutputChannel} {idx : Nat}
    (hlog : LogOK hist mq) (hget : mq.output_channels_[idx]? = some c) (hc : ChanOK mq c)
    (hb : mq.data_.length + 1 < 9223372036854775808) (o : T) :
    LogOK (hist ++ [o]) (mq.push o) ∧ (mq.push o).data_.length < 9223372036854775808 ∧
    ∃ c1, (mq.push o).output_channels_[idx]? = some c1 ∧ ChanOK (mq.push o) c1 ∧
      view (mq.push o) c1 = view mq c := by
  have hlen := hlog.length_eq
  obtain ⟨c1, h1, h2, h3, _, _, h6⟩ := push_chan_ok mq o idx c hget hc hb
  obtain ⟨g1, g2, g3, _⟩ := push_data mq o
  have hl1 : (mq.push o).data_.length < 9223372036854775808 := by
    rw [g1, List.length_drop, List.length_append, List.length_singleton]; omega
  refine ⟨push_log_ok hlog o, hl1, c1, h1, h2, ?_⟩
  unfold view OutputChannel.max_size
  rw [h3, g2, h6]
  simp only [View.mk.injEq, true_and]
  have := h2.index_nonneg
  rw [h6] at this
  omega

/-- Refinement, one call: along a call that returns, the log stays the unreclaimed
suffix of the history, channel `idx` stays consistent, its view moves as the
specification says and the call returns what the specification says. -/
theorem call_refines {hist : List T} {mq mq1 : MessqgeQueue T} {c : OutputChannel}
    {idx : Nat} {cl : Call T} {r : Ret T}
    (hlog : LogOK hist mq) (hget : mq.output_channels_[idx]? = some c) (hc : ChanOK mq c)
    (hb : mq.data_.length < 9223372036854775808)
    (hlim : cl.limit_in_range idx = true)
    (hcall : mq.call cl = Except.ok (r, mq1)) :
    LogOK (hist ++ cl.pushed) mq1 ∧ mq1.data_.length < 9223372036854775808 ∧
    ∃ c1, mq1.output_channels_[idx]? = some c1 ∧ ChanOK mq1 c1 ∧
      view mq1 c1 = (view mq c).after idx hist.length cl ∧
      Observed idx hist (view mq c) cl r := by
  have hidx : idx < mq.output_channels_.length := by
    by_contra hcon
    rw [List.getElem?_eq_none (by omega)] at hget
    simp at hget
  cases cl with
  | push o =>
    simp only [MessqgeQueue.call] at hcall
    split at hcall
    · rename_i hlt
      simp only [Except.ok.injEq, Prod.mk.injEq] at hcall
      obtain ⟨_, h2⟩ := hcall
      subst h2
      unfold list_max_size at hlt
      obtain ⟨g1, g0, c1, g2, g3, g4⟩ := push_refines hlog hget hc (by omega) o
      exact ⟨g1, g0, c1, g2, g3, g4, trivial⟩
    · simp at hcall
  | size j =>
    simp only [Call.pushed, List.append_nil]
    simp only [MessqgeQueue.call] at hcall
    cases ho : (mq.output_channel j).1 with
    | error e => rw [ho] at hcall; simp at hcall
    | ok ref =>
      rw [ho] at hcall
      simp only at hcall
      obtain ⟨hr, hlt⟩ := output_channel_ok mq j ref ho
      cases hs : mq.channel_size ref with
      | error e => rw [hs] at hcall; simp at hcall
      | ok p =>
        obtain ⟨s, mq2⟩ := p
        rw [hs] at hcall
        simp only [Except.ok.injEq, Prod.mk.injEq] at hcall
        obtain ⟨hr1, hr2⟩ := hcall
        subst hr1 hr2
        obtain ⟨d2, e2, c0, c2, g0, g1, g2⟩ := channel_size_frame mq mq2 ref s hs
        rw [hr] at g0 g2
        refine ⟨⟨by rw [e2]; exact hlog.1, by rw [d2, e2]; exact hlog.2⟩,
          by rw [d2]; exact hb, ?_⟩
        by_cases hj : j = idx
        · subst hj
          rw [g0] at hget
          have := Option.some.inj hget
          subst this
          obtain ⟨q1, q2, q3⟩ := size_refines hlog hc hb g1
          refine ⟨c2, by rw [g2, List.getElem?_set_self hlt], q1.transfer d2 e2, ?_, ?_⟩
          · simp only [View.after, if_true]
            rw [← q2]; unfold view; rw [e2]
          · simp only [Observed]
            intro _; rw [q3]
        · refine ⟨c, by rw [g2, List.getElem?_set_ne hj]; exact hget, hc.transfer d2 e2, ?_, ?_⟩
          · simp only [View.after, if_neg hj]; unfold view; rw [e2]
          · simp only [Observed]
            intro h; exact absurd h hj
  | pop j =>
    simp only [Call.pushed, List.append_nil]
    simp only [MessqgeQueue.call] at hcall
    cases ho : (mq.output_channel j).1 with
    | error e => rw [ho] at hcall; simp at hcall
    | ok ref =>
      rw [ho] at hcall
      simp only at hcall
      obtain ⟨hr, hlt⟩ := output_channel_ok mq j ref ho
      cases hs : mq.channel_pop ref with
      | error e => rw [hs] at hcall; simp at hcall
      | ok p =>
        obtain ⟨x, mq2⟩ := p
        rw [hs] at hcall
        simp only [Except.ok.injEq, Prod.mk.injEq] at hcall
        obtain ⟨hr1, hr2⟩ := hcall
        subst hr1 hr2
        obtain ⟨d2, e2, c0, c2, g0, g1, g2⟩ := channel_pop_frame mq mq2 ref x hs
        rw [hr] at g0 g2
        refine ⟨⟨by rw [e2]; exact hlog.1, by rw [d2, e2]; exact hlog.2⟩,
          by rw [d2]; exact hb, ?_⟩
        by_cases hj : j = idx
        · subst hj
          rw [g0] at hget
          have := Option.some.inj hget
          subst this
          obtain ⟨q1, q2, q3, q4⟩ := pop_refines hlog hc hb g1
          refine ⟨c2, by rw [g2, List.getElem?_set_self hlt], q1.transfer d2 e2, ?_, ?_⟩
          · simp only [View.after, if_true]
            rw [← q2]; unfold view; rw [e2]
          · simp only [Observed]
            intro _; exact ⟨q3, x, rfl, q4⟩
        · refine ⟨c, by rw [g2, List.getElem?_set_ne hj]; exact hget, hc.transfer d2 e2, ?_, ?_⟩
          · simp only [View.after, if_neg hj]; unfold view; rw [e2]
          · simp only [Observed]
            intro h; exact absurd h hj
  | max_size j =>
    simp only [Call.pushed, List.append_nil]
    simp only [MessqgeQueue.call] at hcall
    cases ho : (mq.output_channel j).1 with
    | error e => rw [ho] at hcall; simp at hcall
    | ok ref =>
      rw [ho] at hcall
      simp only at hcall
      obtain ⟨hr, hlt⟩ := output_channel_ok mq j ref ho
      cases hs : mq.channel_max_size ref with
      | error e => rw [hs] at hcall; simp at hcall
      | ok p =>
        obtain ⟨n, mq2⟩ := p
        rw [hs] at hcall
        simp only [Except.ok.injEq, Prod.mk.injEq] at hcall
        obtain ⟨hr1, hr2⟩ := hcall
        subst hr1 hr2
        obtain ⟨d2, c0, g0, g1⟩ := channel_max_size_frame mq mq2 ref n hs
        subst d2
        rw [hr] at g0
        refine ⟨hlog, hb, c, hget, hc, rfl, ?_⟩
        simp only [Observed]
        intro hj
        subst hj
        rw [g0] at hget
        have := Option.some.inj hget
        subst this
        rw [g1]; rfl
  | set_max_size j m =>
    simp only [Call.pushed, List.append_nil]
    simp only [MessqgeQueue.call] at hcall
    cases ho : (mq.output_channel j).1 with
    | error e => rw [ho] at hcall; simp at hcall
    | ok ref =>
      rw [ho] at hcall
      simp only at hcall
      obtain ⟨hr, hlt⟩ := output_channel_ok mq j ref ho
      cases hs : mq.channel_set_max_size ref m with
      | error e => rw [hs] at hcall; simp at hcall
      | ok mq2 =>
        rw [hs] at hcall
        simp only [Except.ok.injEq, Prod.mk.injEq] at hcall
        obtain ⟨hr1, hr2⟩ := hcall
        subst hr1 hr2
        obtain ⟨d2, e2, c0, g0, g2⟩ := channel_set_max_size_frame mq mq2 ref m hs
        rw [hr] at g0 g2
        refine ⟨⟨by rw [e2]; exact hlog.1, by rw [d2, e2]; exact hlog.2⟩,
          by rw [d2]; exact hb, ?_⟩
        by_cases hj : j = idx
        · subst hj
          rw [g0] at hget
          have := Option.some.inj hget
          subst this
          simp only [Call.limit_in_range, ne_eq, not_true_eq_false, false_or,
            decide_eq_true_eq] at hlim
          have hm : intmax_of (m : Int) = m := intmax_of_eq (by omega) (by omega)
          refine ⟨c0.set_max_size m, by rw [g2, List.getElem?_set_self hlt], ?_, ?_, trivial⟩
          · refine ⟨?_, ?_, hc.index_nonneg, by rw [d2]; exact hc.index_le, ?_⟩
            · simp only [OutputChannel.set_max_size]; rw [hm]; omega
            · simp only [OutputChannel.set_max_size]; rw [hm]; omega
            · have := hc.iter_ok
              unfold IterOK at *
              simp only [OutputChannel.set_max_size]
              rw [d2, e2]; exact this
          · simp only [View.after, if_true]
            unfold view OutputChannel.max_size
            simp only [OutputChannel.set_max_size, View.mk.injEq]
            rw [hm, e2]
            refine ⟨?_, rfl⟩
            unfold size_type_of; omega
        · refine ⟨c, by rw [g2, List.getElem?_set_ne hj]; exact hget, hc.transfer d2 e2, ?_, trivial⟩
          simp only [View.after, if_neg hj]; unfold view; rw [e2]
  | output_channels_size =>
    simp only [Call.pushed, List.append_nil]
    simp only [MessqgeQueue.call] at hcall
    cases hs : mq.output_channels_size with
    | error e => rw [hs] at hcall; simp at hcall
    | ok p =>
      obtain ⟨l, mq2⟩ := p
      rw [hs] at hcall
      simp only [Except.ok.injEq, Prod.mk.injEq] at hcall
      obtain ⟨hr1, hr2⟩ := hcall
      subst hr1 hr2
      unfold MessqgeQueue.output_channels_size at hs
      obtain ⟨d2, e2, _, hk⟩ := output_channels_size_loop_frame _ mq mq2 0 _ l hs
      obtain ⟨s, c1, g1, g2⟩ := (hk idx c hget).2 ⟨by omega, by omega⟩
      obtain ⟨q1, q2, _⟩ := size_refines hlog hc hb g1
      refine ⟨⟨by rw [e2]; exact hlog.1, by rw [d2, e2]; exact hlog.2⟩,
        by rw [d2]; exact hb, c1, g2, q1.transfer d2 e2, ?_, trivial⟩
      simp only [View.after]
      rw [← q2]; unfold view; rw [e2]

theorem run_cons {mq mq1 : MessqgeQueue T} {cl : Call T} {cs : List (Call T)}
    {rs : List (Ret T)} (h : mq.run (cl :: cs) = Except.ok (rs, mq1)) :
    ∃ r mq2 rs1, mq.call cl = Except.ok (r, mq2) ∧ mq2.run cs = Except.ok (rs1, mq1) ∧
      rs = r :: rs1 := by
  rw [MessqgeQueue.run] at h
  cases hc : mq.call cl with
  | error e => rw [hc] at h; simp at h
  | ok p =>
    obtain ⟨r, mq2⟩ := p
    rw [hc] at h
    simp only at h
    cases hr : mq2.run cs with
    | error e => rw [hr] at h; simp at h
    | ok q =>
      obtain ⟨rs1, mq3⟩ := q
      rw [hr] at h
      simp only [Except.ok.injEq, Prod.mk.injEq] at h
      obtain ⟨h1, h2⟩ := h
      subst h1 h2
      exact ⟨r, mq2, rs1, rfl, hr, rfl⟩

theorem run_append {mq mq1 mq2 : MessqgeQueue T} {cs1 cs2 : List (Call T)}
    {rs1 rs2 : List (Ret T)} (h1 : mq.run cs1 = Except.ok (rs1, mq1))
    (h2 : mq1.run cs2 = Except.ok (rs2, mq2)) :
    mq.run (cs1 ++ cs2) = Except.ok (rs1 ++ rs2, mq2) := by
  induction cs1 generalizing mq rs1 with
  | nil =>
    simp only [MessqgeQueue.run, Except.ok.injEq, Prod.mk.injEq] at h1
    obtain ⟨e1, e2⟩ := h1
    subst e1 e2
    exact h2
  | cons cl cs ih =>
    obtain ⟨r, mq3, rs3, g1, g2, g3⟩ := run_cons h1
    subst g3
    show MessqgeQueue.run mq (cl :: (cs ++ cs2)) = _
    rw [MessqgeQueue.run, g1]
    simp only
    rw [ih g2]
    rfl

theorem View.fit_unbounded (n : Nat) (v : View) (h : v.limit = 0) : v.fit n = v := by
  unfold View.fit
  rw [if_neg (by omega)]

theorem pushed_append (cs1 cs2 : List (Call T)) :
    pushed (cs1 ++ cs2) = pushed cs1 ++ pushed cs2 := by
  induction cs1 with
  | nil => rfl
  | cons cl cs ih =>
    show cl.pushed ++ pushed (cs ++ cs2) = (cl.pushed ++ pushed cs) ++ pushed cs2
    rw [ih, List.append_assoc]

/-- A channel whose limit stays 0 is delivered the appended values in order and
without gaps, from its cursor on, whatever the other calls are. -/
theorem run_unbounded_fifo (idx : Nat) (cs : List (Call T)) :
    ∀ (hist : List T) (mq mq1 : MessqgeQueue T) (c : OutputChannel) (rs : List (Ret T)),
      LogOK hist mq → mq.output_channels_[idx]? = some c → ChanOK mq c →
      (view mq c).limit = 0 →
      mq.data_.length < 9223372036854775808 →
      (∀ cl ∈ cs, cl.keeps_unbounded idx = true) →
      mq.run cs = Except.ok (rs, mq1) →
      popped idx cs rs <+: (hist ++ pushed cs).drop (view mq c).cursor := by
  induction cs with
  | nil =>
    intro hist mq mq1 c rs _ _ _ _ _ _ _
    simp [popped]
  | cons cl cs ih =>
    intro hist mq mq1 c rs hlog hget hc hlim hb hk hrun
    obtain ⟨r, mq2, rs1, g1, g2, g3⟩ := run_cons hrun
    subst g3
    have hkcl := hk cl (List.mem_cons_self _ _)
    have hin : cl.limit_in_range idx = true := by
      cases cl <;> simp only [Call.limit_in_range, Call.keeps_unbounded, decide_eq_true_eq] at hkcl ⊢
      rcases hkcl with h | h
      · exact Or.inl h
      · right; omega
    obtain ⟨hlog2, hb2, c1, hget2, hc2, hview, hobs⟩ := call_refines hlog hget hc hb hin g1
    have hfit := View.fit_unbounded hist.length (view mq c) hlim
    have happ : hist ++ pushed (cl :: cs) = (hist ++ cl.pushed) ++ pushed cs := by
      simp only [pushed, List.append_assoc]
    have hk2 : ∀ cl1 ∈ cs, cl1.keeps_unbounded idx = true :=
      fun cl1 h1 => hk cl1 (List.mem_cons_of_mem _ h1)
    rw [happ]
    simp only [popped]
    by_cases hpop : cl = Call.pop idx
    · subst hpop
      simp only [View.after, if_true, hfit] at hview
      simp only [Observed, hfit] at hobs
      obtain ⟨hlt, x, hx, hhx⟩ := hobs trivial
      subst hx
      have hl0 : (view mq2 c1).limit = 0 := by rw [hview]; exact hlim
      have := ih (hist ++ Call.pushed (Call.pop idx)) mq2 mq1 c1 rs1 hlog2 hget2 hc2 hl0 hb2 hk2 g2
      rw [hview] at this
      simp only [Call.pushed, List.append_nil] at this ⊢
      simp only [Call.popped, if_true, List.singleton_append]
      have hlt2 : (view mq c).cursor < (hist ++ pushed cs).length := by
        rw [List.length_append]; omega
      have hx2 : (hist ++ pushed cs)[(view mq c).cursor] = x := by
        have h3 : (hist ++ pushed cs)[(view mq c).cursor]? = some x := by
          rw [List.getElem?_append_left hlt]; exact hhx
        rw [List.getElem?_eq_getElem hlt2] at h3
        exact Option.some.inj h3
      rw [List.drop_eq_getElem_cons hlt2, hx2]
      exact (List.cons_prefix_cons).mpr ⟨rfl, this⟩
    · have hnone : cl.popped idx r = [] := by
        cases cl with
        | pop j =>
          have hj : j ≠ idx := fun h => hpop (by rw [h])
          cases r <;> simp [Call.popped, hj]
        | _ => simp [Call.popped]
      have hv2 : view mq2 c1 = view mq c := by
        rw [hview]
        cases cl with
        | push o => rfl
        | size j => simp only [View.after, hfit, ite_self]
        | pop j =>
          have hj : j ≠ idx := fun h => hpop (by rw [h])
          simp only [View.after, if_neg hj]
        | max_size j => rfl
        | set_max_size j m =>
          simp only [Call.keeps_unbounded, decide_eq_true_eq] at hkcl
          simp only [View.after]
          split
          · rename_i hj
            rcases hkcl with h | h
            · exact absurd hj h
            · subst h
              rw [← hlim]
          · rfl
        | output_channels_size => simp only [View.after, hfit]
      have hl0 : (view mq2 c1).limit = 0 := by rw [hv2]; exact hlim
      have := ih (hist ++ cl.pushed) mq2 mq1 c1 rs1 hlog2 hget2 hc2 hl0 hb2 hk2 g2
      rw [hv2] at this
      rw [hnone, List.nil_append]
      exact this

theorem size_type_of_zero : size_type_of 0 = 0 := by
  unfold size_type_of; omega

theorem tracks_fresh (count idx : Nat) (h : idx < count) :
    Tracks idx ([] : List T) (fresh T count) { limit := 0, cursor := 0 } := by
  refine ⟨⟨by simp [fresh], by simp [fresh]⟩, by simp [fresh], ?_⟩
  refine ⟨unpositioned, ?_, ?_, ?_⟩
  · simp only [fresh]
    rw [List.getElem?_replicate, if_pos h]
  · refine ⟨by simp [unpositioned], by simp [unpositioned], by simp [unpositioned],
      by simp [fresh, unpositioned], ?_⟩
    simp [IterOK, unpositioned]
  · simp [view, OutputChannel.max_size, size_type_of_zero, fresh, unpositioned]

theorem Tracks.index_lt {idx : Nat} {hist : List T} {mq : MessqgeQueue T} {v : View}
    (h : Tracks idx hist mq v) : idx < mq.output_channels_.length := by
  obtain ⟨c, hget, _, _⟩ := h.chan
  by_contra hcon
  rw [List.getElem?_eq_none (by omega)] at hget
  simp at hget

theorem Tracks.cursor_le {idx : Nat} {hist : List T} {mq : MessqgeQueue T} {v : View}
    (h : Tracks idx hist mq v) : v.cursor ≤ hist.length := by
  obtain ⟨c, _, hc, hv⟩ := h.chan
  have := h.log_ok.length_eq
  have := hc.index_le
  have := hc.index_nonneg
  rw [← hv]; unfold view; simp only; omega

theorem Tracks.limit_lt {idx : Nat} {hist : List T} {mq : MessqgeQueue T} {v : View}
    (h : Tracks idx hist mq v) : v.limit < 9223372036854775808 := by
  obtain ⟨c, _, hc, hv⟩ := h.chan
  have h1 := hc.limit_nonneg
  have h2 := hc.limit_lt
  have h3 := size_type_of_spec c.max_size_
  rw [← hv]; unfold view OutputChannel.max_size; simp only; omega

/-- Refinement, one call, in terms of `Tracks`. -/
theorem call_tracks {idx : Nat} {hist : List T} {mq mq1 : MessqgeQueue T} {v : View}
    {cl : Call T} {r : Ret T} (h : Tracks idx hist mq v)
    (hlim : cl.limit_in_range idx = true) (hcall : mq.call cl = Except.ok (r, mq1)) :
    Tracks idx (hist ++ cl.pushed) mq1 (v.after idx hist.length cl) ∧ Observed idx hist v cl r := by
  obtain ⟨c, hget, hc, hv⟩ := h.chan
  obtain ⟨g1, g0, c1, g2, g3, g4, g5⟩ := call_refines h.log_ok hget hc h.bound hlim hcall
  subst hv
  exact ⟨⟨g1, g0, c1, g2, g3, g4⟩, g5⟩

theorem call_push {mq : MessqgeQueue T} (o : T) (hb : mq.data_.length < list_max_size) :
    mq.call (Call.push o) = Except.ok (Ret.done, mq.push o) := by
  simp only [MessqgeQueue.call, if_pos hb]

theorem push_tracks {idx : Nat} {hist : List T} {mq : MessqgeQueue T} {v : View}
    (h : Tracks idx hist mq v) (o : T) (hb : mq.data_.length < list_max_size) :
    Tracks idx (hist ++ [o]) (mq.push o) v := by
  have hcall := call_push o hb
  exact (call_tracks h (by rfl) hcall).1

theorem size_tracks {idx : Nat} {hist : List T} {mq : MessqgeQueue T} {v : View}
    (h : Tracks idx hist mq v) :
    ∃ mq1, mq.call (Call.size idx) =
        Except.ok (Ret.num (hist.length - (v.fit hist.length).cursor), mq1) ∧
      Tracks idx hist mq1 (v.fit hist.length) := by
  obtain ⟨c, hget, hc, hv⟩ := h.chan
  have hlen := h.log_ok.length_eq
  have hb := h.bound
  obtain ⟨c1, h1, _⟩ := size_ok mq c hc hb
  have hcall : mq.call (Call.size idx) = Except.ok (Ret.num (c1.raw_size mq),
      { mq with output_channels_ := mq.output_channels_.set idx c1 }) := by
    simp only [MessqgeQueue.call, output_channel_of_lt mq idx h.index_lt,
      MessqgeQueue.channel_size, hget, h1]
  obtain ⟨g1, g2⟩ := call_tracks h (by rfl) hcall
  simp only [Call.pushed, List.append_nil, View.after, if_true] at g1
  simp only [Observed, true_implies, Ret.num.injEq] at g2
  refine ⟨_, ?_, g1⟩
  rw [hcall, g2]

theorem pop_tracks {idx : Nat} {hist : List T} {mq : MessqgeQueue T} {v : View}
    (h : Tracks idx hist mq v) (hlt : (v.fit hist.length).cursor < hist.length) :
    ∃ x mq1, mq.call (Call.pop idx) = Except.ok (Ret.val x, mq1) ∧
      hist[(v.fit hist.length).cursor]? = some x ∧
      Tracks idx hist mq1
        { v.fit hist.length with cursor := (v.fit hist.length).cursor + 1 } := by
  obtain ⟨c, hget, hc, hv⟩ := h.chan
  have hlen := h.log_ok.length_eq
  have hb := h.bound
  obtain ⟨c1, _, h2, h3, _, h5, _⟩ := size_ok mq c hc hb
  have hvf := view_fit h.log_ok hc h3 h5
  have hne : fit_index mq.data_.length c.max_size_ c.iterator_index_ ≠ (mq.data_.length : Int) := by
    rw [← h5]
    have e : (view mq c1).cursor = mq.erased_ + c1.iterator_index_.toNat := rfl
    rw [hvf, hv] at e
    have := h2.index_nonneg
    omega
  obtain ⟨x, c2, e1, _⟩ := (pop_ok mq c hc hb).2 hne
  have hcall : mq.call (Call.pop idx) = Except.ok (Ret.val x,
      { mq with output_channels_ := mq.output_channels_.set idx c2 }) := by
    simp only [MessqgeQueue.call, output_channel_of_lt mq idx h.index_lt,
      MessqgeQueue.channel_pop, hget, e1]
  obtain ⟨g1, g2⟩ := call_tracks h (by rfl) hcall
  simp only [Call.pushed, List.append_nil, View.after, if_true] at g1
  simp only [Observed, true_implies, Ret.val.injEq, exists_eq_left'] at g2
  exact ⟨x, _, hcall, g2.2, g1⟩

theorem set_max_size_tracks {idx : Nat} {hist : List T} {mq : MessqgeQueue T} {v : View}
    (h : Tracks idx hist mq v) (m : Nat) (hm : m < 9223372036854775808) :
    ∃ mq1, mq.call (Call.set_max_size idx m) = Except.ok (Ret.done, mq1) ∧
      Tracks idx hist mq1 { v with limit := m } := by
  obtain ⟨c, hget, hc, hv⟩ := h.chan
  have hcall : mq.call (Call.set_max_size idx m) = Except.ok (Ret.done,
      { mq with output_channels_ := mq.output_channels_.set idx (c.set_max_size m) }) := by
    simp only [MessqgeQueue.call, output_channel_of_lt mq idx h.index_lt,
      MessqgeQueue.channel_set_max_size, hget]
  have hlim : (Call.set_max_size idx m : Call T).limit_in_range idx = true := by
    simp only [Call.limit_in_range, decide_eq_true_eq]; right; exact hm
  obtain ⟨g1, _⟩ := call_tracks h hlim hcall
  simp only [Call.pushed, List.append_nil, View.after, if_true] at g1
  exact ⟨_, hcall, g1⟩

theorem execute_eq (count : Nat) (h : 1 ≤ count) (cs : List (Call T)) :
    execute count cs = (fresh T count).run cs := by
  unfold execute
  rw [construct_eq_fresh count h]

theorem execute_ok {count : Nat} {cs : List (Call T)} {rs : List (Ret T)}
    {mq : MessqgeQueue T} (h : execute count cs = Except.ok (rs, mq)) :
    1 ≤ count ∧ (fresh T count).run cs = Except.ok (rs, mq) := by
  by_cases hc : 1 ≤ count
  · rw [execute_eq count hc] at h
    exact ⟨hc, h⟩
  · have : count = 0 := by omega
    subst this
    simp [execute, MessqgeQueue.construct] at h

theorem push_length_le (mq : MessqgeQueue T) (o : T) :
    (mq.push o).data_.length ≤ mq.data_.length + 1 := by
  obtain ⟨g1, _, _, _⟩ := push_data mq o
  rw [g1, List.length_drop, List.length_append, List.length_singleton]
  omega

theorem run_pushes (vs : List T) (mq : MessqgeQueue T)
    (hb : mq.data_.length + vs.length ≤ list_max_size) :
    mq.run (vs.map Call.push) =
      Except.ok (List.replicate vs.length Ret.done, vs.foldl MessqgeQueue.push mq) := by
  induction vs generalizing mq with
  | nil => rfl
  | cons v vs ih =>
    simp only [List.length_cons] at hb
    have hle := push_length_le mq v
    simp only [List.map_cons, MessqgeQueue.run, call_push v (show mq.data_.length < list_max_size by omega),
      ih (mq.push v) (by omega), List.length_cons, List.replicate_succ, List.foldl_cons]

theorem foldl_push_tracks {idx : Nat} (vs : List T) :
    ∀ {hist : List T} {mq : MessqgeQueue T} {v : View}, Tracks idx hist mq v →
      mq.data_.length + vs.length ≤ list_max_size →
      Tracks idx (hist ++ vs) (vs.foldl MessqgeQueue.push mq) v := by
  induction vs with
  | nil => intro hist mq v h _; simpa using h
  | cons x vs ih =>
    intro hist mq v h hb
    simp only [List.length_cons] at hb
    have hle := push_length_le mq x
    have h1 := push_tracks h x (by omega)
    have h2 := ih h1 (by omega)
    simpa using h2

theorem run_pops {idx : Nat} (k : Nat) :
    ∀ {hist : List T} {mq : MessqgeQueue T} {v : View}, Tracks idx hist mq v →
      v.limit = 0 → v.cursor + k ≤ hist.length →
      ∃ mq1, mq.run (List.replicate k (Call.pop idx)) =
          Except.ok (((hist.drop v.cursor).take k).map Ret.val, mq1) ∧
        Tracks idx hist mq1 { v with cursor := v.cursor + k } := by
  induction k with
  | zero =>
    intro hist mq v h _ _
    exact ⟨mq, by simp [MessqgeQueue.run], h⟩
  | succ k ih =>
    intro hist mq v h hl hle
    have hfit := View.fit_unbounded hist.length v hl
    obtain ⟨x, mq1, e1, e2, e3⟩ := pop_tracks h (by rw [hfit]; omega)
    rw [hfit] at e2 e3
    obtain ⟨mq2, f1, f2⟩ := ih e3 hl (by simp only; omega)
    refine ⟨mq2, ?_, ?_⟩
    · simp only [List.replicate_succ, MessqgeQueue.run, e1, f1]
      have hlt : v.cursor < hist.length := by omega
      have hx : hist[v.cursor] = x := by
        rw [List.getElem?_eq_getElem hlt] at e2
        exact Option.some.inj e2
      rw [List.drop_eq_getElem_cons hlt, hx]
      simp
    · have : v.cursor + 1 + k = v.cursor + (k + 1) := by omega
      simp only [this] at f2
      exact f2

theorem run_one {mq mq1 : MessqgeQueue T} {cl : Call T} {r : Ret T}
    (h : mq.call cl = Except.ok (r, mq1)) : mq.run [cl] = Except.ok ([r], mq1) := by
  simp only [MessqgeQueue.run, h]

theorem unpositioned_size_nil (e : Nat) (o : List OutputChannel) :
    unpositioned.size ({ data_ := [], erased_ := e, output_channels_ := o } : MessqgeQueue T) =
      Except.ok (0, unpositioned) := by
  simp [OutputChannel.size, OutputChannel.fit_max_size, MessqgeQueue.list_end,
    MessqgeQueue.list_begin, unpositioned, OutputChannel.raw_size, size_type_of_zero]

theorem unpositioned_size_cons (x : T) (xs : List T) (e : Nat) (o : List OutputChannel)
    (hl : (x :: xs).length < 18446744073709551616) :
    unpositioned.size ({ data_ := x :: xs, erased_ := e, output_channels_ := o } : MessqgeQueue T) =
      Except.ok ((x :: xs).length,
        { max_size_ := 0, iterator_ := ListIter.node e, iterator_stagnated_ := false,
          iterator_index_ := 0 }) := by
  simp only [OutputChannel.size, OutputChannel.fit_max_size, MessqgeQueue.list_end,
    MessqgeQueue.list_begin, unpositioned, OutputChannel.raw_size, OutputChannel.fit_window,
    OutputChannel.max_size, size_type_of_zero, if_true, le_refl, sub_zero]
  simp only [List.length_cons] at hl
  simp
  unfold size_type_of; omega

theorem replicate_append_cons {α : Type} (i : Nat) (a : α) (l : List α) :
    List.replicate i a ++ a :: l = a :: (List.replicate i a ++ l) := by
  induction i with
  | zero => rfl
  | succ i ih => simp only [List.replicate_succ, List.cons_append, ih]

/-- The loop of `output_channels_size` on a queue whose channels are all equal. -/
theorem output_channels_size_loop_uniform (d : List T) (e : Nat) (c0 c1 : OutputChannel)
    (s : Nat)
    (hs : ∀ o, c0.size ({ data_ := d, erased_ := e, output_channels_ := o } : MessqgeQueue T) =
      Except.ok (s, c1)) (n : Nat) :
    ∀ i : Nat,
      MessqgeQueue.output_channels_size_loop
        ({ data_ := d, erased_ := e,
           output_channels_ := List.replicate i c1 ++ List.replicate n c0 } : MessqgeQueue T)
        n i (List.replicate i s ++ List.replicate n 0) =
      Except.ok (List.replicate (i + n) s,
        { data_ := d, erased_ := e, output_channels_ := List.replicate (i + n) c1 }) := by
  induction n with
  | zero => intro i; simp [MessqgeQueue.output_channels_size_loop]
  | succ n ih =>
    intro i
    have hlt : i < (List.replicate i c1 ++ List.replicate (n + 1) c0).length := by simp
    have hget : (List.replicate i c1 ++ List.replicate (n + 1) c0)[i]? = some c0 := by
      rw [List.getElem?_append_right (by simp)]
      simp [List.replicate_succ]
    have hset : (List.replicate i c1 ++ List.replicate (n + 1) c0).set i c1
        = List.replicate (i + 1) c1 ++ List.replicate n c0 := by
      rw [List.set_append_right _ _ (by simp)]
      simp [List.replicate_succ, replicate_append_cons]
    have hres : (List.replicate i s ++ List.replicate (n + 1) 0).set i s
        = List.replicate (i + 1) s ++ List.replicate n 0 := by
      rw [List.set_append_right _ _ (by simp)]
      simp [List.replicate_succ, replicate_append_cons]
    rw [MessqgeQueue.output_channels_size_loop, output_channel_of_lt _ _ hlt]
    simp only [MessqgeQueue.channel_size, hget, hs, hset, hres]
    rw [ih (i + 1)]
    have : i + 1 + n = i + (n + 1) := by omega
    rw [this]

theorem output_channels_size_uniform (d : List T) (e : Nat) (c0 c1 : OutputChannel)
    (s count : Nat)
    (hs : ∀ o, c0.size ({ data_ := d, erased_ := e, output_channels_ := o } : MessqgeQueue T) =
      Except.ok (s, c1)) :
    MessqgeQueue.output_channels_size
        ({ data_ := d, erased_ := e, output_channels_ := List.replicate count c0 } : MessqgeQueue T) =
      Except.ok (List.replicate count s,
        { data_ := d, erased_ := e, output_channels_ := List.replicate count c1 }) := by
  have := output_channels_size_loop_uniform d e c0 c1 s hs count 0
  simp only [List.replicate_zero, List.nil_append, Nat.zero_add] at this
  simp only [MessqgeQueue.output_channels_size, List.length_replicate]
  exact this

theorem foldl_min_replicate_zero (n init : Nat) (c : OutputChannel)
    (hc : size_type_of c.iterator_index_ = 0) (hn : 1 ≤ n) :
    (List.replicate n c).foldl (fun minidx c =>
      if minidx < size_type_of c.iterator_index_ then minidx
      else size_type_of c.iterator_index_) init = 0 := by
  have hmem : c ∈ List.replicate n c := by
    rw [List.mem_replicate]; exact ⟨by omega, rfl⟩
  have := foldl_minidx_le_mem (List.replicate n c) init c hmem
  omega

theorem foldl_push_fresh (count : Nat) (hc : 1 ≤ count) (vs : List T) :
    ∀ d : List T,
      vs.foldl MessqgeQueue.push
        ({ data_ := d, erased_ := 0, output_channels_ := List.replicate count unpositioned }
          : MessqgeQueue T) =
      { data_ := d ++ vs, erased_ := 0, output_channels_ := List.replicate count unpositioned } := by
  induction vs with
  | nil => intro d; simp
  | cons v vs ih =>
    intro d
    have hscan : MessqgeQueue.scan_minidx
        ({ data_ := d ++ [v], erased_ := 0,
           output_channels_ := List.replicate count unpositioned } : MessqgeQueue T) = 0 := by
      unfold MessqgeQueue.scan_minidx
      exact foldl_min_replicate_zero count _ unpositioned (by simp [unpositioned, size_type_of_zero]) hc
    have hpush : MessqgeQueue.push
        ({ data_ := d, erased_ := 0, output_channels_ := List.replicate count unpositioned }
          : MessqgeQueue T) v =
        { data_ := d ++ [v], erased_ := 0,
          output_channels_ := List.replicate count unpositioned } := by
      unfold MessqgeQueue.push MessqgeQueue.clean_front_data
      simp only [hscan]
      simp
    rw [List.foldl_cons, hpush, ih]
    simp

/-- One `push` adds one to the unread count of every channel, in `size_type`
arithmetic for every state, and exactly when the cursor is non-negative and the
log shorter than `2^63`. -/
theorem push_backlog (mq : MessqgeQueue T) (o : T) (idx : Nat) (c : OutputChannel)
    (hget : mq.output_channels_[idx]? = some c) :
    ∃ c1, (mq.push o).output_channels_[idx]? = some c1 ∧
      c1.raw_size (mq.push o) = (c.raw_size mq + 1) % 18446744073709551616 ∧
      (0 ≤ c.iterator_index_ → c.iterator_index_ < 9223372036854775808 →
        mq.data_.length + 1 < 9223372036854775808 →
        ((mq.push o).data_.length : Int) - c1.iterator_index_ =
          (mq.data_.length : Int) - c.iterator_index_ + 1) := by
  have hmem : c ∈ mq.output_channels_ := List.mem_iff_getElem?.mpr ⟨idx, hget⟩
  have hle := scan_minidx_le_length { mq with data_ := mq.data_ ++ [o] }
  have hlec := scan_minidx_le_mem { mq with data_ := mq.data_ ++ [o] } c hmem
  simp only [List.length_append, List.length_singleton] at hle
  unfold MessqgeQueue.push MessqgeQueue.clean_front_data
  split
  · refine ⟨c, hget, ?_, ?_⟩
    · unfold OutputChannel.raw_size
      simp only [List.length_append, List.length_singleton]
      have h1 := size_type_of_spec (((mq.data_.length + 1 : Nat) : Int) - c.iterator_index_)
      have h2 := size_type_of_spec ((mq.data_.length : Int) - c.iterator_index_)
      omega
    · intro _ _ _
      simp only [List.length_append, List.length_singleton]
      push_cast; omega
  · rename_i hgt
    generalize hd : MessqgeQueue.scan_minidx { mq with data_ := mq.data_ ++ [o] } = m at *
    refine ⟨{ c with
      iterator_index_ := intmax_of (c.iterator_index_ - intmax_of ((m - 1 : Nat) : Int)) },
      ?_, ?_, ?_⟩
    · simp only [List.getElem?_map, hget, Option.map_some']
    · unfold OutputChannel.raw_size
      simp only [List.length_drop, List.length_append, List.length_singleton]
      have h1 := size_type_of_spec (((mq.data_.length + 1 - (m - 1) : Nat) : Int) -
        intmax_of (c.iterator_index_ - intmax_of ((m - 1 : Nat) : Int)))
      have h2 := size_type_of_spec ((mq.data_.length : Int) - c.iterator_index_)
      have h3 := intmax_of_spec (c.iterator_index_ - intmax_of ((m - 1 : Nat) : Int))
      have h4 := intmax_of_spec ((m - 1 : Nat) : Int)
      omega
    · intro h0 h1 hl
      simp only [List.length_drop, List.length_append, List.length_singleton]
      have hsz := size_type_of_eq h0 (by omega)
      have h4 : intmax_of ((m - 1 : Nat) : Int) = ((m - 1 : Nat) : Int) :=
        intmax_of_eq (by omega) (by omega)
      rw [h4]
      have h3 : intmax_of (c.iterator_index_ - ((m - 1 : Nat) : Int)) =
          c.iterator_index_ - ((m - 1 : Nat) : Int) := intmax_of_eq (by omega) (by omega)
      rw [h3]
      omega

theorem run_push_size {idx : Nat} (vs : List T) :
    ∀ {hist : List T} {mq : MessqgeQueue T}, Tracks idx hist mq { limit := 0, cursor := 0 } →
      (hist ++ vs).length ≤ list_max_size →
      ∃ mq1, mq.run (vs.flatMap fun v => [Call.push v, Call.size idx]) =
        Except.ok ((List.range' hist.length vs.length).flatMap
          fun i => [Ret.done, Ret.num (i + 1)], mq1) := by
  induction vs with
  | nil => intro hist mq _ _; exact ⟨mq, by simp [MessqgeQueue.run]⟩
  | cons v vs ih =>
    intro hist mq h hb
    simp only [List.length_append, List.length_cons] at hb
    have hlen := h.log_ok.length_eq
    have hp := call_push v (show mq.data_.length < list_max_size by omega)
    have h1 := push_tracks h v (by omega)
    obtain ⟨mq2, c2, h2⟩ := size_tracks h1
    have hfit : View.fit (hist ++ [v]).length { limit := 0, cursor := 0 }
        = { limit := 0, cursor := 0 } := View.fit_unbounded _ _ rfl
    rw [hfit] at c2 h2
    obtain ⟨mq3, c3⟩ := ih h2 (by simp only [List.length_append, List.length_singleton]; omega)
    refine ⟨mq3, ?_⟩
    have := run_append (run_append (run_one hp) (run_one c2)) c3
    simp only [List.length_append, List.length_singleton, Nat.sub_zero] at this
    simp only [List.flatMap_cons, List.length_cons, List.range'_succ]
    exact this

/-- Refinement along an execution: when no limit of `2^63` or more is given to
channel `idx`, the channel stays consistent with the log and its view is the one
the specification computes. -/
theorem run_tracks {idx : Nat} (cs : List (Call T)) :
    ∀ {hist : List T} {mq mq1 : MessqgeQueue T} {v : View} {rs : List (Ret T)},
      Tracks idx hist mq v →
      (∀ cl ∈ cs, cl.limit_in_range idx = true) → mq.run cs = Except.ok (rs, mq1) →
      Tracks idx (hist ++ pushed cs) mq1 (v.after_all idx hist.length cs) := by
  induction cs with
  | nil =>
    intro hist mq mq1 v rs h _ hrun
    simp only [MessqgeQueue.run, Except.ok.injEq, Prod.mk.injEq] at hrun
    obtain ⟨_, e⟩ := hrun
    subst e
    simpa [pushed, View.after_all] using h
  | cons cl cs ih =>
    intro hist mq mq1 v rs h hlim hrun
    obtain ⟨r, mq2, rs1, g1, g2, _⟩ := run_cons hrun
    have happ : hist ++ pushed (cl :: cs) = (hist ++ cl.pushed) ++ pushed cs := by
      simp only [pushed, List.append_assoc]
    rw [happ]
    obtain ⟨h1, _⟩ := call_tracks h (hlim cl (List.mem_cons_self _ _)) g1
    have := ih h1 (fun c hc => hlim c (List.mem_cons_of_mem _ hc)) g2
    simpa [View.after_all, List.length_append] using this

/-- Every state reached from construction by an execution that gives channel `idx`
no limit of `2^63` or more keeps that channel consistent with the log. -/
theorem execute_tracks {count idx : Nat} {cs : List (Call T)} {rs : List (Ret T)}
    {mq : MessqgeQueue T} (hex : execute count cs = Except.ok (rs, mq)) (hidx : idx < count)
    (hlim : ∀ cl ∈ cs, cl.limit_in_range idx = true) :
    Tracks idx (pushed cs) mq (View.after_all idx 0 { limit := 0, cursor := 0 } cs) := by
  obtain ⟨_, hrun⟩ := execute_ok hex
  have := run_tracks cs (tracks_fresh (T := T) count idx hidx) hlim hrun
  rw [List.nil_append, List.length_nil] at this
  exact this

theorem View.fit_limit (n : Nat) (v : View) : (v.fit n).limit = v.limit := by
  unfold View.fit
  split <;> rfl

theorem View.fit_cursor (n : Nat) (v : View) :
    (v.fit n).cursor = if 0 < v.limit ∧ v.limit + v.cursor < n then n - v.limit else v.cursor := by
  unfold View.fit
  split <;> rfl

theorem View.fit_of_not (n : Nat) (v : View) (h : ¬(0 < v.limit ∧ v.limit + v.cursor < n)) :
    v.fit n = v := by
  unfold View.fit
  rw [if_neg h]

theorem View.fit_stable (n : Nat) (v : View) :
    ¬(0 < (v.fit n).limit ∧ (v.fit n).limit + (v.fit n).cursor < n) := by
  rw [View.fit_limit, View.fit_cursor]
  split <;> omega

theorem View.fit_fit (n : Nat) (v : View) : (v.fit n).fit n = v.fit n :=
  View.fit_of_not n _ (View.fit_stable n v)

theorem View.le_fit_cursor (n : Nat) (v : View) : v.cursor ≤ (v.fit n).cursor := by
  rw [View.fit_cursor]
  split <;> omega

/-- Window clamp, for limits below `2^63`: when channel `idx` has limit `w ≥ 1` and at
least `w` unread entries, its next pop returns the `w`-th most recent entry. -/
theorem pop_returns_window_start {idx : Nat} {hist : List T} {mq : MessqgeQueue T} {v : View}
    (h : Tracks idx hist mq v) (hw : 1 ≤ v.limit) (hun : v.limit + v.cursor ≤ hist.length) :
    ∃ x mq1, mq.call (Call.pop idx) = Except.ok (Ret.val x, mq1) ∧
      hist[hist.length - v.limit]? = some x := by
  have hfit : (v.fit hist.length).cursor = hist.length - v.limit := by
    rw [View.fit_cursor]
    split <;> omega
  obtain ⟨x, mq1, e1, e2, _⟩ := pop_tracks h (by rw [hfit]; omega)
  rw [hfit] at e2
  exact ⟨x, mq1, e1, e2⟩

/-- Size after pop, for limits below `2^63`: when `size()` returns `s > 0`, a pop
followed by `size()` returns `s - 1`. -/
theorem size_pop_size {idx : Nat} {hist : List T} {mq mq1 : MessqgeQueue T} {v : View}
    {s : Nat} (h : Tracks idx hist mq v)
    (hs : mq.call (Call.size idx) = Except.ok (Ret.num s, mq1)) (hpos : 0 < s) :
    ∃ x mq2 mq3, mq1.call (Call.pop idx) = Except.ok (Ret.val x, mq2) ∧
      mq2.call (Call.size idx) = Except.ok (Ret.num (s - 1), mq3) := by
  obtain ⟨mq1a, e1, h1⟩ := size_tracks h
  rw [hs] at e1
  simp only [Except.ok.injEq, Prod.mk.injEq, Ret.num.injEq] at e1
  obtain ⟨es, em⟩ := e1
  subst em
  have hle := h1.cursor_le
  obtain ⟨x, mq2, e2, _, h2⟩ := pop_tracks h1 (by rw [View.fit_fit]; omega)
  rw [View.fit_fit] at h2
  obtain ⟨mq3, e3, _⟩ := size_tracks h2
  refine ⟨x, mq2, mq3, e2, ?_⟩
  rw [e3]
  have hst := View.fit_stable hist.length v
  rw [View.fit_of_not _ _ (by simp only; omega)]
  simp only
  congr 3
  omega

theorem View.cursor_le_after (idx n : Nat) (v : View) (cl : Call T) :
    v.cursor ≤ (v.after idx n cl).cursor := by
  have := View.le_fit_cursor n v
  cases cl with
  | push o => exact le_refl _
  | size j => simp only [View.after]; split <;> omega
  | pop j =>
    simp only [View.after]
    split
    · show v.cursor ≤ (v.fit n).cursor + 1
      omega
    · exact le_refl _
  | max_size j => exact le_refl _
  | set_max_size j m => simp only [View.after]; split <;> exact le_refl _
  | output_channels_size => exact this

/-- In-order delivery, for limits below `2^63`: the values popped from channel `idx`
along an execution are entries of the append stream at strictly increasing
positions, none before the cursor the execution started from. -/
theorem run_popped_increasing {idx : Nat} (cs : List (Call T)) :
    ∀ {hist : List T} {mq mq1 : MessqgeQueue T} {v : View} {rs : List (Ret T)},
      Tracks idx hist mq v →
      (∀ cl ∈ cs, cl.limit_in_range idx = true) → mq.run cs = Except.ok (rs, mq1) →
      ∃ is : List Nat, is.Pairwise (fun a b => a < b) ∧ (∀ i ∈ is, v.cursor ≤ i) ∧
        (popped idx cs rs).map some = is.map fun i => (hist ++ pushed cs)[i]? := by
  induction cs with
  | nil =>
    intro hist mq mq1 v rs _ _ _
    exact ⟨[], List.Pairwise.nil, by simp, by simp [popped]⟩
  | cons cl cs ih =>
    intro hist mq mq1 v rs h hlim hrun
    obtain ⟨r, mq2, rs1, g1, g2, g3⟩ := run_cons hrun
    subst g3
    have happ : hist ++ pushed (cl :: cs) = (hist ++ cl.pushed) ++ pushed cs := by
      simp only [pushed, List.append_assoc]
    rw [happ]
    obtain ⟨h1, hobs⟩ := call_tracks h (hlim cl (List.mem_cons_self _ _)) g1
    obtain ⟨is1, p1, p2, p3⟩ := ih h1 (fun c hc => hlim c (List.mem_cons_of_mem _ hc)) g2
    have hmono := View.cursor_le_after idx hist.length v cl
    simp only [popped]
    by_cases hpop : cl = Call.pop idx
    · subst hpop
      simp only [Observed] at hobs
      obtain ⟨hlt, x, hx, hhx⟩ := hobs trivial
      subst hx
      simp only [View.after, if_true] at p2 hmono
      simp only [Call.pushed, List.append_nil] at p3 ⊢
      refine ⟨(v.fit hist.length).cursor :: is1, ?_, ?_, ?_⟩
      · rw [List.pairwise_cons]
        exact ⟨fun i hi => by have := p2 i hi; omega, p1⟩
      · intro i hi
        rcases List.mem_cons.mp hi with e | e
        · rw [e]; exact View.le_fit_cursor _ _
        · have := p2 i e; omega
      · simp only [Call.popped, if_true, List.singleton_append, List.map_cons, p3]
        rw [List.getElem?_append_left hlt, hhx]
    · have hnone : cl.popped idx r = [] := by
        cases cl with
        | pop j =>
          have hj : j ≠ idx := fun h => hpop (by rw [h])
          cases r <;> simp [Call.popped, hj]
        | _ => simp [Call.popped]
      rw [hnone, List.nil_append]
      exact ⟨is1, p1, fun i hi => by have := p2 i hi; omega, p3⟩

/-- No drop within the window, for limits below `2^63`: when the limit is 0 or the
unread entries are at most the limit, `size()` returns the number of unread entries
and leaves the view of the channel unchanged. -/
theorem size_drops_nothing {idx : Nat} {hist : List T} {mq : MessqgeQueue T} {v : View}
    (h : Tracks idx hist mq v) (hw : v.limit = 0 ∨ hist.length - v.cursor ≤ v.limit) :
    ∃ mq1, mq.call (Call.size idx) = Except.ok (Ret.num (hist.length - v.cursor), mq1) ∧
      Tracks idx hist mq1 v := by
  obtain ⟨mq1, e1, h1⟩ := size_tracks h
  have hfit : v.fit hist.length = v := View.fit_of_not _ _ (by omega)
  rw [hfit] at e1 h1
  exact ⟨mq1, e1, h1⟩

theorem output_channels_size_loop_result (n : Nat) :
    ∀ (mq mq1 : MessqgeQueue T) (i : Nat) (res res1 : List Nat),
      mq.output_channels_size_loop n i res = Except.ok (res1, mq1) →
      i + n ≤ res.length →
      res1.length = res.length ∧
      (∀ k, (k < i ∨ i + n ≤ k) → res1[k]? = res[k]?) ∧
      ∀ k c, mq.output_channels_[k]? = some c → i ≤ k → k < i + n →
        ∃ s c1, c.size mq = Except.ok (s, c1) ∧ res1[k]? = some s := by
  induction n with
  | zero =>
    intro mq mq1 i res res1 h _
    simp only [MessqgeQueue.output_channels_size_loop, Except.ok.injEq, Prod.mk.injEq] at h
    obtain ⟨h1, _⟩ := h
    subst h1
    refine ⟨rfl, fun k _ => rfl, fun k c _ h1 h2 => ?_⟩
    omega
  | succ n ih =>
    intro mq mq1 i res res1 h hlen
    rw [MessqgeQueue.output_channels_size_loop] at h
    cases ho : (mq.output_channel i).1 with
    | error e => rw [ho] at h; simp at h
    | ok r =>
      rw [ho] at h
      simp only at h
      obtain ⟨hr, hlt⟩ := output_channel_ok mq i r ho
      cases hs : mq.channel_size r with
      | error e => rw [hs] at h; simp at h
      | ok p =>
        obtain ⟨s, mq2⟩ := p
        rw [hs] at h
        simp only at h
        obtain ⟨d2, e2, c0, c2, g0, g1, g2⟩ := channel_size_frame mq mq2 r s hs
        obtain ⟨l1, hk0, hk1⟩ := ih mq2 mq1 (i + 1) _ res1 h
          (by rw [List.length_set]; omega)
        rw [hr] at g0 g2
        rw [List.length_set] at l1
        have hsize : ∀ c : OutputChannel, c.size mq2 = c.size mq :=
          fun c => size_congr mq2 mq d2 e2 c
        refine ⟨l1, ?_, ?_⟩
        · intro k hk
          rw [hk0 k (by omega), List.getElem?_set_ne (by omega)]
        · intro k c hk h1 h2
          by_cases hki : k = i
          · subst hki
            have hc0 : c = c0 := by rw [g0] at hk; exact (Option.some.inj hk).symm
            subst hc0
            refine ⟨s, c2, g1, ?_⟩
            rw [hk0 k (by omega), List.getElem?_set_self (by omega)]
          · have : mq2.output_channels_[k]? = some c := by
              rw [g2, List.getElem?_set_ne (by omega)]; exact hk
            obtain ⟨s1, c1, q1, q2⟩ := hk1 k c this (by omega) (by omega)
            rw [hsize] at q1
            exact ⟨s1, c1, q1, q2⟩

theorem output_channels_size_result {mq mq1 : MessqgeQueue T} {l : List Nat}
    (h : mq.output_channels_size = Except.ok (l, mq1)) :
    l.length = mq.output_channels_.length ∧
    ∀ (k : Nat) (c : OutputChannel), mq.output_channels_[k]? = some c →
      ∃ s c1, c.size mq = Except.ok (s, c1) ∧ l[k]? = some s := by
  unfold MessqgeQueue.output_channels_size at h
  obtain ⟨h1, _, h3⟩ := output_channels_size_loop_result _ mq mq1 0 _ l h (by simp)
  refine ⟨by simpa using h1, fun k c hk => ?_⟩
  have hlt : k < mq.output_channels_.length := by
    by_contra hcon
    rw [List.getElem?_eq_none (by omega)] at hk
    simp at hk
  exact h3 k c hk (by omega) (by omega)

theorem call_seen {idx : Nat} {hist : List T} {mq mq1 : MessqgeQueue T} {v : View}
    {cl : Call T} {r : Ret T} (h : Tracks idx hist mq v)
    (hlim : cl.limit_in_range idx = true) (hcall : mq.call cl = Except.ok (r, mq1)) :
    cl.seen idx r = cl.expect idx hist v := by
  have hobs := (call_tracks h hlim hcall).2
  cases cl with
  | push o => cases r <;> rfl
  | size j =>
    simp only [Call.seen, Call.expect]
    by_cases hj : j = idx
    · simp only [Observed] at hobs
      rw [if_pos hj, if_pos hj, hobs hj]
    · rw [if_neg hj, if_neg hj]
  | pop j =>
    simp only [Call.seen, Call.expect]
    by_cases hj : j = idx
    · simp only [Observed] at hobs
      obtain ⟨_, x, hx, hget⟩ := hobs hj
      rw [if_pos hj, if_pos hj, hx, hget]
      rfl
    · rw [if_neg hj, if_neg hj]
  | max_size j =>
    simp only [Call.seen, Call.expect]
    by_cases hj : j = idx
    · simp only [Observed] at hobs
      rw [if_pos hj, if_pos hj, hobs hj]
    · rw [if_neg hj, if_neg hj]
  | set_max_size j m => cases r <;> rfl
  | output_channels_size =>
    simp only [MessqgeQueue.call] at hcall
    cases hs : mq.output_channels_size with
    | error e => rw [hs] at hcall; simp at hcall
    | ok p =>
      obtain ⟨l, mq2⟩ := p
      rw [hs] at hcall
      simp only [Except.ok.injEq, Prod.mk.injEq] at hcall
      obtain ⟨hr1, _⟩ := hcall
      subst hr1
      obtain ⟨c, hget, hc, hv⟩ := h.chan
      obtain ⟨_, hk⟩ := output_channels_size_result hs
      obtain ⟨s, c1, g1, g2⟩ := hk idx c hget
      obtain ⟨_, _, q3⟩ := size_refines h.log_ok hc h.bound g1
      simp only [Call.seen, Call.expect]
      rw [g2, q3, hv]
      rfl

theorem seen_eq_expected {idx : Nat} (cs : List (Call T)) :
    ∀ {hist : List T} {mq mq1 : MessqgeQueue T} {v : View} {rs : List (Ret T)},
      Tracks idx hist mq v →
      (∀ cl ∈ cs, cl.limit_in_range idx = true) → mq.run cs = Except.ok (rs, mq1) →
      seen idx cs rs = expected idx hist v cs := by
  induction cs with
  | nil =>
    intro hist mq mq1 v rs _ _ hrun
    simp only [MessqgeQueue.run, Except.ok.injEq, Prod.mk.injEq] at hrun
    obtain ⟨h1, _⟩ := hrun
    subst h1
    rfl
  | cons cl cs ih =>
    intro hist mq mq1 v rs ht hlim hrun
    obtain ⟨r, mq2, rs1, hcall, hrest, hrs⟩ := run_cons hrun
    subst hrs
    have hl := hlim cl (List.mem_cons_self _ _)
    have ht2 := (call_tracks ht hl hcall).1
    simp only [seen, expected]
    rw [call_seen ht hl hcall, ih ht2 (fun c hc => hlim c (List.mem_cons_of_mem _ hc)) hrest]

theorem expected_filter (idx : Nat) (cs : List (Call T)) :
    ∀ (hist : List T) (v : View),
      expected idx hist v (cs.filter (Call.concerns idx)) = expected idx hist v cs := by
  induction cs with
  | nil => intro hist v; rfl
  | cons cl cs ih =>
    intro hist v
    by_cases hc : cl.concerns idx = true
    · rw [List.filter_cons_of_pos hc]
      simp only [expected]
      rw [ih]
    · rw [List.filter_cons_of_neg hc]
      have h1 : cl.expect idx hist v = [] := by
        cases cl <;> simp_all [Call.concerns, Call.expect]
      have h2 : cl.pushed = [] := by
        cases cl <;> simp_all [Call.concerns, Call.pushed]
      have h3 : v.after idx hist.length cl = v := by
        cases cl <;> simp_all [Call.concerns, View.after]
      simp only [expected]
      rw [h1, h2, h3, List.append_nil, List.nil_append, ih]

theorem limit_in_range_of_filter {idx : Nat} {cs1 cs2 : List (Call T)}
    (hsame : cs1.filter (Call.concerns idx) = cs2.filter (Call.concerns idx))
    (hlim : ∀ cl ∈ cs1, cl.limit_in_range idx = true) :
    ∀ cl ∈ cs2, cl.limit_in_range idx = true := by
  intro cl hcl
  by_cases hc : cl.concerns idx = true
  · have : cl ∈ cs2.filter (Call.concerns idx) := List.mem_filter.mpr ⟨hcl, hc⟩
    rw [← hsame] at this
    exact hlim cl (List.mem_filter.mp this).1
  · cases cl <;> simp_all [Call.concerns, Call.limit_in_range]

theorem independent_in_range {count idx : Nat} {cs1 cs2 : List (Call T)}
    {rs1 rs2 : List (Ret T)} {mq1 mq2 : MessqgeQueue T}
    (h1 : execute count cs1 = Except.ok (rs1, mq1))
    (h2 : execute count cs2 = Except.ok (rs2, mq2)) (hidx : idx < count)
    (hlim : ∀ cl ∈ cs1, cl.limit_in_range idx = true)
    (hsame : cs1.filter (Call.concerns idx) = cs2.filter (Call.concerns idx)) :
    seen idx cs1 rs1 = seen idx cs2 rs2 := by
  obtain ⟨_, r1⟩ := execute_ok h1
  obtain ⟨_, r2⟩ := execute_ok h2
  have ht := tracks_fresh (T := T) count idx hidx
  rw [seen_eq_expected cs1 ht hlim r1,
    seen_eq_expected cs2 ht (limit_in_range_of_filter hsame hlim) r2,
    ← expected_filter idx cs1, ← expected_filter idx cs2, hsame]

theorem ChanOK.max_size_eq {mq : MessqgeQueue T} {c : OutputChannel} (hc : ChanOK mq c) :
    (c.max_size : Int) = c.max_size_ := by
  have h0 := hc.limit_nonneg
  have h1 := hc.limit_lt
  unfold OutputChannel.max_size size_type_of; omega

theorem ChanOK.diff_eq {mq : MessqgeQueue T} {c : OutputChannel} (hc : ChanOK mq c)
    (hl : mq.data_.length < 9223372036854775808) :
    c.diff mq = (mq.data_.length : Int) - c.iterator_index_ - c.max_size_ := by
  have hraw := raw_size_eq mq c hc.index_nonneg hc.index_le hl
  have hmax := hc.max_size_eq
  have h0 := hc.limit_nonneg
  have h1 := hc.limit_lt
  have h2 := hc.index_nonneg
  have h3 := hc.index_le
  unfold OutputChannel.diff
  rw [intmax_of_spec, hraw, hmax]; omega

theorem fit_window_advance {mq : MessqgeQueue T} {c c1 : OutputChannel}
    (h : c.fit_window mq = Except.ok c1) (hm : 0 < c.max_size) (hd : 0 < c.diff mq) :
    mq.iter_advance (c.diff mq).toNat c.iterator_ = Except.ok c1.iterator_ ∧
    c1.iterator_index_ = intmax_of (c.iterator_index_ + c.diff mq) ∧
    c1.iterator_stagnated_ = c.iterator_stagnated_ ∧ c1.max_size_ = c.max_size_ := by
  unfold OutputChannel.fit_window at h
  rw [if_neg (by omega), if_pos hd] at h
  cases ha : mq.iter_advance (c.diff mq).toNat c.iterator_ with
  | error e => rw [ha] at h; simp at h
  | ok it =>
    rw [ha] at h
    simp only [Except.ok.injEq] at h
    subst h
    exact ⟨rfl, rfl, rfl, rfl⟩

theorem size_clamp_ok (mq : MessqgeQueue T) (c : OutputChannel) (hc : ChanOK mq c)
    (hl : mq.data_.length < 9223372036854775808) (hw : 1 ≤ c.max_size_)
    (hb : c.max_size_ < (mq.data_.length : Int) - c.iterator_index_) :
    ∃ c1, c.size mq = Except.ok (c.max_size, c1) ∧ ChanOK mq c1 ∧ c1.max_size_ = c.max_size_ ∧
      c1.iterator_index_ =
        c.iterator_index_ + ((mq.data_.length : Int) - c.iterator_index_ - c.max_size_) ∧
      mq.iter_advance ((mq.data_.length : Int) - c.iterator_index_ - c.max_size_).toNat
        (if c.iterator_ = ListIter.past_the_end then mq.list_begin else c.iterator_) =
          Except.ok c1.iterator_ := by
  obtain ⟨c1, h1, h2, h3, _, h5⟩ := fit_max_size_ok mq c hc hl
  have hmax := hc.max_size_eq
  have hdiff := hc.diff_eq hl
  have hi0 := hc.index_nonneg
  have hidx : c1.iterator_index_ = (mq.data_.length : Int) - c.max_size_ := by
    rw [h5]; unfold fit_index; rw [if_pos (by omega)]
  have hraw := raw_size_eq mq c1 h2.index_nonneg h2.index_le hl
  have hs : c1.raw_size mq = c.max_size := by
    have : (c1.raw_size mq : Int) = (c.max_size : Int) := by rw [hraw, hmax, hidx]; omega
    exact_mod_cast this
  have hm : 0 < c.max_size := by omega
  refine ⟨c1, ?_, h2, h3, by rw [hidx]; omega, ?_⟩
  · unfold OutputChannel.size
    rw [h1]
    simp only
    rw [hs]
  · unfold OutputChannel.fit_max_size at h1
    by_cases he : c.iterator_ = ListIter.past_the_end
    · have he1 : c.iterator_ = mq.list_end := he
      have hd : mq.data_ ≠ [] := by
        intro hnil
        rw [hnil] at hb
        simp only [List.length_nil] at hb
        omega
      have hne : ¬ mq.list_begin = mq.list_end := by
        rw [list_begin_cons mq hd]; simp [MessqgeQueue.list_end]
      rw [if_pos he1, if_neg hne] at h1
      obtain ⟨g1, _⟩ := fit_window_advance h1 hm (by
        show 0 < c.diff mq
        omega)
      rw [if_pos he, ← hdiff]
      exact g1
    · have he1 : ¬ c.iterator_ = mq.list_end := he
      rw [if_neg he1] at h1
      obtain ⟨g1, _⟩ := fit_window_advance h1 hm (by omega)
      rw [if_neg he, ← hdiff]
      exact g1

theorem getElem?_lt {α : Type} {l : List α} {k : Nat} {a : α} (h : l[k]? = some a) :
    k < l.length := by
  by_contra hcon
  rw [List.getElem?_eq_none (by omega)] at h
  simp at h

theorem call_size_of {mq : MessqgeQueue T} {idx : Nat} {c c1 : OutputChannel} {s : Nat}
    (hget : mq.output_channels_[idx]? = some c) (hs : c.size mq = Except.ok (s, c1)) :
    mq.call (Call.size idx) =
      Except.ok (Ret.num s, { mq with output_channels_ := mq.output_channels_.set idx c1 }) := by
  simp only [MessqgeQueue.call, output_channel_of_lt _ _ (getElem?_lt hget),
    MessqgeQueue.channel_size, hget, hs]

theorem size_clamps {idx : Nat} {hist : List T} {mq : MessqgeQueue T} {v : View}
    (h : Tracks idx hist mq v) (hw : 1 ≤ v.limit) (hb : v.limit + v.cursor < hist.length) :
    ∃ mq1 c c1, mq.call (Call.size idx) = Except.ok (Ret.num v.limit, mq1) ∧
      Tracks idx hist mq1 { v with cursor := v.cursor + (hist.length - v.cursor - v.limit) } ∧
      mq1.data_ = mq.data_ ∧ mq1.erased_ = mq.erased_ ∧
      (∀ j, j ≠ idx → mq1.output_channels_[j]? = mq.output_channels_[j]?) ∧
      mq.output_channels_[idx]? = some c ∧ mq1.output_channels_[idx]? = some c1 ∧
      c1.iterator_index_ = c.iterator_index_ + ((hist.length - v.cursor - v.limit : Nat) : Int) ∧
      mq.iter_advance (hist.length - v.cursor - v.limit)
        (if c.iterator_ = ListIter.past_the_end then mq.list_begin else c.iterator_) =
          Except.ok c1.iterator_ := by
  obtain ⟨c, hget, hc, hv⟩ := h.chan
  have hlen := h.log_ok.length_eq
  have hmax := hc.max_size_eq
  have hi0 := hc.index_nonneg
  have hvl : v.limit = c.max_size := by rw [← hv]; rfl
  have hvc : v.cursor = mq.erased_ + c.iterator_index_.toNat := by rw [← hv]; rfl
  obtain ⟨c1, g1, _, _, g4, g5⟩ := size_clamp_ok mq c hc h.bound (by omega) (by omega)
  have hcall := call_size_of hget g1
  obtain ⟨mq1, k1, k2⟩ := size_tracks h
  have hfit : v.fit hist.length =
      { v with cursor := v.cursor + (hist.length - v.cursor - v.limit) } := by
    unfold View.fit
    rw [if_pos ⟨by omega, hb⟩]
    simp only [View.mk.injEq, true_and]
    omega
  rw [hcall] at k1
  simp only [Except.ok.injEq, Prod.mk.injEq] at k1
  obtain ⟨_, k1⟩ := k1
  subst k1
  rw [hfit] at k2
  have hexc : ((mq.data_.length : Int) - c.iterator_index_ - c.max_size_).toNat =
      hist.length - v.cursor - v.limit := by omega
  refine ⟨_, c, c1, by rw [hcall, hvl], k2, rfl, rfl, ?_, hget,
    List.getElem?_set_self (getElem?_lt hget), ?_, ?_⟩
  · intro j hj
    exact List.getElem?_set_ne (Ne.symm hj)
  · rw [g4]; omega
  · rw [← hexc]; exact g5

theorem size_le_limit {idx : Nat} {hist : List T} {mq : MessqgeQueue T} {v : View}
    (h : Tracks idx hist mq v) (hw : 1 ≤ v.limit) :
    ∃ s mq1, mq.call (Call.size idx) = Except.ok (Ret.num s, mq1) ∧ s ≤ v.limit := by
  obtain ⟨mq1, k1, _⟩ := size_tracks h
  refine ⟨_, mq1, k1, ?_⟩
  rw [View.fit_cursor]
  split <;> omega

theorem int_min?_eq_some_iff {xs : List Int} {a : Int} :
    xs.min? = some a ↔ a ∈ xs ∧ ∀ b, b ∈ xs → a ≤ b :=
  @List.min?_eq_some_iff Int a _ _ ⟨fun h1 h2 => Int.le_antisymm h1 h2⟩
    (fun a => Int.le_refl a) (fun a b => by omega) (fun a b c => by omega) xs

theorem foldl_minidx_attained (l : List OutputChannel) :
    ∀ init : Nat,
      l.foldl (fun minidx c =>
        if minidx < size_type_of c.iterator_index_ then minidx
        else size_type_of c.iterator_index_) init = init ∨
      ∃ c ∈ l, l.foldl (fun minidx c =>
        if minidx < size_type_of c.iterator_index_ then minidx
        else size_type_of c.iterator_index_) init = size_type_of c.iterator_index_ := by
  induction l with
  | nil => intro init; left; rfl
  | cons c l ih =>
    intro init
    simp only [List.foldl_cons]
    rcases ih (if init < size_type_of c.iterator_index_ then init
      else size_type_of c.iterator_index_) with h | ⟨c1, hc1, h⟩
    · rw [h]
      by_cases hlt : init < size_type_of c.iterator_index_
      · left; rw [if_pos hlt]
      · right; exact ⟨c, List.mem_cons_self _ _, by rw [if_neg hlt]⟩
    · right; exact ⟨c1, List.mem_cons_of_mem _ hc1, h⟩

theorem scan_minidx_attained (mq : MessqgeQueue T) :
    mq.scan_minidx = mq.data_.length ∨
    ∃ c ∈ mq.output_channels_, mq.scan_minidx = size_type_of c.iterator_index_ :=
  foldl_minidx_attained mq.output_channels_ mq.data_.length

theorem clean_front_data_of_le (mq : MessqgeQueue T) (h : mq.scan_minidx ≤ 1) :
    mq.clean_front_data = mq := by
  unfold MessqgeQueue.clean_front_data
  rw [if_pos h]

theorem clean_front_data_of_lt (mq : MessqgeQueue T) (h : 1 < mq.scan_minidx) :
    mq.clean_front_data =
      { data_ := mq.data_.drop (mq.scan_minidx - 1)
        erased_ := mq.erased_ + (mq.scan_minidx - 1)
        output_channels_ :=
          mq.output_channels_.map
            (fun c =>
              { c with iterator_index_ :=
                  intmax_of (c.iterator_index_ - intmax_of ((mq.scan_minidx - 1 : Nat) : Int)) }) } := by
  unfold MessqgeQueue.clean_front_data
  rw [if_neg (by omega)]

theorem min_cursor_eq_scan (mq : MessqgeQueue T)
    (hall : ∀ c ∈ mq.output_channels_,
      0 ≤ c.iterator_index_ ∧ c.iterator_index_ < 9223372036854775808)
    (hsome : ∃ c ∈ mq.output_channels_, c.iterator_index_ ≤ (mq.data_.length : Int)) :
    mq.min_cursor = some (mq.scan_minidx : Int) := by
  have hst : ∀ c ∈ mq.output_channels_,
      (size_type_of c.iterator_index_ : Int) = c.iterator_index_ := by
    intro c hc
    obtain ⟨h0, h1⟩ := hall c hc
    exact size_type_of_eq h0 (by omega)
  have hatt : ∃ c ∈ mq.output_channels_, (mq.scan_minidx : Int) = c.iterator_index_ := by
    rcases scan_minidx_attained mq with h | ⟨c, hc, h⟩
    · obtain ⟨c, hc, hle⟩ := hsome
      have h1 := scan_minidx_le_mem mq c hc
      have h2 := hst c hc
      exact ⟨c, hc, by omega⟩
    · exact ⟨c, hc, by rw [h, hst c hc]⟩
  obtain ⟨c, hc, he⟩ := hatt
  unfold MessqgeQueue.min_cursor
  rw [int_min?_eq_some_iff]
  constructor
  · exact List.mem_map.mpr ⟨c, hc, he.symm⟩
  · intro b hb
    obtain ⟨c1, hc1, hb1⟩ := List.mem_map.mp hb
    have h1 := scan_minidx_le_mem mq c1 hc1
    have h2 := hst c1 hc1
    omega

theorem clean_front_data_eq_reclaim_spec (mq : MessqgeQueue T)
    (hall : ∀ c ∈ mq.output_channels_,
      0 ≤ c.iterator_index_ ∧ c.iterator_index_ < 9223372036854775808)
    (hsome : ∃ c ∈ mq.output_channels_, c.iterator_index_ ≤ (mq.data_.length : Int)) :
    mq.clean_front_data = mq.reclaim_spec := by
  have hmin := min_cursor_eq_scan mq hall hsome
  unfold MessqgeQueue.reclaim_spec
  rw [hmin]
  simp only
  by_cases h : mq.scan_minidx ≤ 1
  · rw [clean_front_data_of_le mq h, if_pos (by omega)]
  · rw [clean_front_data_of_lt mq (by omega), if_neg (by omega)]
    have hn : ((mq.scan_minidx : Int) - 1).toNat = mq.scan_minidx - 1 := by omega
    rw [hn]
    congr 1
    apply List.map_congr_left
    intro c hc
    obtain ⟨h0, h1⟩ := hall c hc
    have h2 := scan_minidx_le_mem mq c hc
    have h3 : (size_type_of c.iterator_index_ : Int) = c.iterator_index_ :=
      size_type_of_eq h0 (by omega)
    have h4 : intmax_of ((mq.scan_minidx - 1 : Nat) : Int) = ((mq.scan_minidx - 1 : Nat) : Int) :=
      intmax_of_eq (by omega) (by omega)
    have h5 : intmax_of (c.iterator_index_ - ((mq.scan_minidx - 1 : Nat) : Int)) =
        c.iterator_index_ - ((mq.scan_minidx - 1 : Nat) : Int) :=
      intmax_of_eq (by omega) (by omega)
    rw [h4, h5]
    have h6 : ((mq.scan_minidx - 1 : Nat) : Int) = (mq.scan_minidx : Int) - 1 := by omega
    rw [h6]

theorem reachable_chan_ok {count idx : Nat} {cs : List (Call T)} {rs : List (Ret T)}
    {mq : MessqgeQueue T} (hex : execute count cs = Except.ok (rs, mq)) (hidx : idx < count)
    (hlim : ∀ cl ∈ cs, cl.limit_in_range idx = true) :
    mq.data_.length < 9223372036854775808 ∧
    ∃ c, mq.output_channels_[idx]? = some c ∧ ChanOK mq c := by
  have ht := execute_tracks hex hidx hlim
  obtain ⟨c, hget, hc, _⟩ := ht.chan
  exact ⟨ht.bound, c, hget, hc⟩

theorem push_keeps_referenced (mq : MessqgeQueue T) (o : T) (idx : Nat) (c : OutputChannel)
    (hget : mq.output_channels_[idx]? = some c) (hc : ChanOK mq c)
    (hl : mq.data_.length + 1 < 9223372036854775808) :
    (∀ a, c.iterator_ = ListIter.node a →
      (a : Int) = (mq.erased_ : Int) + c.iterator_index_ -
        (if c.iterator_stagnated_ = true then 1 else 0) ∧
      mq.erased_ ≤ a ∧ a < mq.erased_ + mq.data_.length ∧
      (mq.push o).erased_ ≤ a ∧
      (mq.push o).data_.drop (a - (mq.push o).erased_) =
        (mq.data_ ++ [o]).drop (a - mq.erased_)) ∧
    (c.iterator_ = ListIter.past_the_end →
      c.iterator_index_ = 0 ∧ mq.reclaimed o = 0 ∧ (mq.push o).data_ = mq.data_ ++ [o]) := by
  obtain ⟨c1, _, hc1, _, hit, hst, hix⟩ := push_chan_ok mq o idx c hget hc hl
  obtain ⟨hd, he, hr, _⟩ := push_data mq o
  have hlen : (mq.push o).data_.length = mq.data_.length + 1 - mq.reclaimed o := by
    rw [hd]; simp
  have hi0 := hc.index_nonneg
  have hi1 := hc.index_le
  have hj0 := hc1.index_nonneg
  have hj1 := hc1.index_le
  constructor
  · intro a ha
    have h0 := hc.iter_ok
    have h1 := hc1.iter_ok
    unfold IterOK at h0 h1
    rw [hit, ha] at h1
    rw [ha] at h0
    simp only at h0 h1
    rw [hst] at h1
    have hge : (mq.push o).erased_ ≤ a := by
      rcases h1 with ⟨_, h2, h3⟩ | ⟨_, h2, h3⟩ <;> omega
    refine ⟨?_, ?_, ?_, hge, ?_⟩
    · rcases h0 with ⟨hs, h2, h3⟩ | ⟨hs, h2, h3⟩
      · rw [if_pos hs]; omega
      · rw [hs]; simp only [Bool.false_eq_true, if_false]; omega
    · rcases h0 with ⟨_, h2, h3⟩ | ⟨_, h2, h3⟩ <;> omega
    · rcases h0 with ⟨_, h2, h3⟩ | ⟨_, h2, h3⟩ <;> omega
    · rw [hd, List.drop_drop]
      congr 1
      omega
  · intro ha
    have h0 := hc.iter_ok
    unfold IterOK at h0
    rw [ha] at h0
    simp only at h0
    have hr0 : mq.reclaimed o = 0 := by omega
    refine ⟨h0, hr0, ?_⟩
    rw [hd, hr0, List.drop_zero]

theorem size_idempotent_ok (mq : MessqgeQueue T) (c : OutputChannel) (hc : ChanOK mq c)
    (hl : mq.data_.length < 9223372036854775808) {s : Nat} {c1 : OutputChannel}
    (h : c.size mq = Except.ok (s, c1)) : c1.size mq = Except.ok (s, c1) := by
  obtain ⟨c2, g1, g2, g3, g4, g5, _⟩ := size_ok mq c hc hl
  rw [h] at g1
  simp only [Except.ok.injEq, Prod.mk.injEq] at g1
  obtain ⟨hs, hcc⟩ := g1
  subst hcc
  have hfit : c1.fit_max_size mq = Except.ok c1 := by
    unfold OutputChannel.fit_max_size
    by_cases he : c1.iterator_ = mq.list_end
    · rw [if_pos he]
      have hd : mq.data_ = [] := by
        by_contra hne
        exact g4 hne he
      have hb : mq.list_begin = mq.list_end := by
        rw [list_begin_nil mq hd]; rfl
      rw [if_pos hb, hb, ← he]
    · rw [if_neg he]
      unfold OutputChannel.fit_window
      by_cases hz : c1.max_size ≤ 0
      · rw [if_pos hz]
      · rw [if_neg hz]
        have hdiff := g2.diff_eq hl
        have hmax := g2.max_size_eq
        have hnot : ¬ 0 < c1.diff mq := by
          rw [hdiff, g5, g3]
          unfold fit_index
          rw [g3] at hmax
          split <;> omega
        rw [if_neg hnot]
  unfold OutputChannel.size
  rw [hfit, hs]

theorem size_twice {idx : Nat} {hist : List T} {mq mq1 : MessqgeQueue T} {v : View}
    {r : Ret T} (h : Tracks idx hist mq v)
    (hcall : mq.call (Call.size idx) = Except.ok (r, mq1)) :
    mq1.call (Call.size idx) = Except.ok (r, mq1) := by
  obtain ⟨c, hget, hc, _⟩ := h.chan
  obtain ⟨c1, g1, _⟩ := size_ok mq c hc h.bound
  have hlt := getElem?_lt hget
  rw [call_size_of hget g1] at hcall
  simp only [Except.ok.injEq, Prod.mk.injEq] at hcall
  obtain ⟨hr, hm⟩ := hcall
  subst hr hm
  have g2 := size_idempotent_ok mq c hc h.bound g1
  have hget1 : (mq.output_channels_.set idx c1)[idx]? = some c1 := List.getElem?_set_self hlt
  have g3 : c1.size ({ mq with output_channels_ := mq.output_channels_.set idx c1 }) =
      Except.ok (c1.raw_size mq, c1) := by
    have := size_congr { mq with output_channels_ := mq.output_channels_.set idx c1 } mq rfl rfl c1
    rw [this]; exact g2
  have hcs : MessqgeQueue.call
      ({ mq with output_channels_ := mq.output_channels_.set idx c1 } : MessqgeQueue T)
      (Call.size idx) =
      Except.ok (Ret.num (c1.raw_size mq),
        { mq with output_channels_ := (mq.output_channels_.set idx c1).set idx c1 }) :=
    call_size_of hget1 g3
  rw [hcs]
  simp only [List.set_set]

theorem iter_next_ok {mq : MessqgeQueue T} {it nx : ListIter}
    (h : mq.iter_next it = Except.ok nx) :
    ∃ a, it = ListIter.node a ∧ mq.erased_ ≤ a ∧ a < mq.erased_ + mq.data_.length ∧
      nx = (if a + 1 < mq.erased_ + mq.data_.length then ListIter.node (a + 1)
        else ListIter.past_the_end) := by
  cases it with
  | past_the_end => simp [MessqgeQueue.iter_next] at h
  | node a =>
    simp only [MessqgeQueue.iter_next] at h
    by_cases hin : mq.erased_ ≤ a ∧ a < mq.erased_ + mq.data_.length
    · rw [if_pos hin] at h
      refine ⟨a, rfl, hin.1, hin.2, ?_⟩
      by_cases hlt : a + 1 < mq.erased_ + mq.data_.length
      · rw [if_pos hlt] at h
        rw [if_pos hlt]
        exact (Except.ok.inj h).symm
      · rw [if_neg hlt] at h
        rw [if_neg hlt]
        exact (Except.ok.inj h).symm
    · rw [if_neg hin] at h
      simp at h

theorem iter_deref_ok {mq : MessqgeQueue T} {it : ListIter} {x : T}
    (h : mq.iter_deref it = Except.ok x) :
    ∃ a, it = ListIter.node a ∧ mq.erased_ ≤ a ∧ mq.data_[a - mq.erased_]? = some x := by
  cases it with
  | past_the_end => simp [MessqgeQueue.iter_deref] at h
  | node a =>
    simp only [MessqgeQueue.iter_deref] at h
    by_cases hin : mq.erased_ ≤ a
    · rw [if_pos hin] at h
      cases hg : mq.data_[a - mq.erased_]? with
      | none => rw [hg] at h; simp at h
      | some v =>
        rw [hg] at h
        simp only [Except.ok.injEq] at h
        subst h
        exact ⟨a, rfl, hin, hg⟩
    · rw [if_neg hin] at h
      simp at h

theorem pop_tail_spec (mq : MessqgeQueue T) (c : OutputChannel) {c2 : OutputChannel} {x : T}
    (h : (match mq.iter_next c.iterator_ with
      | Except.error e => Except.error e
      | Except.ok nx =>
        match mq.iter_deref c.iterator_ with
        | Except.error e => Except.error e
        | Except.ok v =>
          if nx = mq.list_end then Except.ok (v, { c with iterator_stagnated_ := true })
          else Except.ok (v, { c with iterator_ := nx })) = Except.ok (x, c2)) :
    ∃ a, c.iterator_ = ListIter.node a ∧ mq.erased_ ≤ a ∧ a < mq.erased_ + mq.data_.length ∧
      mq.data_[a - mq.erased_]? = some x ∧
      (a + 1 = mq.erased_ + mq.data_.length →
        c2 = { c with iterator_stagnated_ := true }) ∧
      (a + 1 ≠ mq.erased_ + mq.data_.length →
        c2 = { c with iterator_ := ListIter.node (a + 1) }) := by
  cases hn : mq.iter_next c.iterator_ with
  | error e => rw [hn] at h; simp at h
  | ok nx =>
    rw [hn] at h
    simp only at h
    cases hd : mq.iter_deref c.iterator_ with
    | error e => rw [hd] at h; simp at h
    | ok v =>
      rw [hd] at h
      simp only at h
      obtain ⟨a, ha, h0, h1, hnx⟩ := iter_next_ok hn
      obtain ⟨a1, ha1, _, hv⟩ := iter_deref_ok hd
      rw [ha] at ha1
      have haa : a1 = a := (ListIter.node.inj ha1).symm
      subst haa
      refine ⟨a1, ha, h0, h1, ?_, ?_, ?_⟩
      · by_cases he : nx = mq.list_end
        · rw [if_pos he] at h
          simp only [Except.ok.injEq, Prod.mk.injEq] at h
          rw [hv, h.1]
        · rw [if_neg he] at h
          simp only [Except.ok.injEq, Prod.mk.injEq] at h
          rw [hv, h.1]
      · intro hl
        rw [if_neg (by omega)] at hnx
        have he : nx = mq.list_end := hnx
        rw [if_pos he] at h
        simp only [Except.ok.injEq, Prod.mk.injEq] at h
        exact h.2.symm
      · intro hl
        rw [if_pos (by omega)] at hnx
        have he : ¬ nx = mq.list_end := by rw [hnx]; simp [MessqgeQueue.list_end]
        rw [if_neg he] at h
        simp only [Except.ok.injEq, Prod.mk.injEq] at h
        rw [← h.2, hnx]

theorem pop_body_spec {mq : MessqgeQueue T} {c c2 : OutputChannel} {x : T}
    (h : c.pop_body mq = Except.ok (x, c2)) :
    ∃ a, mq.erased_ ≤ a ∧ a < mq.erased_ + mq.data_.length ∧
      mq.data_[a - mq.erased_]? = some x ∧
      (c.iterator_stagnated_ = true →
        ∃ b, c.iterator_ = ListIter.node b ∧ mq.erased_ ≤ b ∧ a = b + 1) ∧
      (c.iterator_stagnated_ = false → c.iterator_ = ListIter.node a) ∧
      (a + 1 = mq.erased_ + mq.data_.length →
        c2.iterator_stagnated_ = true ∧ c2.iterator_ = ListIter.node a) ∧
      (a + 1 ≠ mq.erased_ + mq.data_.length →
        c2.iterator_stagnated_ = false ∧ c2.iterator_ = ListIter.node (a + 1)) ∧
      c2.iterator_index_ = intmax_of (c.iterator_index_ + 1) ∧ c2.max_size_ = c.max_size_ := by
  unfold OutputChannel.pop_body at h
  simp only at h
  by_cases hs : c.iterator_stagnated_ = true
  · rw [if_pos hs] at h
    cases hn : mq.iter_next c.iterator_ with
    | error e => rw [hn] at h; simp at h
    | ok it =>
      rw [hn] at h
      simp only at h
      obtain ⟨b, hb, hb0, hb1, hit⟩ := iter_next_ok hn
      obtain ⟨a, ha, h0, h1, hv, hl1, hl2⟩ := pop_tail_spec mq
        { max_size_ := c.max_size_, iterator_ := it, iterator_stagnated_ := false,
          iterator_index_ := intmax_of (c.iterator_index_ + 1) } h
      simp only at ha
      have hab : a = b + 1 := by
        by_cases hlt : b + 1 < mq.erased_ + mq.data_.length
        · rw [if_pos hlt] at hit
          rw [hit] at ha
          exact (ListIter.node.inj ha).symm
        · rw [if_neg hlt] at hit
          rw [hit] at ha
          simp at ha
      refine ⟨a, h0, h1, hv, fun _ => ⟨b, hb, hb0, hab⟩, fun hf => ?_, ?_, ?_, ?_, ?_⟩
      · rw [hs] at hf; simp at hf
      · intro hl
        rw [hl1 hl]
        exact ⟨rfl, ha⟩
      · intro hl
        rw [hl2 hl]
        exact ⟨rfl, rfl⟩
      · by_cases hl : a + 1 = mq.erased_ + mq.data_.length
        · rw [hl1 hl]
        · rw [hl2 hl]
      · by_cases hl : a + 1 = mq.erased_ + mq.data_.length
        · rw [hl1 hl]
        · rw [hl2 hl]
  · rw [if_neg hs] at h
    simp only at h
    have hsf : c.iterator_stagnated_ = false := by
      cases hh : c.iterator_stagnated_ with
      | true => exact absurd hh hs
      | false => rfl
    obtain ⟨a, ha, h0, h1, hv, hl1, hl2⟩ := pop_tail_spec mq
      { max_size_ := c.max_size_, iterator_ := c.iterator_,
        iterator_stagnated_ := c.iterator_stagnated_,
        iterator_index_ := intmax_of (c.iterator_index_ + 1) } h
    simp only at ha
    refine ⟨a, h0, h1, hv, fun ht => absurd ht hs, fun _ => ha, ?_, ?_, ?_, ?_⟩
    · intro hl
      rw [hl1 hl]
      exact ⟨rfl, ha⟩
    · intro hl
      rw [hl2 hl]
      exact ⟨hsf, rfl⟩
    · by_cases hl : a + 1 = mq.erased_ + mq.data_.length
      · rw [hl1 hl]
      · rw [hl2 hl]
    · by_cases hl : a + 1 = mq.erased_ + mq.data_.length
      · rw [hl1 hl]
      · rw [hl2 hl]

theorem pop_spec {mq : MessqgeQueue T} {c c2 : OutputChannel} {x : T}
    (h : c.pop mq = Except.ok (x, c2)) :
    ∃ s c1, c.size mq = Except.ok (s, c1) ∧ 0 < s ∧ c1.pop_body mq = Except.ok (x, c2) := by
  unfold OutputChannel.pop at h
  cases hs : c.size mq with
  | error e => rw [hs] at h; simp at h
  | ok p =>
    obtain ⟨s, c1⟩ := p
    rw [hs] at h
    simp only at h
    by_cases h0 : s = 0
    · rw [if_pos h0] at h; simp at h
    · rw [if_neg h0] at h
      exact ⟨s, c1, rfl, by omega, h⟩

theorem cursor_shift (z : Int) (d : Nat) (hd : d ≤ size_type_of z) :
    size_type_of (intmax_of (z - intmax_of (d : Int))) = size_type_of z - d := by
  have h0 := size_type_of_lt z
  have h1 := size_type_of_spec z
  have h2 := intmax_of_spec (d : Int)
  have h3 := intmax_of_spec (z - intmax_of (d : Int))
  have h4 := size_type_of_spec (intmax_of (z - intmax_of (d : Int)))
  omega

theorem clean_front_data_scan (mq : MessqgeQueue T) : mq.clean_front_data.scan_minidx ≤ 1 := by
  by_cases h : mq.scan_minidx ≤ 1
  · rw [clean_front_data_of_le mq h]; exact h
  · have hlt : 1 < mq.scan_minidx := by omega
    have hle := scan_minidx_le_length mq
    rcases scan_minidx_attained mq with ha | ⟨c, hc, ha⟩
    · have h1 := scan_minidx_le_length mq.clean_front_data
      rw [clean_front_data_of_lt mq hlt] at h1 ⊢
      simp only [List.length_drop] at h1
      omega
    · have hmem : ({ c with
          iterator_index_ :=
            intmax_of (c.iterator_index_ - intmax_of ((mq.scan_minidx - 1 : Nat) : Int)) }
            : OutputChannel) ∈ mq.clean_front_data.output_channels_ := by
        rw [clean_front_data_of_lt mq hlt]
        exact List.mem_map.mpr ⟨c, hc, rfl⟩
      have h1 := scan_minidx_le_mem mq.clean_front_data _ hmem
      simp only at h1
      rw [cursor_shift c.iterator_index_ (mq.scan_minidx - 1) (by omega)] at h1
      omega

theorem clean_front_data_idem (mq : MessqgeQueue T) :
    mq.clean_front_data.clean_front_data = mq.clean_front_data :=
  clean_front_data_of_le _ (clean_front_data_scan mq)

theorem clean_front_data_min (mq : MessqgeQueue T)
    (hsome : ∃ c ∈ mq.output_channels_, size_type_of c.iterator_index_ ≤ mq.data_.length) :
    ∃ c1 ∈ mq.clean_front_data.output_channels_, size_type_of c1.iterator_index_ ≤ 1 := by
  have hatt : ∃ c ∈ mq.output_channels_, mq.scan_minidx = size_type_of c.iterator_index_ := by
    rcases scan_minidx_attained mq with h | h
    · obtain ⟨c, hc, hle⟩ := hsome
      have h1 := scan_minidx_le_mem mq c hc
      exact ⟨c, hc, by omega⟩
    · exact h
  obtain ⟨c, hc, ha⟩ := hatt
  by_cases h : mq.scan_minidx ≤ 1
  · rw [clean_front_data_of_le mq h]
    exact ⟨c, hc, by omega⟩
  · have hlt : 1 < mq.scan_minidx := by omega
    refine ⟨{ c with
      iterator_index_ :=
        intmax_of (c.iterator_index_ - intmax_of ((mq.scan_minidx - 1 : Nat) : Int)) }, ?_, ?_⟩
    · rw [clean_front_data_of_lt mq hlt]
      exact List.mem_map.mpr ⟨c, hc, rfl⟩
    · simp only
      rw [cursor_shift c.iterator_index_ (mq.scan_minidx - 1) (by omega)]
      omega

theorem push_nonempty (mq : MessqgeQueue T) (o : T) : (mq.push o).data_ ≠ [] := by
  obtain ⟨hd, _, hr, _⟩ := push_data mq o
  intro hnil
  have : (mq.push o).data_.length = mq.data_.length + 1 - mq.reclaimed o := by
    rw [hd]; simp
  rw [hnil] at this
  simp only [List.length_nil] at this
  omega

theorem call_length {mq mq1 : MessqgeQueue T} {cl : Call T} {r : Ret T}
    (h : mq.call cl = Except.ok (r, mq1)) :
    mq1.output_channels_.length = mq.output_channels_.length := by
  cases cl with
  | push o =>
    simp only [MessqgeQueue.call] at h
    split at h
    · simp only [Except.ok.injEq, Prod.mk.injEq] at h
      rw [← h.2]
      exact (push_data mq o).2.2.2
    · simp at h
  | size j =>
    simp only [MessqgeQueue.call] at h
    cases ho : (mq.output_channel j).1 with
    | error e => rw [ho] at h; simp at h
    | ok ref =>
      rw [ho] at h
      simp only at h
      cases hs : mq.channel_size ref with
      | error e => rw [hs] at h; simp at h
      | ok p =>
        obtain ⟨s, mq2⟩ := p
        rw [hs] at h
        simp only [Except.ok.injEq, Prod.mk.injEq] at h
        obtain ⟨_, _, _, _, _, _, g2⟩ := channel_size_frame mq mq2 ref s hs
        rw [← h.2, g2, List.length_set]
  | pop j =>
    simp only [MessqgeQueue.call] at h
    cases ho : (mq.output_channel j).1 with
    | error e => rw [ho] at h; simp at h
    | ok ref =>
      rw [ho] at h
      simp only at h
      cases hs : mq.channel_pop ref with
      | error e => rw [hs] at h; simp at h
      | ok p =>
        obtain ⟨x, mq2⟩ := p
        rw [hs] at h
        simp only [Except.ok.injEq, Prod.mk.injEq] at h
        obtain ⟨_, _, _, _, _, _, g2⟩ := channel_pop_frame mq mq2 ref x hs
        rw [← h.2, g2, List.length_set]
  | max_size j =>
    simp only [MessqgeQueue.call] at h
    cases ho : (mq.output_channel j).1 with
    | error e => rw [ho] at h; simp at h
    | ok ref =>
      rw [ho] at h
      simp only at h
      cases hs : mq.channel_max_size ref with
      | error e => rw [hs] at h; simp at h
      | ok p =>
        obtain ⟨n, mq2⟩ := p
        rw [hs] at h
        simp only [Except.ok.injEq, Prod.mk.injEq] at h
        obtain ⟨g1, _⟩ := channel_max_size_frame mq mq2 ref n hs
        rw [← h.2, g1]
  | set_max_size j m =>
    simp only [MessqgeQueue.call] at h
    cases ho : (mq.output_channel j).1 with
    | error e => rw [ho] at h; simp at h
    | ok ref =>
      rw [ho] at h
      simp only at h
      cases hs : mq.channel_set_max_size ref m with
      | error e => rw [hs] at h; simp at h
      | ok mq2 =>
        rw [hs] at h
        simp only [Except.ok.injEq, Prod.mk.injEq] at h
        obtain ⟨_, _, _, _, g2⟩ := channel_set_max_size_frame mq mq2 ref m hs
        rw [← h.2, g2, List.length_set]
  | output_channels_size =>
    simp only [MessqgeQueue.call] at h
    cases hs : mq.output_channels_size with
    | error e => rw [hs] at h; simp at h
    | ok p =>
      obtain ⟨l, mq2⟩ := p
      rw [hs] at h
      simp only [Except.ok.injEq, Prod.mk.injEq] at h
      unfold MessqgeQueue.output_channels_size at hs
      obtain ⟨_, _, g, _⟩ := output_channels_size_loop_frame _ mq mq2 0 _ l hs
      rw [← h.2, g]

theorem run_length (cs : List (Call T)) :
    ∀ {mq mq1 : MessqgeQueue T} {rs : List (Ret T)}, mq.run cs = Except.ok (rs, mq1) →
      mq1.output_channels_.length = mq.output_channels_.length := by
  induction cs with
  | nil =>
    intro mq mq1 rs h
    simp only [MessqgeQueue.run, Except.ok.injEq, Prod.mk.injEq] at h
    rw [← h.2]
  | cons cl cs ih =>
    intro mq mq1 rs h
    obtain ⟨r, mq2, rs1, hcall, hrest, _⟩ := run_cons h
    rw [ih hrest, call_length hcall]

theorem execute_length {count : Nat} {cs : List (Call T)} {rs : List (Ret T)}
    {mq : MessqgeQueue T} (hex : execute count cs = Except.ok (rs, mq)) :
    mq.output_channels_.length = count := by
  obtain ⟨_, hrun⟩ := execute_ok hex
  rw [run_length cs hrun]
  simp [fresh]

theorem reachable_all_ok {count : Nat} {cs : List (Call T)} {rs : List (Ret T)}
    {mq : MessqgeQueue T} (hex : execute count cs = Except.ok (rs, mq))
    (hlim : ∀ cl ∈ cs, ∀ idx, cl.limit_in_range idx = true) :
    mq.data_.length < 9223372036854775808 ∧ 1 ≤ mq.output_channels_.length ∧
    ∀ c ∈ mq.output_channels_, ChanOK mq c := by
  have hlen := execute_length hex
  obtain ⟨hc1, _⟩ := execute_ok hex
  have hb := (reachable_chan_ok hex (show 0 < count by omega) (fun cl h => hlim cl h 0)).1
  refine ⟨hb, by omega, ?_⟩
  intro c hc
  obtain ⟨k, hk⟩ := List.mem_iff_getElem?.mp hc
  have hlt := getElem?_lt hk
  obtain ⟨_, c1, g1, g2⟩ :=
    reachable_chan_ok hex (show k < count by omega) (fun cl h => hlim cl h k)
  rw [hk] at g1
  rw [Option.some.inj g1]
  exact g2

theorem push_min_cursor {count : Nat} {cs : List (Call T)} {rs : List (Ret T)}
    {mq : MessqgeQueue T} (hex : execute count cs = Except.ok (rs, mq))
    (hlim : ∀ cl ∈ cs, ∀ idx, cl.limit_in_range idx = true) (o : T)
    (hb : mq.data_.length < list_max_size) :
    (∀ c ∈ (mq.push o).output_channels_,
      0 ≤ c.iterator_index_ ∧ c.iterator_index_ ≤ ((mq.push o).data_.length : Int)) ∧
    (∃ c ∈ (mq.push o).output_channels_, c.iterator_index_ ≤ 1 ∧
      ((mq.push o).data_.length : Int) ≤ ((mq.push o).data_.length : Int) - c.iterator_index_ + 1) ∧
    (mq.push o).data_ ≠ [] ∧ (mq.push o).clean_front_data = mq.push o := by
  obtain ⟨_, hpos, hall⟩ := reachable_all_ok hex hlim
  unfold list_max_size at hb
  have hok : ∀ c ∈ (mq.push o).output_channels_, ChanOK (mq.push o) c := by
    intro c1 hc1
    obtain ⟨k, hk⟩ := List.mem_iff_getElem?.mp hc1
    have hlt := getElem?_lt hk
    rw [(push_data mq o).2.2.2] at hlt
    have hget : mq.output_channels_[k]? = some (mq.output_channels_.get ⟨k, hlt⟩) := by
      rw [List.getElem?_eq_getElem hlt]; rfl
    have hc := hall _ (List.mem_iff_getElem?.mpr ⟨k, hget⟩)
    obtain ⟨c2, g1, g2, _⟩ := push_chan_ok mq o k _ hget hc (by omega)
    rw [hk] at g1
    rw [Option.some.inj g1]
    exact g2
  have hmin : ∃ c1 ∈ (mq.push o).output_channels_, size_type_of c1.iterator_index_ ≤ 1 := by
    unfold MessqgeQueue.push
    apply clean_front_data_min
    have hget : mq.output_channels_[0]? = some (mq.output_channels_.get ⟨0, by omega⟩) := by
      rw [List.getElem?_eq_getElem (by omega)]; rfl
    have hmem := List.mem_iff_getElem?.mpr ⟨0, hget⟩
    have hc := hall _ hmem
    refine ⟨_, hmem, ?_⟩
    have := size_type_of_eq hc.index_nonneg (by have := hc.index_le; omega)
    have h1 := hc.index_le
    simp only [List.length_append, List.length_singleton]
    omega
  refine ⟨fun c hc => ⟨(hok c hc).index_nonneg, (hok c hc).index_le⟩, ?_, push_nonempty mq o, ?_⟩
  · obtain ⟨c1, hc1, hle⟩ := hmin
    have h0 := (hok c1 hc1).index_nonneg
    have h1 := (hok c1 hc1).index_le
    have h2 : (mq.push o).data_.length ≤ mq.data_.length + 1 := push_length_le mq o
    have := size_type_of_eq h0 (by omega)
    exact ⟨c1, hc1, by omega, by omega⟩
  · unfold MessqgeQueue.push
    exact clean_front_data_idem _

theorem cursor_within_log {count idx : Nat} {cs : List (Call T)} {rs : List (Ret T)}
    {mq : MessqgeQueue T} (hex : execute count cs = Except.ok (rs, mq)) (hidx : idx < count)
    (hlim : ∀ cl ∈ cs, cl.limit_in_range idx = true) :
    ∃ c, mq.output_channels_[idx]? = some c ∧ 0 ≤ c.iterator_index_ ∧
      c.iterator_index_ ≤ (mq.data_.length : Int) := by
  obtain ⟨_, c, hget, hc⟩ := reachable_chan_ok hex hidx hlim
  exact ⟨c, hget, hc.index_nonneg, hc.index_le⟩

theorem clean_front_data_spec (mq : MessqgeQueue T) :
    (mq.scan_minidx ≤ mq.data_.length ∧
      (∀ c ∈ mq.output_channels_, mq.scan_minidx ≤ size_type_of c.iterator_index_) ∧
      (mq.scan_minidx = mq.data_.length ∨
        ∃ c ∈ mq.output_channels_, mq.scan_minidx = size_type_of c.iterator_index_)) ∧
    (mq.scan_minidx ≤ 1 → mq.clean_front_data = mq) ∧
    (1 < mq.scan_minidx →
      mq.data_ = mq.data_.take (mq.scan_minidx - 1) ++ mq.clean_front_data.data_ ∧
      (mq.data_.take (mq.scan_minidx - 1)).length = mq.scan_minidx - 1 ∧
      mq.clean_front_data.erased_ = mq.erased_ + (mq.scan_minidx - 1) ∧
      mq.clean_front_data.output_channels_.length = mq.output_channels_.length ∧
      ∀ (k : Nat) (c : OutputChannel), mq.output_channels_[k]? = some c →
        ∃ c1, mq.clean_front_data.output_channels_[k]? = some c1 ∧
          c1.max_size_ = c.max_size_ ∧ c1.iterator_ = c.iterator_ ∧
          c1.iterator_stagnated_ = c.iterator_stagnated_ ∧
          size_type_of c1.iterator_index_ =
            size_type_of c.iterator_index_ - (mq.scan_minidx - 1) ∧
          (0 ≤ c.iterator_index_ → c.iterator_index_ < 9223372036854775808 →
            c1.iterator_index_ = c.iterator_index_ - ((mq.scan_minidx - 1 : Nat) : Int))) ∧
    ((∀ c ∈ mq.output_channels_,
        0 ≤ c.iterator_index_ ∧ c.iterator_index_ < 9223372036854775808) →
      (∃ c ∈ mq.output_channels_, c.iterator_index_ ≤ (mq.data_.length : Int)) →
      mq.min_cursor = some (mq.scan_minidx : Int) ∧ mq.clean_front_data = mq.reclaim_spec) := by
  refine ⟨⟨scan_minidx_le_length mq, scan_minidx_le_mem mq, scan_minidx_attained mq⟩,
    clean_front_data_of_le mq, ?_, fun hall hsome =>
      ⟨min_cursor_eq_scan mq hall hsome, clean_front_data_eq_reclaim_spec mq hall hsome⟩⟩
  intro hlt
  have hle := scan_minidx_le_length mq
  rw [clean_front_data_of_lt mq hlt]
  refine ⟨(List.take_append_drop _ _).symm, ?_, rfl, by simp, ?_⟩
  · rw [List.length_take]; omega
  · intro k c hk
    have hmem := List.mem_iff_getElem?.mpr ⟨k, hk⟩
    have hm := scan_minidx_le_mem mq c hmem
    refine ⟨{ c with
      iterator_index_ :=
        intmax_of (c.iterator_index_ - intmax_of ((mq.scan_minidx - 1 : Nat) : Int)) },
      ?_, rfl, rfl, rfl, ?_, ?_⟩
    · rw [List.getElem?_map, hk]; rfl
    · exact cursor_shift c.iterator_index_ (mq.scan_minidx - 1) (by omega)
    · intro h0 h1
      have h3 : (size_type_of c.iterator_index_ : Int) = c.iterator_index_ :=
        size_type_of_eq h0 (by omega)
      have h4 : intmax_of ((mq.scan_minidx - 1 : Nat) : Int) =
          ((mq.scan_minidx - 1 : Nat) : Int) := intmax_of_eq (by omega) (by omega)
      simp only
      rw [h4]
      exact intmax_of_eq (by omega) (by omega)

theorem pop_stagnation :
    (∀ (mq : MessqgeQueue T) (c c2 : OutputChannel) (x : T), c.pop mq = Except.ok (x, c2) →
      ∃ s c1 a, c.size mq = Except.ok (s, c1) ∧ 0 < s ∧ c1.pop_body mq = Except.ok (x, c2) ∧
        mq.erased_ ≤ a ∧ a < mq.erased_ + mq.data_.length ∧
        mq.data_[a - mq.erased_]? = some x ∧
        (c1.iterator_stagnated_ = true →
          ∃ b, c1.iterator_ = ListIter.node b ∧ mq.erased_ ≤ b ∧ a = b + 1) ∧
        (c1.iterator_stagnated_ = false → c1.iterator_ = ListIter.node a) ∧
        (a + 1 = mq.erased_ + mq.data_.length →
          c2.iterator_stagnated_ = true ∧ c2.iterator_ = ListIter.node a) ∧
        (a + 1 ≠ mq.erased_ + mq.data_.length →
          c2.iterator_stagnated_ = false ∧ c2.iterator_ = ListIter.node (a + 1)) ∧
        c2.iterator_index_ = intmax_of (c1.iterator_index_ + 1) ∧
        (-9223372036854775808 ≤ c1.iterator_index_ →
          c1.iterator_index_ < 9223372036854775807 →
          c2.iterator_index_ = c1.iterator_index_ + 1) ∧
        c2.max_size_ = c1.max_size_) ∧
    (∀ (count idx : Nat) (cs : List (Call T)) (rs : List (Ret T)) (mq : MessqgeQueue T),
      execute count cs = Except.ok (rs, mq) → idx < count →
      (∀ cl ∈ cs, cl.limit_in_range idx = true) →
      ∃ c s c1, mq.output_channels_[idx]? = some c ∧ c.size mq = Except.ok (s, c1) ∧
        (0 < s → ∃ x c2, c.pop mq = Except.ok (x, c2) ∧
          c2.iterator_index_ = c1.iterator_index_ + 1)) := by
  constructor
  · intro mq c c2 x h
    obtain ⟨s, c1, g1, g2, g3⟩ := pop_spec h
    obtain ⟨a, h0, h1, hv, k1, k2, k3, k4, k5, k6⟩ := pop_body_spec g3
    refine ⟨s, c1, a, g1, g2, g3, h0, h1, hv, k1, k2, k3, k4, k5, ?_, k6⟩
    intro hlo hhi
    rw [k5]
    exact intmax_of_eq (by omega) (by omega)
  · intro count idx cs rs mq hex hidx hlim
    obtain ⟨hb, c, hget, hc⟩ := reachable_chan_ok hex hidx hlim
    obtain ⟨c1, g1, g2, _, g4, _, g6⟩ := size_ok mq c hc hb
    have hi0 := g2.index_nonneg
    refine ⟨c, c1.raw_size mq, c1, hget, g1, ?_⟩
    intro hs
    have hlt : c1.iterator_index_ < (mq.data_.length : Int) := by omega
    have hd : mq.data_ ≠ [] := by
      intro hnil
      rw [hnil] at hlt
      simp only [List.length_nil] at hlt
      omega
    obtain ⟨x, c2, k1, _, _, _, k5, _⟩ := pop_body_ok mq c1 g2 hb (g4 hd) hlt
    refine ⟨x, c2, ?_, k5⟩
    unfold OutputChannel.pop
    rw [g1]
    simp only
    rw [if_neg (by omega)]
    exact k1

theorem push_eq_reclaim_spec {count : Nat} {cs : List (Call T)} {rs : List (Ret T)}
    {mq : MessqgeQueue T} (hex : execute count cs = Except.ok (rs, mq))
    (hlim : ∀ cl ∈ cs, ∀ idx, cl.limit_in_range idx = true) (o : T)
    (hb : mq.data_.length < list_max_size) :
    mq.push o = MessqgeQueue.reclaim_spec { mq with data_ := mq.data_ ++ [o] } := by
  obtain ⟨_, hpos, hall⟩ := reachable_all_ok hex hlim
  unfold list_max_size at hb
  unfold MessqgeQueue.push
  apply clean_front_data_eq_reclaim_spec
  · intro c hc
    have hok := hall c hc
    have h0 := hok.index_nonneg
    have h1 := hok.index_le
    exact ⟨h0, by omega⟩
  · have hget : mq.output_channels_[0]? = some (mq.output_channels_.get ⟨0, by omega⟩) := by
      rw [List.getElem?_eq_getElem (by omega)]; rfl
    have hmem := List.mem_iff_getElem?.mpr ⟨0, hget⟩
    have h1 := (hall _ hmem).index_le
    refine ⟨_, hmem, ?_⟩
    simp only [List.length_append, List.length_singleton]
    push_cast
    omega

/-! ## The claims -/

/-- C1. A consumer whose limit stays 0 receives the pushed values in push order, each
exactly once: in every execution that returns, whatever the other calls are, the values
popped from channel `idx` are a prefix of the pushed values (the `j`-th pop returns the
`j`-th value pushed); and after the pushes of `vs` into a fresh queue, `|vs|` pops return
exactly `vs`. -/
theorem unbounded_consumer_fifo :
    (∀ (count idx : Nat) (cs : List (Call T)) (rs : List (Ret T)) (mq : MessqgeQueue T),
      execute count cs = Except.ok (rs, mq) → idx < count →
      (∀ cl ∈ cs, cl.keeps_unbounded idx = true) →
      popped idx cs rs <+: pushed cs) ∧
    (∀ (count idx : Nat) (vs : List T), idx < count → vs.length < 9223372036854775808 →
      ∃ mq, execute count (vs.map Call.push ++ List.replicate vs.length (Call.pop idx)) =
        Except.ok (List.replicate vs.length Ret.done ++ vs.map Ret.val, mq)) := by
  constructor
  · intro count idx cs rs mq hex hidx hkeep
    obtain ⟨_, hrun⟩ := execute_ok hex
    have ht := tracks_fresh (T := T) count idx hidx
    obtain ⟨c, hget, hc, hv⟩ := ht.chan
    have := run_unbounded_fifo idx cs [] (fresh T count) mq c rs ht.log_ok hget hc
      (by rw [hv]) ht.bound hkeep hrun
    rw [hv] at this
    simpa using this
  · intro count idx vs hidx hb
    have ht := tracks_fresh (T := T) count idx hidx
    have hb1 : (fresh T count).data_.length + vs.length ≤ list_max_size := by
      simp only [fresh, List.length_nil, list_max_size]; omega
    have h1 := run_pushes vs (fresh T count) hb1
    have ht1 := foldl_push_tracks vs ht hb1
    simp only [List.nil_append] at ht1
    obtain ⟨mq1, h2, _⟩ := run_pops vs.length ht1 rfl (by simp)
    refine ⟨mq1, ?_⟩
    rw [execute_eq count (by omega), run_append h1 h2]
    simp

theorem unbounded_consumer_fifo_witness :
    (popped 0
        [Call.push 10, Call.push 11, Call.pop 0, Call.set_max_size 1 5, Call.push 12,
          Call.pop 1, Call.size 1, Call.pop 0, Call.output_channels_size]
        [Ret.done, Ret.done, Ret.val 10, Ret.done, Ret.done, Ret.val 10, Ret.num 2,
          Ret.val 11, Ret.nums [1, 2]] <+:
      pushed
        [Call.push 10, Call.push 11, Call.pop 0, Call.set_max_size 1 5, Call.push 12,
          Call.pop 1, Call.size 1, Call.pop 0, Call.output_channels_size]) ∧
    (∃ mq, execute 2 ([7, 8, 9].map Call.push ++ List.replicate [7, 8, 9].length (Call.pop 0)) =
        Except.ok (List.replicate [7, 8, 9].length Ret.done ++ [7, 8, 9].map Ret.val, mq)) :=
  ⟨(unbounded_consumer_fifo (T := Nat)).1 2 0
      [Call.push 10, Call.push 11, Call.pop 0, Call.set_max_size 1 5, Call.push 12,
        Call.pop 1, Call.size 1, Call.pop 0, Call.output_channels_size]
      [Ret.done, Ret.done, Ret.val 10, Ret.done, Ret.done, Ret.val 10, Ret.num 2,
        Ret.val 11, Ret.nums [1, 2]]
      { data_ := [10, 11, 12], erased_ := 0,
        output_channels_ :=
          [{ max_size_ := 0, iterator_ := ListIter.node 2, iterator_stagnated_ := false,
             iterator_index_ := 2 },
           { max_size_ := 5, iterator_ := ListIter.node 1, iterator_stagnated_ := false,
             iterator_index_ := 1 }] }
      rfl (by decide) (by decide),
    (unbounded_consumer_fifo (T := Nat)).2 2 0 [7, 8, 9] (by decide) (by decide)⟩

/-- C2. Window clamp on a fresh queue: for `1 ≤ w < k < 2^63` and a channel `idx` of a queue
with `count` channels, if the limit `w` is set at any point `j` of the pushes of `0..k-1`
and before the first `size()`/`pop()` of that channel, then `size()` returns `w` and the
first pop, with or without that `size()` before it, returns `k - w`. -/
theorem window_clamp_fresh (count idx w k j : Nat) (hidx : idx < count) (hw : 1 ≤ w)
    (hwk : w < k) (hk : k < 9223372036854775808) (hj : j ≤ k) :
    (∃ mq, execute count
        (((List.range k).take j).map Call.push ++ [Call.set_max_size idx w] ++
          ((List.range k).drop j).map Call.push ++ [Call.size idx, Call.pop idx]) =
      Except.ok (List.replicate j Ret.done ++ [Ret.done] ++ List.replicate (k - j) Ret.done ++
        [Ret.num w, Ret.val (k - w)], mq)) ∧
    (∃ mq, execute count
        (((List.range k).take j).map Call.push ++ [Call.set_max_size idx w] ++
          ((List.range k).drop j).map Call.push ++ [Call.pop idx]) =
      Except.ok (List.replicate j Ret.done ++ [Ret.done] ++ List.replicate (k - j) Ret.done ++
        [Ret.val (k - w)], mq)) := by
  have ht0 := tracks_fresh (T := Nat) count idx hidx
  -- the first `j` pushes
  have hb1 : (fresh Nat count).data_.length + ((List.range k).take j).length ≤ list_max_size := by
    simp only [fresh, List.length_nil, List.length_take, List.length_range, list_max_size]
    omega
  have r1 := run_pushes ((List.range k).take j) (fresh Nat count) hb1
  have ht1 := foldl_push_tracks ((List.range k).take j) ht0 hb1
  simp only [List.nil_append] at ht1
  -- the limit is set
  obtain ⟨mq2, c2, ht2⟩ := set_max_size_tracks ht1 w (by omega)
  have r2 := run_one c2
  -- the other pushes
  have hb3 : mq2.data_.length + ((List.range k).drop j).length ≤ list_max_size := by
    have := ht2.log_ok.length_eq
    simp only [List.length_take, List.length_drop, List.length_range, list_max_size] at this ⊢
    omega
  have r3 := run_pushes ((List.range k).drop j) mq2 hb3
  have ht3 := foldl_push_tracks ((List.range k).drop j) ht2 hb3
  rw [List.take_append_drop] at ht3
  simp only [List.length_take, List.length_drop, List.length_range, Nat.min_eq_left hj] at r1 r3
  have hfit : View.fit (List.range k).length { limit := w, cursor := 0 }
      = { limit := w, cursor := k - w } := by
    unfold View.fit
    simp only [List.length_range]
    rw [if_pos (by omega)]
  have hfit2 : View.fit (List.range k).length { limit := w, cursor := k - w }
      = { limit := w, cursor := k - w } := by
    unfold View.fit
    simp only [List.length_range]
    rw [if_neg (by omega)]
  have hex := execute_eq (T := Nat) count (by omega)
  constructor
  · obtain ⟨mq4, c4, ht4⟩ := size_tracks ht3
    rw [hfit] at c4 ht4
    obtain ⟨x, mq5, c5, e5, _⟩ := pop_tracks ht4
      (by rw [hfit2]; simp only [List.length_range]; omega)
    rw [hfit2] at e5
    simp only [List.getElem?_range (show k - w < k by omega), Option.some.injEq] at e5
    subst e5
    have r45 : mq4.run [Call.pop idx] = Except.ok ([Ret.val (k - w)], mq5) := run_one c5
    have r4 : (List.foldl MessqgeQueue.push mq2 (List.drop j (List.range k))).run
        [Call.size idx, Call.pop idx] = Except.ok ([Ret.num w, Ret.val (k - w)], mq5) := by
      have := run_append (run_one c4) r45
      simp only [List.length_range] at this
      have hkw : k - (k - w) = w := by omega
      rw [hkw] at this
      exact this
    refine ⟨mq5, ?_⟩
    rw [hex]
    exact run_append (run_append (run_append r1 r2) r3) r4
  · obtain ⟨x, mq5, c5, e5, _⟩ := pop_tracks ht3
      (by rw [hfit]; simp only [List.length_range]; omega)
    rw [hfit] at e5
    simp only [List.getElem?_range (show k - w < k by omega), Option.some.injEq] at e5
    subst e5
    refine ⟨mq5, ?_⟩
    rw [hex]
    exact run_append (run_append (run_append r1 r2) r3) (run_one c5)

theorem window_clamp_fresh_witness :
    (∃ mq, execute 3
        (((List.range 5).take 3).map Call.push ++ [Call.set_max_size 1 2] ++
          ((List.range 5).drop 3).map Call.push ++ [Call.size 1, Call.pop 1]) =
      Except.ok (List.replicate 3 Ret.done ++ [Ret.done] ++ List.replicate (5 - 3) Ret.done ++
        [Ret.num 2, Ret.val (5 - 2)], mq)) ∧
    (∃ mq, execute 3
        (((List.range 5).take 3).map Call.push ++ [Call.set_max_size 1 2] ++
          ((List.range 5).drop 3).map Call.push ++ [Call.pop 1]) =
      Except.ok (List.replicate 3 Ret.done ++ [Ret.done] ++ List.replicate (5 - 3) Ret.done ++
        [Ret.val (5 - 2)], mq)) :=
  window_clamp_fresh 3 1 2 5 3 (by decide) (by decide) (by decide) (by decide) (by decide)

/-- C3 (failing input). One channel: `push 10`, `pop`, `max_size(2^64-1)`, `size()`,
`push 11`, `push 12`, `max_size(1)` leave the channel with limit 1, cursor 1 and a log of
length 2 (three values pushed), so with limit `W = 1` and `W` unread entries; the next pop
returns 11, the entry of logical index 1, and not the most recent entry 12 of index 2. -/
theorem clamp_after_huge_limit :
    (execute 1 [Call.push 10, Call.pop 0, Call.set_max_size 0 18446744073709551615, Call.size 0,
        Call.push 11, Call.push 12, Call.set_max_size 0 1] :
        Except Fault (List (Ret Nat) × MessqgeQueue Nat)) =
      Except.ok ([Ret.done, Ret.val 10, Ret.done, Ret.num 18446744073709551615, Ret.done,
          Ret.done, Ret.done],
        { data_ := [11, 12], erased_ := 1,
          output_channels_ := [{ max_size_ := 1, iterator_ := ListIter.past_the_end,
                                 iterator_stagnated_ := true, iterator_index_ := 1 }] }) ∧
    (execute 1 [Call.push 10, Call.pop 0, Call.set_max_size 0 18446744073709551615, Call.size 0,
        Call.push 11, Call.push 12, Call.set_max_size 0 1, Call.pop 0] :
        Except Fault (List (Ret Nat) × MessqgeQueue Nat)) =
      Except.ok ([Ret.done, Ret.val 10, Ret.done, Ret.num 18446744073709551615, Ret.done,
          Ret.done, Ret.done, Ret.val 11],
        { data_ := [11, 12], erased_ := 1,
          output_channels_ := [{ max_size_ := 1, iterator_ := ListIter.node 2,
                                 iterator_stagnated_ := false, iterator_index_ := 2 }] }) :=
  ⟨rfl, rfl⟩

/-- C4 (failing input). One channel: after `push 10`, `pop`, `max_size(2^64-1)` the log has
length 1 and the cursor is 1, so the raw backlog 0 is below the limit `2^64-1`; `size()` then
moves the cursor to 2 and returns `2^64-1` instead of leaving the cursor and returning 0. -/
theorem size_with_huge_limit :
    (execute 1 [Call.push 10, Call.pop 0, Call.set_max_size 0 18446744073709551615] :
        Except Fault (List (Ret Nat) × MessqgeQueue Nat)) =
      Except.ok ([Ret.done, Ret.val 10, Ret.done],
        { data_ := [10], erased_ := 0,
          output_channels_ := [{ max_size_ := -1, iterator_ := ListIter.node 0,
                                 iterator_stagnated_ := true, iterator_index_ := 1 }] }) ∧
    (execute 1 [Call.push 10, Call.pop 0, Call.set_max_size 0 18446744073709551615,
        Call.max_size 0, Call.size 0] :
        Except Fault (List (Ret Nat) × MessqgeQueue Nat)) =
      Except.ok ([Ret.done, Ret.val 10, Ret.done, Ret.num 18446744073709551615,
          Ret.num 18446744073709551615],
        { data_ := [10], erased_ := 0,
          output_channels_ := [{ max_size_ := -1, iterator_ := ListIter.past_the_end,
                                 iterator_stagnated_ := true, iterator_index_ := 2 }] }) :=
  ⟨rfl, rfl⟩

/-- C5 (failing input). One channel: `push 10`, `push 11`, `pop`, `pop`, `max_size(2^64-1)`,
`size()`, `pop`: the three pops return 10, 11 and 10 again, so the entry of logical index 0
is delivered a second time, after the entry of index 1. -/
theorem redelivery_after_huge_limit :
    (execute 1 [Call.push 10, Call.push 11, Call.pop 0, Call.pop 0,
        Call.set_max_size 0 18446744073709551615, Call.size 0, Call.pop 0] :
        Except Fault (List (Ret Nat) × MessqgeQueue Nat)) =
      Except.ok ([Ret.done, Ret.done, Ret.val 10, Ret.val 11, Ret.done,
          Ret.num 18446744073709551615, Ret.val 10],
        { data_ := [10, 11], erased_ := 0,
          output_channels_ := [{ max_size_ := -1, iterator_ := ListIter.node 1,
                                 iterator_stagnated_ := false, iterator_index_ := 4 }] }) ∧
    popped 0
      [Call.push 10, Call.push 11, Call.pop 0, Call.pop 0,
        Call.set_max_size 0 18446744073709551615, Call.size 0, Call.pop 0]
      [Ret.done, Ret.done, Ret.val 10, Ret.val 11, Ret.done,
        Ret.num 18446744073709551615, Ret.val 10] = [10, 11, 10] :=
  ⟨rfl, rfl⟩

/-- C6. One push adds exactly one to the raw backlog `data_.size() - iterator_index_` of
every channel, also when it reclaims entries: in `size_type` arithmetic for every state, and
as integers whenever the cursor is non-negative and the log shorter than `2^63 - 1`.  On a
fresh queue without limits, after the pushes of `vs` `output_channels_size()` returns `|vs|`
for every channel, and `size()` called after each push returns 1, 2, 3, ... -/
theorem push_adds_one_to_backlog :
    (∀ (mq : MessqgeQueue T) (o : T) (idx : Nat) (c : OutputChannel),
      mq.output_channels_[idx]? = some c →
      ∃ c1, (mq.push o).output_channels_[idx]? = some c1 ∧
        c1.raw_size (mq.push o) = (c.raw_size mq + 1) % 18446744073709551616 ∧
        (0 ≤ c.iterator_index_ → c.iterator_index_ < 9223372036854775808 →
          mq.data_.length + 1 < 9223372036854775808 →
          ((mq.push o).data_.length : Int) - c1.iterator_index_ =
            (mq.data_.length : Int) - c.iterator_index_ + 1)) ∧
    (∀ (count : Nat) (vs : List T), 1 ≤ count → vs.length < 9223372036854775808 →
      ∃ mq, execute count (vs.map Call.push ++ [Call.output_channels_size]) =
        Except.ok (List.replicate vs.length Ret.done ++
          [Ret.nums (List.replicate count vs.length)], mq)) ∧
    (∀ (count idx : Nat) (vs : List T), idx < count → vs.length < 9223372036854775808 →
      ∃ mq, execute count (vs.flatMap fun v => [Call.push v, Call.size idx]) =
        Except.ok ((List.range vs.length).flatMap fun i => [Ret.done, Ret.num (i + 1)], mq)) := by
  refine ⟨push_backlog, ?_, ?_⟩
  · intro count vs hc hl
    have h1 := run_pushes vs (fresh T count)
      (by simp only [fresh, List.length_nil, list_max_size]; omega)
    have h2 : vs.foldl MessqgeQueue.push (fresh T count) =
        { data_ := vs, erased_ := 0, output_channels_ := List.replicate count unpositioned } := by
      have := foldl_push_fresh count hc vs []
      simpa [fresh] using this
    rw [h2] at h1
    rw [execute_eq count hc]
    cases vs with
    | nil =>
      have h3 := output_channels_size_uniform ([] : List T) 0 unpositioned unpositioned 0 count
        (fun o => unpositioned_size_nil 0 o)
      have h4 : MessqgeQueue.call
          ({ data_ := [], erased_ := 0, output_channels_ := List.replicate count unpositioned }
            : MessqgeQueue T) Call.output_channels_size =
          Except.ok (Ret.nums (List.replicate count 0),
            { data_ := [], erased_ := 0, output_channels_ := List.replicate count unpositioned }) := by
        simp only [MessqgeQueue.call, h3]
      exact ⟨_, run_append h1 (run_one h4)⟩
    | cons x xs =>
      have h3 := output_channels_size_uniform (x :: xs) 0 unpositioned _ (x :: xs).length count
        (fun o => unpositioned_size_cons x xs 0 o (by omega))
      have h4 : MessqgeQueue.call
          ({ data_ := x :: xs, erased_ := 0,
             output_channels_ := List.replicate count unpositioned } : MessqgeQueue T)
          Call.output_channels_size =
          Except.ok (Ret.nums (List.replicate count (x :: xs).length),
            { data_ := x :: xs, erased_ := 0,
              output_channels_ := List.replicate count
                { max_size_ := 0, iterator_ := ListIter.node 0, iterator_stagnated_ := false,
                  iterator_index_ := 0 } }) := by
        simp only [MessqgeQueue.call, h3]
      exact ⟨_, run_append h1 (run_one h4)⟩
  · intro count idx vs hidx hl
    have ht := tracks_fresh (T := T) count idx hidx
    obtain ⟨mq1, h1⟩ := run_push_size vs ht
      (by simp only [List.nil_append, list_max_size]; omega)
    refine ⟨mq1, ?_⟩
    rw [execute_eq count (by omega), h1, List.length_nil, List.range_eq_range']

theorem push_adds_one_to_backlog_witness :
    (∃ c1, (MessqgeQueue.push
          ({ data_ := [1, 2, 3], erased_ := 0,
             output_channels_ := [{ max_size_ := 0, iterator_ := ListIter.node 2,
                                    iterator_stagnated_ := true, iterator_index_ := 3 }] }
            : MessqgeQueue Nat) 4).output_channels_[0]? = some c1 ∧
        c1.raw_size (MessqgeQueue.push
          ({ data_ := [1, 2, 3], erased_ := 0,
             output_channels_ := [{ max_size_ := 0, iterator_ := ListIter.node 2,
                                    iterator_stagnated_ := true, iterator_index_ := 3 }] }
            : MessqgeQueue Nat) 4) =
          (OutputChannel.raw_size
            ({ data_ := [1, 2, 3], erased_ := 0,
               output_channels_ := [{ max_size_ := 0, iterator_ := ListIter.node 2,
                                      iterator_stagnated_ := true, iterator_index_ := 3 }] }
              : MessqgeQueue Nat)
            { max_size_ := 0, iterator_ := ListIter.node 2, iterator_stagnated_ := true,
              iterator_index_ := 3 } + 1) % 18446744073709551616) ∧
    (∃ mq, execute 3 ([7, 8].map Call.push ++ [Call.output_channels_size]) =
        Except.ok (List.replicate [7, 8].length Ret.done ++
          [Ret.nums (List.replicate 3 [7, 8].length)], mq)) ∧
    (∃ mq, execute 2 ([7, 8, 9].flatMap fun v => [Call.push v, Call.size 1]) =
        Except.ok ((List.range [7, 8, 9].length).flatMap fun i => [Ret.done, Ret.num (i + 1)],
          mq)) := by
  obtain ⟨h1, h2, h3⟩ := push_adds_one_to_backlog (T := Nat)
  refine ⟨?_, h2 3 [7, 8] (by decide) (by decide), h3 2 1 [7, 8, 9] (by decide) (by decide)⟩
  obtain ⟨c1, e1, e2, _⟩ := h1
    { data_ := [1, 2, 3], erased_ := 0,
      output_channels_ := [{ max_size_ := 0, iterator_ := ListIter.node 2,
                             iterator_stagnated_ := true, iterator_index_ := 3 }] }
    4 0 _ rfl
  exact ⟨c1, e1, e2⟩

/-- C7 (failing input). One channel with limit `2^63+1`: after `push 7`, `size()` returns
`s = 1` and the pop returns 7; the `size()` after that pop does not return `s - 1 = 0`:
`diff` is `2^63-1`, the position reference is incremented past the end of the log, which
is undefined behaviour. -/
theorem size_after_pop_with_huge_limit :
    (execute 1 [Call.set_max_size 0 9223372036854775809, Call.push 7, Call.size 0, Call.pop 0] :
        Except Fault (List (Ret Nat) × MessqgeQueue Nat)) =
      Except.ok ([Ret.done, Ret.done, Ret.num 1, Ret.val 7],
        { data_ := [7], erased_ := 0,
          output_channels_ := [{ max_size_ := -9223372036854775807, iterator_ := ListIter.node 0,
                                 iterator_stagnated_ := true, iterator_index_ := 1 }] }) ∧
    (execute 1 [Call.set_max_size 0 9223372036854775809, Call.push 7, Call.size 0, Call.pop 0,
        Call.size 0] : Except Fault (List (Ret Nat) × MessqgeQueue Nat)) =
      Except.error Fault.undefined_behaviour ∧
    OutputChannel.diff ({ data_ := [7], erased_ := 0, output_channels_ := [] } : MessqgeQueue Nat)
      { max_size_ := -9223372036854775807, iterator_ := ListIter.node 0,
        iterator_stagnated_ := true, iterator_index_ := 1 } = 9223372036854775807 :=
  ⟨rfl, rfl, rfl⟩

/-- C8. Construction with `count ≤ 0` fails with `invalid_argument`; with `count ≥ 1` it
returns a queue with exactly `count` channels over an empty log, each with cursor 0,
limit 0 and `size()` 0 (also through `output_channels_size()`), these calls changing
nothing. -/
theorem construct_spec (count : Nat) :
    (count ≤ 0 → (MessqgeQueue.construct count : Except Fault (MessqgeQueue T)) =
      Except.error Fault.invalid_argument) ∧
    (1 ≤ count → ∃ mq : MessqgeQueue T, MessqgeQueue.construct count = Except.ok mq ∧
      mq.output_channels_.length = count ∧ mq.data_ = [] ∧
      (∀ idx, idx < count → ∃ c, mq.output_channels_[idx]? = some c ∧
        c.iterator_index_ = 0 ∧ c.max_size = 0 ∧
        mq.call (Call.max_size idx) = Except.ok (Ret.num 0, mq) ∧
        mq.call (Call.size idx) = Except.ok (Ret.num 0, mq)) ∧
      mq.output_channels_size = Except.ok (List.replicate count 0, mq)) := by
  constructor
  · intro h
    unfold MessqgeQueue.construct
    rw [if_pos h]
  · intro h
    refine ⟨fresh T count, construct_eq_fresh count h, by simp [fresh], rfl, ?_, ?_⟩
    · intro idx hidx
      have hget : (fresh T count).output_channels_[idx]? = some unpositioned := by
        simp only [fresh]
        rw [List.getElem?_replicate, if_pos hidx]
      have hlt : idx < (fresh T count).output_channels_.length := by simp [fresh, hidx]
      have hm : unpositioned.max_size = 0 := by
        simp [OutputChannel.max_size, unpositioned, size_type_of_zero]
      refine ⟨unpositioned, hget, rfl, hm, ?_, ?_⟩
      · simp only [MessqgeQueue.call, output_channel_of_lt _ _ hlt,
          MessqgeQueue.channel_max_size, hget, hm]
      · have hs := unpositioned_size_nil (T := T) 0 (List.replicate count unpositioned)
        simp only [MessqgeQueue.call, output_channel_of_lt _ _ hlt,
          MessqgeQueue.channel_size, hget]
        simp only [fresh] at hs ⊢
        rw [hs]
        simp
    · exact output_channels_size_uniform ([] : List T) 0 unpositioned unpositioned 0 count
        (fun o => unpositioned_size_nil 0 o)

theorem construct_spec_witness :
    (MessqgeQueue.construct 0 : Except Fault (MessqgeQueue Nat)) =
      Except.error Fault.invalid_argument ∧
    (∃ mq : MessqgeQueue Nat, MessqgeQueue.construct 3 = Except.ok mq ∧
      mq.output_channels_.length = 3 ∧ mq.data_ = [] ∧
      (∀ idx, idx < 3 → ∃ c, mq.output_channels_[idx]? = some c ∧
        c.iterator_index_ = 0 ∧ c.max_size = 0 ∧
        mq.call (Call.max_size idx) = Except.ok (Ret.num 0, mq) ∧
        mq.call (Call.size idx) = Except.ok (Ret.num 0, mq)) ∧
      mq.output_channels_size = Except.ok (List.replicate 3 0, mq)) :=
  ⟨(construct_spec (T := Nat) 0).1 (by decide), (construct_spec (T := Nat) 3).2 (by decide)⟩

/-- C9. `output_channel(idx)` throws `out_of_range` exactly when `idx` is at least the number
of channels and returns the reference to the `idx`-th channel otherwise; it never changes the
queue; different valid indices give different references, and a call through an index that
is out of range ends with that exception. -/
theorem output_channel_spec (mq : MessqgeQueue T) (idx : Nat) :
    ((mq.output_channel idx).1 = Except.error Fault.out_of_range ↔
      mq.output_channels_.length ≤ idx) ∧
    ((mq.output_channel idx).1 = Except.ok { slot := idx } ↔
      idx < mq.output_channels_.length) ∧
    (mq.output_channel idx).2 = mq ∧
    (∀ jdx, idx < mq.output_channels_.length → jdx < mq.output_channels_.length → idx ≠ jdx →
      (mq.output_channel idx).1 ≠ (mq.output_channel jdx).1) ∧
    (mq.output_channels_.length ≤ idx →
      mq.call (Call.size idx) = Except.error Fault.out_of_range ∧
      mq.call (Call.pop idx) = Except.error Fault.out_of_range ∧
      mq.call (Call.max_size idx) = Except.error Fault.out_of_range ∧
      ∀ n, mq.call (Call.set_max_size idx n) = Except.error Fault.out_of_range) := by
  unfold MessqgeQueue.output_channel
  by_cases h : idx < mq.output_channels_.length
  · rw [if_pos h]
    refine ⟨by simp; omega, by simp [h], rfl, ?_, fun hh => absurd h (by omega)⟩
    intro jdx _ hj hne
    rw [if_pos hj]
    simp only [ne_eq, Except.ok.injEq, ChannelRef.mk.injEq]
    exact hne
  · rw [if_neg h]
    refine ⟨by simp; omega, by simp [h], rfl, fun _ hh => absurd hh h, fun _ => ?_⟩
    simp [MessqgeQueue.call, MessqgeQueue.output_channel, h]

theorem output_channel_spec_witness :
    (MessqgeQueue.output_channel (fresh Nat 2) 0).1 ≠ (MessqgeQueue.output_channel (fresh Nat 2) 1).1 ∧
    (MessqgeQueue.call (fresh Nat 2) (Call.size 2) = Except.error Fault.out_of_range ∧
      MessqgeQueue.call (fresh Nat 2) (Call.pop 2) = Except.error Fault.out_of_range ∧
      MessqgeQueue.call (fresh Nat 2) (Call.max_size 2) = Except.error Fault.out_of_range ∧
      ∀ n, MessqgeQueue.call (fresh Nat 2) (Call.set_max_size 2 n) =
        Except.error Fault.out_of_range) :=
  ⟨(output_channel_spec (fresh Nat 2) 0).2.2.2.1 1 (by decide) (by decide) (by decide),
    (output_channel_spec (fresh Nat 2) 2).2.2.2.2 (by decide)⟩

/-- C10. For a channel `idx` of the queue and a limit `n` of the `size_type` range,
`max_size(n)` followed by `max_size()` returns `n`, and the setter changes neither the log
nor another channel nor the cursor, position reference or stagnation flag of this channel. -/
theorem max_size_set_get (mq : MessqgeQueue T) (idx n : Nat) (c : OutputChannel)
    (hget : mq.output_channels_[idx]? = some c) (hn : n < 18446744073709551616) :
    ∃ mq1, mq.call (Call.set_max_size idx n) = Except.ok (Ret.done, mq1) ∧
      mq1.call (Call.max_size idx) = Except.ok (Ret.num n, mq1) ∧
      mq1.data_ = mq.data_ ∧ mq1.erased_ = mq.erased_ ∧
      mq1.output_channels_.length = mq.output_channels_.length ∧
      (∀ j, j ≠ idx → mq1.output_channels_[j]? = mq.output_channels_[j]?) ∧
      ∃ c1, mq1.output_channels_[idx]? = some c1 ∧ c1.max_size = n ∧
        c1.iterator_index_ = c.iterator_index_ ∧ c1.iterator_ = c.iterator_ ∧
        c1.iterator_stagnated_ = c.iterator_stagnated_ := by
  have hlt : idx < mq.output_channels_.length := by
    by_contra hcon
    rw [List.getElem?_eq_none (by omega)] at hget
    simp at hget
  have hm : (c.set_max_size n).max_size = n := by
    simp only [OutputChannel.set_max_size, OutputChannel.max_size]
    exact size_type_of_intmax_of n hn
  have hget1 : (mq.output_channels_.set idx (c.set_max_size n))[idx]? =
      some (c.set_max_size n) := List.getElem?_set_self hlt
  refine ⟨{ mq with output_channels_ := mq.output_channels_.set idx (c.set_max_size n) },
    ?_, ?_, rfl, rfl, by simp, ?_, c.set_max_size n, hget1, hm, ?_, ?_, ?_⟩
  · simp only [MessqgeQueue.call, output_channel_of_lt _ _ hlt,
      MessqgeQueue.channel_set_max_size, hget]
  · have hlt1 : idx < (mq.output_channels_.set idx (c.set_max_size n)).length := by
      simpa using hlt
    simp only [MessqgeQueue.call, MessqgeQueue.output_channel, hlt1, if_true,
      MessqgeQueue.channel_max_size, hget1, hm]
  · intro j hj
    exact List.getElem?_set_ne (Ne.symm hj)
  · simp only [OutputChannel.set_max_size]
  · simp only [OutputChannel.set_max_size]
  · simp only [OutputChannel.set_max_size]

theorem max_size_set_get_witness :
    ∃ mq1, MessqgeQueue.call (fresh Nat 2) (Call.set_max_size 0 18446744073709551615) =
        Except.ok (Ret.done, mq1) ∧
      mq1.call (Call.max_size 0) = Except.ok (Ret.num 18446744073709551615, mq1) ∧
      mq1.data_ = (fresh Nat 2).data_ ∧ mq1.erased_ = (fresh Nat 2).erased_ ∧
      mq1.output_channels_.length = (fresh Nat 2).output_channels_.length ∧
      (∀ j, j ≠ 0 → mq1.output_channels_[j]? = (fresh Nat 2).output_channels_[j]?) ∧
      ∃ c1, mq1.output_channels_[0]? = some c1 ∧ c1.max_size = 18446744073709551615 ∧
        c1.iterator_index_ = unpositioned.iterator_index_ ∧
        c1.iterator_ = unpositioned.iterator_ ∧
        c1.iterator_stagnated_ = unpositioned.iterator_stagnated_ :=
  max_size_set_get (fresh Nat 2) 0 18446744073709551615 unpositioned rfl (by decide)

/-- C11 (failing input). Two channels. Both executions make the same pushes and the same
calls on channel 0, in the same order: `push 10`, `pop`, `max_size(2^64-1)`, `size()`,
`max_size(0)`, `push 11`, `push 12`, `pop`.  The second execution also pops channel 1 twice,
each time when that channel has one unread entry.  The last pop on channel 0 returns 10 in
the first execution and 11 in the second. -/
theorem dependence_after_huge_limit :
    (execute 2 [Call.push 10, Call.pop 0, Call.set_max_size 0 18446744073709551615, Call.size 0,
        Call.set_max_size 0 0, Call.push 11, Call.push 12, Call.pop 0] :
        Except Fault (List (Ret Nat) × MessqgeQueue Nat)) =
      Except.ok ([Ret.done, Ret.val 10, Ret.done, Ret.num 18446744073709551615, Ret.done,
          Ret.done, Ret.done, Ret.val 10],
        { data_ := [10, 11, 12], erased_ := 0,
          output_channels_ :=
            [{ max_size_ := 0, iterator_ := ListIter.node 1, iterator_stagnated_ := false,
               iterator_index_ := 3 },
             { max_size_ := 0, iterator_ := ListIter.past_the_end, iterator_stagnated_ := true,
               iterator_index_ := 0 }] }) ∧
    (execute 2 [Call.push 10, Call.pop 0, Call.set_max_size 0 18446744073709551615, Call.size 0,
        Call.set_max_size 0 0, Call.pop 1, Call.push 11, Call.pop 1, Call.push 12, Call.pop 0] :
        Except Fault (List (Ret Nat) × MessqgeQueue Nat)) =
      Except.ok ([Ret.done, Ret.val 10, Ret.done, Ret.num 18446744073709551615, Ret.done,
          Ret.val 10, Ret.done, Ret.val 11, Ret.done, Ret.val 11],
        { data_ := [11, 12], erased_ := 1,
          output_channels_ :=
            [{ max_size_ := 0, iterator_ := ListIter.node 2, iterator_stagnated_ := false,
               iterator_index_ := 2 },
             { max_size_ := 0, iterator_ := ListIter.node 1, iterator_stagnated_ := true,
               iterator_index_ := 1 }] }) ∧
    List.filter (Call.concerns 0)
        [Call.push 10, Call.pop 0, Call.set_max_size 0 18446744073709551615, Call.size 0,
          Call.set_max_size 0 0, Call.push 11, Call.push 12, (Call.pop 0 : Call Nat)] =
      List.filter (Call.concerns 0)
        [Call.push 10, Call.pop 0, Call.set_max_size 0 18446744073709551615, Call.size 0,
          Call.set_max_size 0 0, Call.pop 1, Call.push 11, Call.pop 1, Call.push 12,
          Call.pop 0] ∧
    seen 0
        [Call.push 10, Call.pop 0, Call.set_max_size 0 18446744073709551615, Call.size 0,
          Call.set_max_size 0 0, Call.push 11, Call.push 12, Call.pop 0]
        [Ret.done, Ret.val 10, Ret.done, Ret.num 18446744073709551615, Ret.done,
          Ret.done, Ret.done, Ret.val 10] =
      [Ret.val 10, Ret.num 18446744073709551615, Ret.val 10] ∧
    seen 0
        [Call.push 10, Call.pop 0, Call.set_max_size 0 18446744073709551615, Call.size 0,
          Call.set_max_size 0 0, Call.pop 1, Call.push 11, Call.pop 1, Call.push 12, Call.pop 0]
        [Ret.done, Ret.val 10, Ret.done, Ret.num 18446744073709551615, Ret.done,
          Ret.val 10, Ret.done, Ret.val 11, Ret.done, Ret.val 11] =
      [Ret.val 10, Ret.num 18446744073709551615, Ret.val 11] :=
  ⟨rfl, rfl, rfl, rfl, rfl⟩

/-- C13 (failing input). One channel: `push 10`, `pop`, `max_size(2^64-1)`, `size()`,
`max_size(5)` leave the channel with limit `W = 5`, cursor 2 and a log of length 1; the
raw backlog `data_.size() - iterator_index_` is `2^64-1` in `size_type`.  The next `size()`
leaves the cursor at 2 and returns `2^64-1`, which is more than `W`. -/
theorem size_above_small_limit :
    (execute 1 [Call.push 10, Call.pop 0, Call.set_max_size 0 18446744073709551615, Call.size 0,
        Call.set_max_size 0 5] : Except Fault (List (Ret Nat) × MessqgeQueue Nat)) =
      Except.ok ([Ret.done, Ret.val 10, Ret.done, Ret.num 18446744073709551615, Ret.done],
        { data_ := [10], erased_ := 0,
          output_channels_ := [{ max_size_ := 5, iterator_ := ListIter.past_the_end,
                                 iterator_stagnated_ := true, iterator_index_ := 2 }] }) ∧
    (execute 1 [Call.push 10, Call.pop 0, Call.set_max_size 0 18446744073709551615, Call.size 0,
        Call.set_max_size 0 5, Call.size 0] :
        Except Fault (List (Ret Nat) × MessqgeQueue Nat)) =
      Except.ok ([Ret.done, Ret.val 10, Ret.done, Ret.num 18446744073709551615, Ret.done,
          Ret.num 18446744073709551615],
        { data_ := [10], erased_ := 0,
          output_channels_ := [{ max_size_ := 5, iterator_ := ListIter.node 0,
                                 iterator_stagnated_ := false, iterator_index_ := 2 }] }) ∧
    OutputChannel.raw_size
        ({ data_ := [10], erased_ := 0, output_channels_ := [] } : MessqgeQueue Nat)
        { max_size_ := 5, iterator_ := ListIter.past_the_end, iterator_stagnated_ := true,
          iterator_index_ := 2 } = 18446744073709551615 :=
  ⟨rfl, rfl, rfl⟩

/-- C14 (failing input). One channel: `push 10`, `push 11`, `pop`, `pop`,
`max_size(2^64-1)`, `size()`, `pop` leave a log of length 2 and the cursor at 4.  In the
next push, `clean_front_data` runs on a log of length 3 with minimum cursor 4: it removes
the first 2 entries and leaves the cursor at 2, where reclamation with `m` the minimum cursor
removes the first 3 entries and leaves the cursor at 1. -/
theorem reclaim_differs_from_min_cursor :
    (execute 1 [Call.push 10, Call.push 11, Call.pop 0, Call.pop 0,
        Call.set_max_size 0 18446744073709551615, Call.size 0, Call.pop 0] :
        Except Fault (List (Ret Nat) × MessqgeQueue Nat)) =
      Except.ok ([Ret.done, Ret.done, Ret.val 10, Ret.val 11, Ret.done,
          Ret.num 18446744073709551615, Ret.val 10],
        { data_ := [10, 11], erased_ := 0,
          output_channels_ := [{ max_size_ := -1, iterator_ := ListIter.node 1,
                                 iterator_stagnated_ := false, iterator_index_ := 4 }] }) ∧
    MessqgeQueue.min_cursor
        ({ data_ := [10, 11] ++ [12], erased_ := 0,
           output_channels_ := [{ max_size_ := -1, iterator_ := ListIter.node 1,
                                  iterator_stagnated_ := false, iterator_index_ := 4 }] }
          : MessqgeQueue Nat) = some 4 ∧
    MessqgeQueue.clean_front_data
        ({ data_ := [10, 11] ++ [12], erased_ := 0,
           output_channels_ := [{ max_size_ := -1, iterator_ := ListIter.node 1,
                                  iterator_stagnated_ := false, iterator_index_ := 4 }] }
          : MessqgeQueue Nat) =
      { data_ := [12], erased_ := 2,
        output_channels_ := [{ max_size_ := -1, iterator_ := ListIter.node 1,
                               iterator_stagnated_ := false, iterator_index_ := 2 }] } ∧
    MessqgeQueue.reclaim_spec
        ({ data_ := [10, 11] ++ [12], erased_ := 0,
           output_channels_ := [{ max_size_ := -1, iterator_ := ListIter.node 1,
                                  iterator_stagnated_ := false, iterator_index_ := 4 }] }
          : MessqgeQueue Nat) =
      { data_ := [], erased_ := 3,
        output_channels_ := [{ max_size_ := -1, iterator_ := ListIter.node 1,
                               iterator_stagnated_ := false, iterator_index_ := 1 }] } ∧
    MessqgeQueue.clean_front_data
        ({ data_ := [10, 11] ++ [12], erased_ := 0,
           output_channels_ := [{ max_size_ := -1, iterator_ := ListIter.node 1,
                                  iterator_stagnated_ := false, iterator_index_ := 4 }] }
          : MessqgeQueue Nat) ≠
      MessqgeQueue.reclaim_spec
        { data_ := [10, 11] ++ [12], erased_ := 0,
          output_channels_ := [{ max_size_ := -1, iterator_ := ListIter.node 1,
                                 iterator_stagnated_ := false, iterator_index_ := 4 }] } :=
  ⟨rfl, rfl, rfl, rfl, by decide⟩

/-- C15 (failing input). One channel: after `push 10`, `push 11`, `pop`, `pop`,
`max_size(2^64-1)`, `size()`, `pop` the position reference of the channel is on the second
node of the log, the entry 11.  The push of 12 removes the entries 10 and 11 from the head:
the referenced node is no longer in the log, and the next pop, which proceeds because
`size()` is not 0, uses the dangling reference. -/
theorem reclaim_erases_referenced_entry :
    (execute 1 [Call.push 10, Call.push 11, Call.pop 0, Call.pop 0,
        Call.set_max_size 0 18446744073709551615, Call.size 0, Call.pop 0] :
        Except Fault (List (Ret Nat) × MessqgeQueue Nat)) =
      Except.ok ([Ret.done, Ret.done, Ret.val 10, Ret.val 11, Ret.done,
          Ret.num 18446744073709551615, Ret.val 10],
        { data_ := [10, 11], erased_ := 0,
          output_channels_ := [{ max_size_ := -1, iterator_ := ListIter.node 1,
                                 iterator_stagnated_ := false, iterator_index_ := 4 }] }) ∧
    MessqgeQueue.iter_deref
        ({ data_ := [10, 11], erased_ := 0, output_channels_ := [] } : MessqgeQueue Nat)
        (ListIter.node 1) = Except.ok 11 ∧
    (execute 1 [Call.push 10, Call.push 11, Call.pop 0, Call.pop 0,
        Call.set_max_size 0 18446744073709551615, Call.size 0, Call.pop 0, Call.push 12] :
        Except Fault (List (Ret Nat) × MessqgeQueue Nat)) =
      Except.ok ([Ret.done, Ret.done, Ret.val 10, Ret.val 11, Ret.done,
          Ret.num 18446744073709551615, Ret.val 10, Ret.done],
        { data_ := [12], erased_ := 2,
          output_channels_ := [{ max_size_ := -1, iterator_ := ListIter.node 1,
                                 iterator_stagnated_ := false, iterator_index_ := 2 }] }) ∧
    MessqgeQueue.iter_deref
        ({ data_ := [12], erased_ := 2, output_channels_ := [] } : MessqgeQueue Nat)
        (ListIter.node 1) = Except.error Fault.undefined_behaviour ∧
    (execute 1 [Call.push 10, Call.push 11, Call.pop 0, Call.pop 0,
        Call.set_max_size 0 18446744073709551615, Call.size 0, Call.pop 0, Call.push 12,
        Call.pop 0] : Except Fault (List (Ret Nat) × MessqgeQueue Nat)) =
      Except.error Fault.undefined_behaviour :=
  ⟨rfl, rfl, rfl, rfl, rfl⟩

/-- C16. In every state reached by an execution that gives channel `idx` no limit of `2^63`
or more, `size()` on that channel returns without undefined behaviour and, when the log is
not empty, leaves the position reference on a node of the log (the clamp's skip does not reach
the end); when `size()` is positive, a stagnated position reference is on a node that has a
successor in the log, so that stepping it forward lands on a node of the log, and the pop
returns the entry of a node of the log, every dereference and increment being defined. -/
theorem pop_stays_in_log (count idx : Nat) (cs : List (Call T)) (rs : List (Ret T))
    (mq : MessqgeQueue T) (hex : execute count cs = Except.ok (rs, mq)) (hidx : idx < count)
    (hlim : ∀ cl ∈ cs, cl.limit_in_range idx = true) :
    ∃ c s c1, mq.output_channels_[idx]? = some c ∧ c.size mq = Except.ok (s, c1) ∧
      (mq.data_ ≠ [] → ∃ a, c1.iterator_ = ListIter.node a ∧ mq.erased_ ≤ a ∧
        a < mq.erased_ + mq.data_.length) ∧
      (0 < s →
        (c1.iterator_stagnated_ = true → ∃ a, c1.iterator_ = ListIter.node a ∧
          a + 1 < mq.erased_ + mq.data_.length ∧
          mq.iter_next c1.iterator_ = Except.ok (ListIter.node (a + 1))) ∧
        ∃ x c2 a, c.pop mq = Except.ok (x, c2) ∧ c1.pop_body mq = Except.ok (x, c2) ∧
          mq.erased_ ≤ a ∧ a < mq.erased_ + mq.data_.length ∧
          mq.iter_deref (ListIter.node a) = Except.ok x) := by
  obtain ⟨hb, c, hget, hc⟩ := reachable_chan_ok hex hidx hlim
  obtain ⟨c1, g1, g2, _, g4, _, g6⟩ := size_ok mq c hc hb
  have hi0 := g2.index_nonneg
  have hi1 := g2.index_le
  have hnode : mq.data_ ≠ [] → ∃ a, c1.iterator_ = ListIter.node a ∧
      ((c1.iterator_stagnated_ = true ∧ 1 ≤ c1.iterator_index_ ∧
          (a : Int) + 1 = (mq.erased_ : Int) + c1.iterator_index_) ∨
        (c1.iterator_stagnated_ = false ∧ c1.iterator_index_ < (mq.data_.length : Int) ∧
          (a : Int) = (mq.erased_ : Int) + c1.iterator_index_)) := by
    intro hd
    have hit := g2.iter_ok
    unfold IterOK at hit
    cases hci : c1.iterator_ with
    | past_the_end => exact absurd hci (g4 hd)
    | node a =>
      rw [hci] at hit
      exact ⟨a, rfl, hit⟩
  refine ⟨c, c1.raw_size mq, c1, hget, g1, ?_, ?_⟩
  · intro hd
    obtain ⟨a, ha, hor⟩ := hnode hd
    refine ⟨a, ha, ?_, ?_⟩
    · rcases hor with ⟨_, h1, h2⟩ | ⟨_, h1, h2⟩ <;> omega
    · rcases hor with ⟨_, h1, h2⟩ | ⟨_, h1, h2⟩ <;> omega
  · intro hs
    have hlt : c1.iterator_index_ < (mq.data_.length : Int) := by omega
    have hd : mq.data_ ≠ [] := by
      intro hnil
      rw [hnil] at hlt
      simp only [List.length_nil] at hlt
      omega
    obtain ⟨a, ha, hor⟩ := hnode hd
    constructor
    · intro hst
      rcases hor with ⟨_, h1, h2⟩ | ⟨hf, _, _⟩
      · refine ⟨a, ha, by omega, ?_⟩
        rw [ha]
        simp only [MessqgeQueue.iter_next]
        rw [if_pos ⟨by omega, by omega⟩, if_pos (by omega)]
      · rw [hst] at hf; simp at hf
    · obtain ⟨x, c2, k1, _⟩ := pop_body_ok mq c1 g2 hb (by rw [ha]; simp) hlt
      obtain ⟨b, hb0, hb1, hv, _⟩ := pop_body_spec k1
      refine ⟨x, c2, b, ?_, k1, hb0, hb1, ?_⟩
      · unfold OutputChannel.pop
        rw [g1]
        simp only
        rw [if_neg (by omega)]
        exact k1
      · simp only [MessqgeQueue.iter_deref]
        rw [if_pos hb0, hv]

theorem pop_stays_in_log_witness :
    ∃ (c : OutputChannel) (s : Nat) (c1 : OutputChannel),
      ([{ max_size_ := 1, iterator_ := ListIter.node 0, iterator_stagnated_ := true,
          iterator_index_ := 1 }] : List OutputChannel)[0]? = some c ∧
      c.size ({ data_ := [7, 8, 9], erased_ := 0,
                output_channels_ :=
                  [{ max_size_ := 1, iterator_ := ListIter.node 0, iterator_stagnated_ := true,
                     iterator_index_ := 1 }] } : MessqgeQueue Nat) = Except.ok (s, c1) ∧
      (([7, 8, 9] : List Nat) ≠ [] → ∃ a, c1.iterator_ = ListIter.node a ∧ 0 ≤ a ∧
        a < 0 + ([7, 8, 9] : List Nat).length) ∧
      (0 < s →
        (c1.iterator_stagnated_ = true → ∃ a, c1.iterator_ = ListIter.node a ∧
          a + 1 < 0 + ([7, 8, 9] : List Nat).length ∧
          MessqgeQueue.iter_next
            ({ data_ := [7, 8, 9], erased_ := 0,
               output_channels_ :=
                 [{ max_size_ := 1, iterator_ := ListIter.node 0, iterator_stagnated_ := true,
                    iterator_index_ := 1 }] } : MessqgeQueue Nat) c1.iterator_ =
            Except.ok (ListIter.node (a + 1))) ∧
        ∃ (x : Nat) (c2 : OutputChannel) (a : Nat),
          c.pop ({ data_ := [7, 8, 9], erased_ := 0,
                   output_channels_ :=
                     [{ max_size_ := 1, iterator_ := ListIter.node 0,
                        iterator_stagnated_ := true, iterator_index_ := 1 }] }
                  : MessqgeQueue Nat) = Except.ok (x, c2) ∧
          c1.pop_body ({ data_ := [7, 8, 9], erased_ := 0,
                         output_channels_ :=
                           [{ max_size_ := 1, iterator_ := ListIter.node 0,
                              iterator_stagnated_ := true, iterator_index_ := 1 }] }
                        : MessqgeQueue Nat) = Except.ok (x, c2) ∧
          0 ≤ a ∧ a < 0 + ([7, 8, 9] : List Nat).length ∧
          MessqgeQueue.iter_deref
            ({ data_ := [7, 8, 9], erased_ := 0,
               output_channels_ :=
                 [{ max_size_ := 1, iterator_ := ListIter.node 0, iterator_stagnated_ := true,
                    iterator_index_ := 1 }] } : MessqgeQueue Nat) (ListIter.node a) =
            Except.ok x) :=
  pop_stays_in_log 1 0 [Call.push 7, Call.pop 0, Call.set_max_size 0 1, Call.push 8, Call.push 9]
    [Ret.done, Ret.val 7, Ret.done, Ret.done, Ret.done]
    { data_ := [7, 8, 9], erased_ := 0,
      output_channels_ :=
        [{ max_size_ := 1, iterator_ := ListIter.node 0, iterator_stagnated_ := true,
           iterator_index_ := 1 }] }
    rfl (by decide) (by decide)

/-- C17 (failing input). One channel: after `push 10`, `pop`, `max_size(2^64-1)`, `size()`
the log has length 1 and the cursor of the channel is 2. -/
theorem cursor_beyond_log :
    (execute 1 [Call.push 10, Call.pop 0, Call.set_max_size 0 18446744073709551615, Call.size 0] :
        Except Fault (List (Ret Nat) × MessqgeQueue Nat)) =
      Except.ok ([Ret.done, Ret.val 10, Ret.done, Ret.num 18446744073709551615],
        { data_ := [10], erased_ := 0,
          output_channels_ := [{ max_size_ := -1, iterator_ := ListIter.past_the_end,
                                 iterator_stagnated_ := true, iterator_index_ := 2 }] }) ∧
    ¬ ((2 : Int) ≤ (([10] : List Nat).length : Int)) :=
  ⟨rfl, by decide⟩

/-- C18 (failing input). One channel: `push 10`, `push 11`, `pop`, `pop`,
`max_size(2^64-1)`, `size()`, `pop`, `push 12` leave the log `[12]`, the cursor at 2 and the
position reference, not stagnated, on the node of the entry 11, which the last push removed
from the log.  `size()` returns `2^64-1`, so a pop proceeds; it increments and dereferences
the position reference, which is on no node of the log: undefined behaviour, no entry of the
log is returned and the position reference does not end on an entry of the log. -/
theorem pop_on_erased_node :
    (execute 1 [Call.push 10, Call.push 11, Call.pop 0, Call.pop 0,
        Call.set_max_size 0 18446744073709551615, Call.size 0, Call.pop 0, Call.push 12,
        Call.size 0] : Except Fault (List (Ret Nat) × MessqgeQueue Nat)) =
      Except.ok ([Ret.done, Ret.done, Ret.val 10, Ret.val 11, Ret.done,
          Ret.num 18446744073709551615, Ret.val 10, Ret.done, Ret.num 18446744073709551615],
        { data_ := [12], erased_ := 2,
          output_channels_ := [{ max_size_ := -1, iterator_ := ListIter.node 1,
                                 iterator_stagnated_ := false, iterator_index_ := 2 }] }) ∧
    OutputChannel.size
        ({ data_ := [12], erased_ := 2, output_channels_ := [] } : MessqgeQueue Nat)
        { max_size_ := -1, iterator_ := ListIter.node 1, iterator_stagnated_ := false,
          iterator_index_ := 2 } =
      Except.ok (18446744073709551615,
        { max_size_ := -1, iterator_ := ListIter.node 1, iterator_stagnated_ := false,
          iterator_index_ := 2 }) ∧
    MessqgeQueue.iter_next
        ({ data_ := [12], erased_ := 2, output_channels_ := [] } : MessqgeQueue Nat)
        (ListIter.node 1) = Except.error Fault.undefined_behaviour ∧
    OutputChannel.pop_body
        ({ data_ := [12], erased_ := 2, output_channels_ := [] } : MessqgeQueue Nat)
        { max_size_ := -1, iterator_ := ListIter.node 1, iterator_stagnated_ := false,
          iterator_index_ := 2 } = Except.error Fault.undefined_behaviour ∧
    (execute 1 [Call.push 10, Call.push 11, Call.pop 0, Call.pop 0,
        Call.set_max_size 0 18446744073709551615, Call.size 0, Call.pop 0, Call.push 12,
        Call.size 0, Call.pop 0] : Except Fault (List (Ret Nat) × MessqgeQueue Nat)) =
      Except.error Fault.undefined_behaviour :=
  ⟨rfl, rfl, rfl, rfl, rfl⟩

/-- C19 (failing input). One channel: after `push 10`, `push 11`, `pop`, `pop`,
`max_size(2^64-1)`, `size()`, `pop`, `pop` the log has length 2 and the cursor is 5.  The push
of 12 removes 2 entries and leaves a log of length 1 and the cursor, the only one, at 3. -/
theorem min_cursor_after_push :
    (execute 1 [Call.push 10, Call.push 11, Call.pop 0, Call.pop 0,
        Call.set_max_size 0 18446744073709551615, Call.size 0, Call.pop 0, Call.pop 0] :
        Except Fault (List (Ret Nat) × MessqgeQueue Nat)) =
      Except.ok ([Ret.done, Ret.done, Ret.val 10, Ret.val 11, Ret.done,
          Ret.num 18446744073709551615, Ret.val 10, Ret.val 11],
        { data_ := [10, 11], erased_ := 0,
          output_channels_ := [{ max_size_ := -1, iterator_ := ListIter.node 1,
                                 iterator_stagnated_ := true, iterator_index_ := 5 }] }) ∧
    (execute 1 [Call.push 10, Call.push 11, Call.pop 0, Call.pop 0,
        Call.set_max_size 0 18446744073709551615, Call.size 0, Call.pop 0, Call.pop 0,
        Call.push 12] : Except Fault (List (Ret Nat) × MessqgeQueue Nat)) =
      Except.ok ([Ret.done, Ret.done, Ret.val 10, Ret.val 11, Ret.done,
          Ret.num 18446744073709551615, Ret.val 10, Ret.val 11, Ret.done],
        { data_ := [12], erased_ := 2,
          output_channels_ := [{ max_size_ := -1, iterator_ := ListIter.node 1,
                                 iterator_stagnated_ := true, iterator_index_ := 3 }] }) ∧
    MessqgeQueue.min_cursor
        ({ data_ := [12], erased_ := 2,
           output_channels_ := [{ max_size_ := -1, iterator_ := ListIter.node 1,
                                  iterator_stagnated_ := true, iterator_index_ := 3 }] }
          : MessqgeQueue Nat) = some 3 :=
  ⟨rfl, rfl, rfl⟩

/-- C20 (failing input). One channel: after `push 10`, `pop`, `max_size(2^64-1)` a first
`size()` returns `2^64-1` and leaves the position reference at the end of the log with the
stagnation flag set; a second `size()` right after it returns the same value, moves the
position reference to the first node of the log and clears the stagnation flag. -/
theorem second_size_changes_state :
    (execute 1 [Call.push 10, Call.pop 0, Call.set_max_size 0 18446744073709551615, Call.size 0] :
        Except Fault (List (Ret Nat) × MessqgeQueue Nat)) =
      Except.ok ([Ret.done, Ret.val 10, Ret.done, Ret.num 18446744073709551615],
        { data_ := [10], erased_ := 0,
          output_channels_ := [{ max_size_ := -1, iterator_ := ListIter.past_the_end,
                                 iterator_stagnated_ := true, iterator_index_ := 2 }] }) ∧
    MessqgeQueue.call
        ({ data_ := [10], erased_ := 0,
           output_channels_ := [{ max_size_ := -1, iterator_ := ListIter.past_the_end,
                                  iterator_stagnated_ := true, iterator_index_ := 2 }] }
          : MessqgeQueue Nat) (Call.size 0) =
      Except.ok (Ret.num 18446744073709551615,
        { data_ := [10], erased_ := 0,
          output_channels_ := [{ max_size_ := -1, iterator_ := ListIter.node 0,
                                 iterator_stagnated_ := false, iterator_index_ := 2 }] }) :=
  ⟨rfl, rfl⟩

end cytmwia
